import Mathlib

/-!
# Verification of the Extraction & Normalization Engine (`src/llm_extractor.py`)

This file is a shallow embedding, in Lean 4, of the core component of the
repository: the module `src/llm_extractor.py`, which drives the retrying
request orchestrator (`extract_fields_with_llm`), the raw-output coercer
(`_coerce_json`) and the normalization/disambiguation engine (`_normalize`
with its helpers `_norm_pm`, `_clean_welding_notes`, `_extract_booleans`,
`_normalize_tables`, `norm_table`).

Python values flowing through the engine are modelled by the inductive type
`JVal` (JSON-like values: `None`, booleans, integers, strings, lists,
dicts-as-association-lists).  Python dictionaries are insertion-ordered, so
an association list is a faithful model; `json` floats are not modelled
(no claim exercises them, and all numeric literals in the claims are
integers or decimal strings).  Python string operations (`str.strip`,
`str.lower`, `re.sub`, `re.search` for the handful of fixed patterns in the
source) are implemented character-by-character on `List Char`, following
the exact semantics of the corresponding Python operation on the character
sets that the source manipulates (ASCII case mapping; the Unicode micro
sign and Greek mu are carried verbatim).

Fallible Python code (statements that can raise `TypeError` /
`AttributeError` / `ValueError`) is modelled in the `Except Unit` monad.
-/

/-- JSON-like Python values: `None`, `bool`, `int`, `str`, `list`, `dict`.
Dicts are insertion-ordered association lists, as in Python 3.7+. -/
inductive JVal where
  | null : JVal
  | b : Bool → JVal
  | i : Int → JVal
  | s : String → JVal
  | arr : List JVal → JVal
  | obj : List (String × JVal) → JVal

/-- A Python dict with string keys (insertion-ordered association list). -/
abbrev Dict := List (String × JVal)

/-- Python truthiness (`bool(v)`): `None`, `False`, `0`, `""`, `[]`, `{}`
are falsy, everything else truthy. -/
def pyTruthy : JVal → Bool
  | .null => false
  | .b bb => bb
  | .i n => n != 0
  | .s st => st != ""
  | .arr xs => !xs.isEmpty
  | .obj kvs => !kvs.isEmpty

/-- `d.get(k)` on a Python dict, with `None` default. -/
def dictGet (d : Dict) (k : String) : JVal :=
  match d with
  | [] => .null
  | (k', v) :: rest => if k' = k then v else dictGet rest k

/-- `d.get(k, dflt)` on a Python dict. -/
def dictGetD (d : Dict) (k : String) (dflt : JVal) : JVal :=
  match d with
  | [] => dflt
  | (k', v) :: rest => if k' = k then v else dictGetD rest k dflt

/-- `k in d` on a Python dict. -/
def dictHas (d : Dict) (k : String) : Bool :=
  match d with
  | [] => false
  | (k', _) :: rest => k' = k || dictHas rest k

/-- `d[k] = v` on a Python dict: update in place if the key exists
(keeping its position), else append. -/
def dictSet (d : Dict) (k : String) (v : JVal) : Dict :=
  match d with
  | [] => [(k, v)]
  | (k', v') :: rest => if k' = k then (k, v) :: rest else (k', v') :: dictSet rest k v

/-- Escape one character for the (single-quoted) Python `repr` of a string. -/
def pyEscChar (c : Char) : List Char :=
  if c = '\\' then ['\\', '\\']
  else if c = '\'' then ['\\', '\'']
  else if c = '\n' then ['\\', 'n']
  else if c = '\r' then ['\\', 'r']
  else if c = '\t' then ['\\', 't']
  else [c]

mutual

/-- Python `str(v)`.  For containers this is the same as `repr(v)`. -/
def pyStr : JVal → String
  | .null => "None"
  | .b true => "True"
  | .b false => "False"
  | .i n => toString n
  | .s st => st
  | .arr xs => "[" ++ pyReprList xs ++ "]"
  | .obj kvs => "\x7b" ++ pyReprObj kvs ++ "\x7d"

/-- Python `repr(v)` (strings get quoted; approximated with single quotes). -/
def pyRepr : JVal → String
  | .null => "None"
  | .b true => "True"
  | .b false => "False"
  | .i n => toString n
  | .s st => ⟨'\'' :: (st.data.flatMap pyEscChar) ++ ['\'']⟩
  | .arr xs => "[" ++ pyReprList xs ++ "]"
  | .obj kvs => "\x7b" ++ pyReprObj kvs ++ "\x7d"

/-- Comma-separated `repr`s of list elements. -/
def pyReprList : List JVal → String
  | [] => ""
  | [x] => pyRepr x
  | x :: rest => pyRepr x ++ ", " ++ pyReprList rest

/-- Comma-separated `key: value` reprs of dict entries. -/
def pyReprObj : List (String × JVal) → String
  | [] => ""
  | [(k, v)] => pyRepr (.s k) ++ ": " ++ pyRepr v
  | (k, v) :: rest => pyRepr (.s k) ++ ": " ++ pyRepr v ++ ", " ++ pyReprObj rest

end

/-! ## Character classes and elementary string operations -/

/-- Python whitespace (`str.strip` default set and regex `\s`, ASCII part). -/
def isWsB (c : Char) : Bool :=
  c = ' ' || c = '\t' || c = '\n' || c = '\r' || c = '\x0b' || c = '\x0c'

/-- Regex word character `\w` / boundary class for `\b` (ASCII part). -/
def isWordB (c : Char) : Bool :=
  c.isAlpha || c.isDigit || c = '_'

/-- ASCII lower-casing of one character (Python `str.lower` on the
characters this source manipulates; non-ASCII characters are unchanged). -/
def lowerChar (c : Char) : Char :=
  if 'A' ≤ c && c ≤ 'Z' then Char.ofNat (c.toNat + 32) else c

/-- ASCII upper-casing of one character. -/
def upperChar (c : Char) : Char :=
  if 'a' ≤ c && c ≤ 'z' then Char.ofNat (c.toNat - 32) else c

/-- Drop matching characters from the end of a list. -/
def dropEndWhile (p : Char → Bool) (l : List Char) : List Char :=
  (l.reverse.dropWhile p).reverse

/-- Python `s.strip()` on a character list. -/
def stripL (l : List Char) : List Char :=
  dropEndWhile isWsB (l.dropWhile isWsB)

/-- Python `s.strip(" -_,")` on a character list. -/
def isSetMGJunk (c : Char) : Bool :=
  c = ' ' || c = '-' || c = '_' || c = ','

/-- Python `s.strip(" -_,")`. -/
def stripMGJunkL (l : List Char) : List Char :=
  dropEndWhile isSetMGJunk (l.dropWhile isSetMGJunk)

/-- The scan of `re.sub(r"\s+", " ", s)`: each maximal whitespace run is
replaced by one space.  Every step consumes at least one character, so the
fuel (initialized to the length by `collapseWsL`) never runs out. -/
def cwGo : Nat → List Char → List Char
  | _, [] => []
  | 0, l => l
  | fuel + 1, c :: cs =>
    if isWsB c then ' ' :: cwGo fuel (cs.dropWhile isWsB)
    else c :: cwGo fuel cs

/-- `re.sub(r"\s+", " ", s)`. -/
def collapseWsL (l : List Char) : List Char :=
  cwGo l.length l

/-- `s.replace("\r", " ").replace("\n", " ")` character map. -/
def normWsChar (c : Char) : Char :=
  if c = '\r' || c = '\n' then ' ' else c

/-- The scalar string cleanup of the normalization engine:
`v.replace("\r", " ").replace("\n", " ").strip()`. -/
def cleanStrL (l : List Char) : List Char :=
  stripL (l.map normWsChar)

/-- `re.sub` for `_DEC_COMMA = (\d+),(\d+)` with replacement `\1.\2`:
one left-to-right pass converting decimal commas, consuming both digit
runs of each match (so overlapping chains like `1,2,3` convert only the
first comma). -/
def decGoF : Nat → List Char → List Char
  | _, [] => []
  | 0, l => l
  | fuel + 1, c :: cs =>
    if c.isDigit then
      let run1 := (c :: cs).takeWhile Char.isDigit
      let rest1 := cs.dropWhile Char.isDigit
      if rest1.headD 'x' = ',' && (rest1.tail.headD 'x').isDigit then
        run1 ++ '.' ::
          (rest1.tail.takeWhile Char.isDigit ++ decGoF fuel (rest1.tail.dropWhile Char.isDigit))
      else run1 ++ decGoF fuel rest1
    else c :: decGoF fuel cs

/-- `re.sub` for `_DEC_COMMA` (see `decGoF`); every step consumes at least
one character, so the fuel never runs out. -/
def decGo (l : List Char) : List Char :=
  decGoF l.length l

/-- `re.sub` for `_PM_VARIANTS = (±|\+/?-)` with replacement `±`. -/
def pmGo : List Char → List Char
  | [] => []
  | '±' :: cs => '±' :: pmGo cs
  | '+' :: '/' :: '-' :: cs => '±' :: pmGo cs
  | '+' :: '-' :: cs => '±' :: pmGo cs
  | c :: cs => c :: pmGo cs

/-- `_norm_pm`: decimal-comma conversion, plus-minus canonicalization, strip.
Empty strings are returned unchanged (the `if not s: return s` guard). -/
def normPm (st : String) : String :=
  if st = "" then st else ⟨stripL (pmGo (decGo st.data))⟩

/-! ## Regex models

The source uses a small, fixed set of `re` patterns.  Each is modelled as a
first-order scanner on `List Char` that reproduces Python's leftmost,
ordered-alternation, greedy-with-backtracking match semantics for that
specific pattern (commit points are only used where backtracking provably
cannot succeed, e.g. shrinking a greedy `\d+` that is followed by a
non-digit requirement). -/

/-- Greek small mu (U+03BC), appearing in the surface-roughness unit fixup. -/
def greekMu : Char := Char.ofNat 956

/-- Micro sign (U+00B5), the canonical micrometre prefix in the source. -/
def microSign : Char := Char.ofNat 181

/-- `\b` after a match: the next character is a non-word character or the end. -/
def bAfter : List Char → Bool
  | [] => true
  | c :: _ => !isWordB c

/-- Case-insensitive literal match: consume `pat` (given lower-case) from the
front of the input, returning the consumed original characters and the rest. -/
def litCI (pat : List Char) (l : List Char) : Option (List Char × List Char) :=
  match pat, l with
  | [], rest => some ([], rest)
  | p :: ps, x :: xs =>
    if lowerChar x = p then
      match litCI ps xs with
      | some (cons, rest) => some (x :: cons, rest)
      | none => none
    else none
  | _ :: _, [] => none

/-- One alternative of the material-grade pattern: `304L?\b` / `316L?\b`
(parameterized by the three digits). -/
def gradeNum (d1 d2 d3 : Char) (l : List Char) : Option (List Char × List Char) :=
  match l with
  | a :: b' :: c :: rest =>
    if a = d1 && b' = d2 && c = d3 then
      match rest with
      | x :: rest2 =>
        if lowerChar x = 'l' && bAfter rest2 then some ([a, b', c, x], rest2)
        else if bAfter rest then some ([a, b', c], rest)
        else none
      | [] => some ([a, b', c], [])
    else none
  | _ => none

/-- Alternative `A2\b` / `A4\b` of the material-grade pattern. -/
def gradeA (d : Char) (l : List Char) : Option (List Char × List Char) :=
  match l with
  | a :: x :: rest =>
    if lowerChar a = 'a' && x = d && bAfter rest then some ([a, x], rest) else none
  | _ => none

/-- Alternative `S\s*\d{3}\b` of the material-grade pattern. -/
def gradeS (l : List Char) : Option (List Char × List Char) :=
  match l with
  | sh :: rest =>
    if lowerChar sh = 's' then
      let ws := rest.takeWhile isWsB
      let r2 := rest.dropWhile isWsB
      match r2 with
      | d1 :: d2 :: d3 :: r3 =>
        if d1.isDigit && d2.isDigit && d3.isDigit && bAfter r3 then
          some (sh :: (ws ++ [d1, d2, d3]), r3)
        else none
      | _ => none
    else none
  | [] => none

/-- Alternative `1\.\d{4}\b` of the material-grade pattern. -/
def gradeEuro (l : List Char) : Option (List Char × List Char) :=
  match l with
  | one :: dot :: d1 :: d2 :: d3 :: d4 :: rest =>
    if one = '1' && dot = '.' && d1.isDigit && d2.isDigit && d3.isDigit && d4.isDigit
        && bAfter rest then
      some ([one, dot, d1, d2, d3, d4], rest)
    else none
  | _ => none

/-- Alternative `EN\s*AW-\d+\b` of the material-grade pattern. -/
def gradeENAW (l : List Char) : Option (List Char × List Char) :=
  match l with
  | e :: n :: rest =>
    if lowerChar e = 'e' && lowerChar n = 'n' then
      let ws := rest.takeWhile isWsB
      let r2 := rest.dropWhile isWsB
      match r2 with
      | a :: w :: dash :: r3 =>
        if lowerChar a = 'a' && lowerChar w = 'w' && dash = '-' then
          let ds := r3.takeWhile Char.isDigit
          let r4 := r3.dropWhile Char.isDigit
          if !ds.isEmpty && bAfter r4 then
            some (e :: n :: (ws ++ a :: w :: dash :: ds), r4)
          else none
        else none
      | _ => none
    else none
  | _ => none

/-- Alternative `AlMg\d\b` of the material-grade pattern. -/
def gradeAlMg (l : List Char) : Option (List Char × List Char) :=
  match l with
  | a :: el :: m :: g :: d :: rest =>
    if lowerChar a = 'a' && lowerChar el = 'l' && lowerChar m = 'm' && lowerChar g = 'g'
        && d.isDigit && bAfter rest then
      some ([a, el, m, g, d], rest)
    else none
  | _ => none

/-- Try the alternatives of
`\b(304L?|316L?|A2|A4|S\s*\d{3}|1\.\d{4}|EN\s*AW-\d+|AlMg\d)\b` (with `re.I`)
at the current position, in pattern order.  The `\b` before the group is
checked by the caller. -/
def gradeAt (l : List Char) : Option (List Char × List Char) :=
  match gradeNum '3' '0' '4' l with
  | some r => some r
  | none =>
  match gradeNum '3' '1' '6' l with
  | some r => some r
  | none =>
  match gradeA '2' l with
  | some r => some r
  | none =>
  match gradeA '4' l with
  | some r => some r
  | none =>
  match gradeS l with
  | some r => some r
  | none =>
  match gradeEuro l with
  | some r => some r
  | none =>
  match gradeENAW l with
  | some r => some r
  | none => gradeAlMg l

/-- `re.search` scan for the material-grade pattern: try each position left to
right; `prevWord` tracks the word-ness of the previous character for the
leading `\b` (every alternative starts with a word character, so the leading
boundary holds exactly when the previous character is not a word character).
Returns `m.group(1)` on success. -/
def gradeGo (prevWord : Bool) (l : List Char) : Option (List Char) :=
  match l with
  | [] => none
  | c :: cs =>
    match (if prevWord then none else gradeAt (c :: cs)) with
    | some (g, _) => some g
    | none => gradeGo (isWordB c) cs

/-- `re.search(MATERIAL_GRADE_PATTERN, s, re.I)`, returning `m.group(1)`. -/
def gradeSearch (st : String) : Option String :=
  (gradeGo false st.data).map (fun g => ⟨g⟩)

/-- The pair-wise `normWsChar` map on a matcher result. -/
def mapPairNorm (p : List Char × List Char) : List Char × List Char :=
  (p.1.map normWsChar, p.2.map normWsChar)

/-- One alternative of
`_MATERIAL_FORM_WORDS = \b(sheet|plate|round\s*bar|square\s*bar|flat\s*bar|tube|pipe)\b`
(with `re.I`): a case-insensitive word, optionally followed by `\s*` and a
second word, then the trailing `\b`.  Returns the rest of the input after
the match. -/
def formWord (w1 : List Char) (w2 : Option (List Char)) (l : List Char) : Option (List Char) :=
  match litCI w1 l with
  | none => none
  | some (_, r) =>
    match w2 with
    | none => if bAfter r then some r else none
    | some w =>
      match litCI w (r.dropWhile isWsB) with
      | some (_, r2) => if bAfter r2 then some r2 else none
      | none => none

/-- Try the form-word alternatives, in pattern order, at the current
position (the leading `\b` is checked by the caller). -/
def formAt (l : List Char) : Option (List Char) :=
  match formWord ['s', 'h', 'e', 'e', 't'] none l with
  | some r => some r
  | none =>
  match formWord ['p', 'l', 'a', 't', 'e'] none l with
  | some r => some r
  | none =>
  match formWord ['r', 'o', 'u', 'n', 'd'] (some ['b', 'a', 'r']) l with
  | some r => some r
  | none =>
  match formWord ['s', 'q', 'u', 'a', 'r', 'e'] (some ['b', 'a', 'r']) l with
  | some r => some r
  | none =>
  match formWord ['f', 'l', 'a', 't'] (some ['b', 'a', 'r']) l with
  | some r => some r
  | none =>
  match formWord ['t', 'u', 'b', 'e'] none l with
  | some r => some r
  | none => formWord ['p', 'i', 'p', 'e'] none l

/-- `re.sub(_MATERIAL_FORM_WORDS, "", s)` scan: at each position where the
previous character is not a word character, try the alternatives; on a
match, drop the matched characters and resume after them (the last matched
character is always a word character, so `prevWord` becomes `true`).
The fuel starts at the input length; every step consumes at least one
input character, so the fuel never runs out on the initial call. -/
def formGo (fuel : Nat) (prevWord : Bool) (l : List Char) : List Char :=
  match fuel, l with
  | _, [] => []
  | 0, l => l
  | fuel + 1, c :: cs =>
    match (if prevWord then none else formAt (c :: cs)) with
    | some rest => formGo fuel true rest
    | none => c :: formGo fuel (isWordB c) cs

/-- `_MATERIAL_FORM_WORDS.sub("", s)`. -/
def formSub (st : String) : String :=
  ⟨formGo st.data.length false st.data⟩

/-- Literal-word list of
`\b(weld|grind|smooth|finish|corner|length|stitch|continuous)\b` (re.I). -/
def weldKeywords : List (List Char) :=
  [['w', 'e', 'l', 'd'], ['g', 'r', 'i', 'n', 'd'], ['s', 'm', 'o', 'o', 't', 'h'],
   ['f', 'i', 'n', 'i', 's', 'h'], ['c', 'o', 'r', 'n', 'e', 'r'],
   ['l', 'e', 'n', 'g', 't', 'h'], ['s', 't', 'i', 't', 'c', 'h'],
   ['c', 'o', 'n', 't', 'i', 'n', 'u', 'o', 'u', 's']]

/-- Does one of the (lower-case, letters-only) words match at the head of
`l`, case-insensitively, with a `\b` after it? -/
def wordAt (w : List Char) (l : List Char) : Bool :=
  match litCI w l with
  | some (_, rest) => bAfter rest
  | none => false

/-- Boolean `re.search` for an alternation of plain words wrapped in `\b...\b`. -/
def wordSearch (ws : List (List Char)) (prevWord : Bool) (l : List Char) : Bool :=
  match l with
  | [] => false
  | c :: cs =>
    (!prevWord && ws.any (fun w => wordAt w (c :: cs))) || wordSearch ws (isWordB c) cs

/-- `re.search(r"\b(weld|grind|smooth|finish|corner|length|stitch|continuous)\b", s, re.I)`
as a Boolean. -/
def weldKeywordSearch (st : String) : Bool :=
  wordSearch weldKeywords false st.data

/-- Plain substring containment (a literal-alternation `re.search` with no
metacharacters reduces to substring search). -/
def startsWithL : List Char → List Char → Bool
  | [], _ => true
  | _ :: _, [] => false
  | n :: ns, h :: hs => n == h && startsWithL ns hs

/-- Does `needle` occur anywhere in `hay`? -/
def containsSubL (needle hay : List Char) : Bool :=
  match hay with
  | [] => needle.isEmpty
  | _ :: t => startsWithL needle hay || containsSubL needle t

/-- Python `s.lower()` (ASCII). -/
def lowerStr (st : String) : String := ⟨st.data.map lowerChar⟩

/-- Python `s.upper()` (ASCII). -/
def upperStr (st : String) : String := ⟨st.data.map upperChar⟩

/-- Python `s.replace(" ", "")`. -/
def removeSpaces (st : String) : String := ⟨st.data.filter (fun c => c ≠ ' ')⟩

/-- `_extract_booleans`: lower-case the raw text and search for the fixed
keyword phrases.  The two patterns are alternations of literals (the only
metacharacter is the optional dash of `seegerring-?groeven`, expanded into
its two literal spellings). -/
def extractBooleans (raw : String) : Bool × Bool :=
  let lt := (lowerStr raw).data
  let breakEdges :=
    containsSubL "break sharp edges".data lt ||
    containsSubL "scherpe kanten breken".data lt ||
    containsSubL "deburr edges".data lt ||
    containsSubL "remove sharp edges".data lt
  let groovesSharp :=
    containsSubL "retaining ring grooves sharp".data lt ||
    containsSubL "seegerring-groeven scherp".data lt ||
    containsSubL "seegerringgroeven scherp".data lt ||
    containsSubL "keep ring grooves sharp".data lt
  (breakEdges, groovesSharp)

/-- Character class `[A-Za-z0-9_\-\/\.]` of the drawing-number capture. -/
def dnClassB (c : Char) : Bool :=
  c.isAlpha || c.isDigit || c = '_' || c = '-' || c = '/' || c = '.'

/-- Character class `[A-Za-z0-9_\-\.]` of the revision capture. -/
def revClassB (c : Char) : Bool :=
  c.isAlpha || c.isDigit || c = '_' || c = '-' || c = '.'

/-- The suffix `\s*[:\-]?\s*(CLS+)` shared by the drawing-number and revision
patterns: greedy whitespace, an optional separator, more whitespace, then a
non-empty capture from the class.  If the class fails after a consumed
separator, the regex engine backtracks and retries the capture at the
separator itself (which succeeds only when the separator is `-`, a class
member). -/
def sepCapture (cls : Char → Bool) (l : List Char) : Option (List Char) :=
  let r1 := l.dropWhile isWsB
  match r1 with
  | c :: rest =>
    if c = ':' || c = '-' then
      let r2 := rest.dropWhile isWsB
      let cap := r2.takeWhile cls
      if !cap.isEmpty then some cap
      else
        let cap2 := r1.takeWhile cls
        if !cap2.isEmpty then some cap2 else none
    else
      let cap := r1.takeWhile cls
      if !cap.isEmpty then some cap else none
  | [] => none

/-- Try `(?:Drawing\s*number|Tekening(?:\s*nummer)?)\s*[:\-]?\s*([A-Za-z0-9_\-\/\.]+)`
(re.I) at the current position, returning the capture group.  The two label
alternatives start with different letters, so they never overlap; inside the
second, the greedy optional `(?:\s*nummer)?` backtracks to the empty
alternative when the suffix fails after it. -/
def dnAt (l : List Char) : Option (List Char) :=
  match litCI ['d', 'r', 'a', 'w', 'i', 'n', 'g'] l with
  | some (_, r) =>
    (match litCI ['n', 'u', 'm', 'b', 'e', 'r'] (r.dropWhile isWsB) with
     | some (_, r2) => sepCapture dnClassB r2
     | none => none)
  | none =>
    match litCI ['t', 'e', 'k', 'e', 'n', 'i', 'n', 'g'] l with
    | some (_, r) =>
      (match litCI ['n', 'u', 'm', 'm', 'e', 'r'] (r.dropWhile isWsB) with
       | some (_, r2) =>
         (match sepCapture dnClassB r2 with
          | some cap => some cap
          | none => sepCapture dnClassB r)
       | none => sepCapture dnClassB r)
    | none => none

/-- Leftmost scan for the drawing-number pattern. -/
def dnGo : List Char → Option (List Char)
  | [] => none
  | c :: cs =>
    match dnAt (c :: cs) with
    | some cap => some cap
    | none => dnGo cs

/-- The drawing-number heuristic `re.search`, returning `m.group(1)`. -/
def dnSearch (st : String) : Option String :=
  (dnGo st.data).map (fun g => ⟨g⟩)

/-- Try `(?:Rev(?:ision)?|Revisie)\s*[:\-]?\s*([A-Za-z0-9_\-\.]+)` (re.I) at
the current position.  Backtracking order: `Rev` + `ision` + suffix, then
`Rev` + suffix, then `Revisie` + suffix. -/
def revAt (l : List Char) : Option (List Char) :=
  let revisie := fun (l' : List Char) =>
    match litCI ['r', 'e', 'v', 'i', 's', 'i', 'e'] l' with
    | some (_, r) => sepCapture revClassB r
    | none => none
  match litCI ['r', 'e', 'v'] l with
  | some (_, r) =>
    (match litCI ['i', 's', 'i', 'o', 'n'] r with
     | some (_, r2) =>
       (match sepCapture revClassB r2 with
        | some cap => some cap
        | none =>
          match sepCapture revClassB r with
          | some cap => some cap
          | none => revisie l)
     | none =>
       match sepCapture revClassB r with
       | some cap => some cap
       | none => revisie l)
  | none => revisie l

/-- Leftmost scan for the revision pattern. -/
def revGo : List Char → Option (List Char)
  | [] => none
  | c :: cs =>
    match revAt (c :: cs) with
    | some cap => some cap
    | none => revGo cs

/-- The revision heuristic `re.search`, returning `m.group(1)`. -/
def revSearch (st : String) : Option String :=
  (revGo st.data).map (fun g => ⟨g⟩)

/-! ## The normalization engine (`_normalize` and helpers) -/

/-- `TARGET_KEYS`: the canonical field list, in source order. -/
def TARGET_KEYS : List String :=
  ["Material_Grade", "Surface_Roughness", "Geometrical_Tolerancing",
   "Dimensional_Tolerancing", "Break_Sharp_Edges", "Retaining_Ring_Grooves_Sharp",
   "Welding_Notes", "Tolerances_General_Linear", "Tolerances_Machining",
   "Tolerances_Welded_Sheetmetal", "Welding_Designation", "Weld_Finish",
   "Post_Treatment", "Notes", "Drawing_Number", "Revision"]

/-- Is a value Python's `None`? -/
def isNull : JVal → Bool
  | .null => true
  | _ => false

/-- One element of the list comprehension
`[re.sub(r"\s+", " ", str(x)).strip() for x in v if str(x).strip()]`. -/
def cleanListElem (x : JVal) : Option JVal :=
  if (⟨stripL (pyStr x).data⟩ : String) ≠ "" then
    some (.s ⟨stripL (collapseWsL (pyStr x).data)⟩)
  else none

/-- The initial cleanup loop of `_normalize`: `None` is skipped; strings have
carriage returns / newlines replaced by spaces and are stripped (blank becomes
`None`); lists are cleaned element-wise; other values are left unchanged. -/
def cleanVal : JVal → JVal
  | .null => .null
  | .s st =>
    let vv : String := ⟨cleanStrL st.data⟩
    if vv = "" then .null else .s vv
  | .arr xs => .arr (xs.filterMap cleanListElem)
  | v => v

/-- Python iteration over a value (`for n in v`): lists yield their elements,
strings their characters (as 1-character strings), dicts their keys;
iterating a number or boolean raises `TypeError`. -/
def iterElems : JVal → Except Unit (List JVal)
  | .arr xs => .ok xs
  | .s st => .ok (st.data.map (fun c => JVal.s ⟨[c]⟩))
  | .obj kvs => .ok (kvs.map (fun kv => JVal.s kv.1))
  | _ => .error ()

/-- The loop body of `_clean_welding_notes`: falsy elements are skipped;
each kept element is whitespace-collapsed and stripped; elements are
de-duplicated by their lower-cased form, first occurrence (and its casing)
winning. -/
def cwnLoop : List JVal → List String → List JVal
  | [], _ => []
  | n :: rest, seen =>
    if !pyTruthy n then cwnLoop rest seen
    else
      let t : String := ⟨stripL (collapseWsL (pyStr n).data)⟩
      let tl := lowerStr t
      if seen.contains tl then cwnLoop rest seen
      else .s t :: cwnLoop rest (tl :: seen)

/-- `_clean_welding_notes(notes)`: iterate `notes or []` and de-duplicate. -/
def cleanWeldingNotes (notes : JVal) : Except Unit (List JVal) := do
  let items ← if pyTruthy notes then iterElems notes else pure []
  pure (cwnLoop items [])

/-- The micro-sign set `{"um", "µm", "μm"}` membership test done on
`u.lower()` in the surface-roughness unit fixup. -/
def isMicroUnit (u : String) : Bool :=
  let ul := lowerStr u
  ul = "um" || ul = (⟨[microSign, 'm']⟩ : String) || ul = (⟨[greekMu, 'm']⟩ : String)

/-- The surface-roughness in-place fixups (unit glyph, decimal point in the
value, stripped parameter, collapsed standard), each guarded by an
`isinstance(..., str)` check. -/
def normalizeSR (sr : Dict) : Dict :=
  let sr1 := match dictGet sr "unit" with
    | .s u =>
      let uMu : String := ⟨u.data.map (fun c => if c = greekMu then microSign else c)⟩
      let u2 := if isMicroUnit uMu then (⟨[microSign, 'm']⟩ : String) else u
      dictSet sr "unit" (.s u2)
    | _ => sr
  let sr2 := match dictGet sr1 "value" with
    | .s v => dictSet sr1 "value" (.s ⟨stripL (decGo v.data)⟩)
    | _ => sr1
  let sr3 := match dictGet sr2 "parameter" with
    | .s p => dictSet sr2 "parameter" (.s ⟨stripL p.data⟩)
    | _ => sr2
  match dictGet sr3 "standard" with
  | .s st => dictSet sr3 "standard" (.s ⟨stripL (collapseWsL st.data)⟩)
  | _ => sr3

/-- The geometrical/dimensional tolerancing in-place fixups (collapsed
`standard` and `scope` when they are strings). -/
def normalizeGeo (o : Dict) : Dict :=
  let o1 := match dictGet o "standard" with
    | .s st => dictSet o "standard" (.s ⟨stripL (collapseWsL st.data)⟩)
    | _ => o
  match dictGet o1 "scope" with
  | .s st => dictSet o1 "scope" (.s ⟨stripL (collapseWsL st.data)⟩)
  | _ => o1

/-- `_normalize_tables(obj)`: `None` for non-dicts; otherwise unit defaulted
to `"mm"` (stripped, lower-cased, `or "mm"`), and band values kept only when
they are strings, each passed through `_norm_pm`.  A truthy non-dict `bands`
raises (`.items()` on it is an `AttributeError`).  The source's final line
returns `{"unit": unit, "bands": out_bands}` whether or not `out_bands` is
empty (its conditional expression has equal branches). -/
def normalizeTables (v : JVal) : Except Unit JVal :=
  match v with
  | .obj o =>
    let unitv := dictGetD o "unit" (.s "mm")
    let unit0 := lowerStr ⟨stripL (pyStr unitv).data⟩
    let unit := if unit0 = "" then "mm" else unit0
    let bands0 := dictGetD o "bands" (.obj [])
    let bands1 := if pyTruthy bands0 then bands0 else .obj []
    match bands1 with
    | .obj bs =>
      let outBands := bs.foldl (fun acc kv =>
          match kv.2 with
          | .s sv => dictSet acc kv.1 (.s (normPm sv))
          | _ => acc) ([] : Dict)
      if !outBands.isEmpty then .ok (.obj [("unit", .s unit), ("bands", .obj outBands)])
      else .ok (.obj [("unit", .s unit), ("bands", .obj ([] : Dict))])
    | _ => .error ()
  | _ => .ok .null

/-- The local `norm_table(tbl)` of `_normalize`: `None` for non-dicts;
otherwise every non-`None` band value is stringified and passed through
`_norm_pm` (`None` band values are kept as `None`), and the unit is
defaulted to `"mm"`, stringified, stripped and lower-cased. -/
def normTable (v : JVal) : Except Unit JVal :=
  match v with
  | .obj o =>
    let bands0 := dictGet o "bands"
    let bands1 := if pyTruthy bands0 then bands0 else .obj []
    match bands1 with
    | .obj bs =>
      let outB := bs.foldl (fun acc kv =>
          match kv.2 with
          | .null => dictSet acc kv.1 .null
          | v' => dictSet acc kv.1 (.s (normPm (pyStr v')))) ([] : Dict)
      let unitv := dictGetD o "unit" (.s "mm")
      let unitv1 := if pyTruthy unitv then unitv else .s "mm"
      .ok (.obj [("unit", .s (lowerStr ⟨stripL (pyStr unitv1).data⟩)), ("bands", .obj outB)])
    | _ => .error ()
  | _ => .ok .null

/-- Rule 3 of `_normalize`: if `Material_Grade` is a string, strip the form
words and the surrounding `" -_,"` punctuation; blank results become null. -/
def mgCleanRule (mg1 : JVal) : JVal :=
  match mg1 with
  | .s st =>
    let c : String := ⟨stripMGJunkL (formSub st).data⟩
    if c = "" then JVal.null else .s c
  | _ => mg1

/-- Rule 4 of `_normalize`: infer a material grade from the raw text when
the field is falsy; the match is upper-cased with spaces removed. -/
def mgInferRule (raw : String) (mg2 : JVal) : JVal :=
  if pyTruthy mg2 then mg2 else
    match gradeSearch raw with
    | some g => .s (removeSpaces (upperStr g))
    | none => mg2

/-- Rule 5 of `_normalize` (`Post_Treatment` whitelist sanity): when the
post-treatment value is truthy it is fed to `re.search`, which raises
`TypeError` unless it is a string; on a grade match the grade is promoted
(when material grade is falsy) and post-treatment is nulled.  Returns the
new `(Material_Grade, Post_Treatment)` pair. -/
def ptRule (mg3 pt1 : JVal) : Except Unit (JVal × JVal) :=
  if pyTruthy pt1 then
    match pt1 with
    | .s p =>
      (match gradeSearch p with
       | some g =>
         Except.ok (if pyTruthy mg3 then (mg3, JVal.null) else (JVal.s g, JVal.null))
       | none => Except.ok (mg3, pt1))
    | _ => Except.error ()
  else Except.ok (mg3, pt1)

/-- Rule 6 of `_normalize`: clean truthy welding notes. -/
def wnRule (wn1 : JVal) : Except Unit JVal :=
  if pyTruthy wn1 then
    match cleanWeldingNotes wn1 with
    | .ok c => Except.ok (JVal.arr c)
    | .error e => Except.error e
  else Except.ok wn1

/-- Rule 7 of `_normalize`: a truthy welding designation is fed to
`re.search` (`TypeError` unless a string); if it contains a narrative
keyword it is appended (`.append` raises on a truthy non-list notes value)
and the notes re-cleaned.  Returns `(Welding_Notes, Welding_Designation)`. -/
def wdRule (wn2 wd1 : JVal) : Except Unit (JVal × JVal) :=
  if pyTruthy wd1 then
    match wd1 with
    | .s w =>
      if weldKeywordSearch w then
        match (if pyTruthy wn2 then
                match wn2 with
                | .arr xs => Except.ok (xs ++ [JVal.s w])
                | _ => Except.error ()
              else Except.ok [JVal.s w] : Except Unit (List JVal)) with
        | .error e => .error e
        | .ok ws =>
          match cleanWeldingNotes (.arr ws) with
          | .error e => .error e
          | .ok c => Except.ok (JVal.arr c, JVal.null)
      else Except.ok (wn2, wd1)
    | _ => Except.error ()
  else Except.ok (wn2, wd1)

/-- Rule 9 of `_normalize`: surface roughness must be a dict to be fixed
up; a non-null non-dict becomes null. -/
def srRule (sr1 : JVal) : JVal :=
  match sr1 with
  | .obj o => JVal.obj (normalizeSR o)
  | .null => JVal.null
  | _ => JVal.null

/-- Rule 10 of `_normalize`: geometrical/dimensional tolerancing must be a
dict to be trimmed; a non-null non-dict becomes null. -/
def geoRule (geo1 : JVal) : JVal :=
  match geo1 with
  | .obj o => JVal.obj (normalizeGeo o)
  | .null => JVal.null
  | _ => JVal.null

/-- Rule 11 of `_normalize`: `_normalize_tables` on truthy tables. -/
def tblRule1 (v : JVal) : Except Unit JVal :=
  if pyTruthy v then normalizeTables v else Except.ok v

/-- Rule 12 of `_normalize`: adopt a truthy legacy `Tolerances_Table` when
the general-linear table is falsy. -/
def legacyRule (legacy tgl2 : JVal) : Except Unit JVal :=
  if pyTruthy legacy && !pyTruthy tgl2 then normalizeTables legacy else Except.ok tgl2

/-- The final table pass of `_normalize`: `norm_table` on truthy tables,
null otherwise. -/
def tblRule2 (v : JVal) : Except Unit JVal :=
  if pyTruthy v then normTable v else Except.ok JVal.null

/-- Rule 13 of `_normalize`: drawing-number / revision heuristics on the
raw text when the field is falsy. -/
def heurRule (search : String → Option String) (raw : String) (v1 : JVal) : JVal :=
  if pyTruthy v1 then v1 else
    match search raw with
    | some cap => JVal.s ⟨stripL cap.data⟩
    | none => v1

/-- Rule 14 of `_normalize`: `Notes` becomes a list when it is null or a
string; other values pass through unchanged. -/
def notesRule (notes1 : JVal) : JVal :=
  if isNull notes1 then JVal.arr []
  else match notes1 with
    | .s st =>
      if (⟨stripL st.data⟩ : String) ≠ "" then JVal.arr [.s ⟨stripL st.data⟩]
      else JVal.arr []
    | v => v

/-- Rule 8 of `_normalize`: a boolean field that is exactly `None` receives
the keyword-inferred value. -/
def boolRule (inferred : Bool) (v1 : JVal) : JVal :=
  if isNull v1 then JVal.b inferred else v1

/-- `_normalize(data, raw_text)`.  The Python function mutates an
insertion-ordered dict whose keys are exactly `TARGET_KEYS`; each rule
reads and writes specific fields, so the dict is modelled by one let-bound
value per field, threaded in source order through the rule functions
above, and reassembled (in `TARGET_KEYS` order) at the end.  A raising
rule propagates its exception (`Except.error`). -/
def normalizeData (data : Dict) (raw : String) : Except Unit Dict :=
  -- out = {k: data.get(k) for k in TARGET_KEYS}
  let mg0 := dictGet data "Material_Grade"
  let sr0 := dictGet data "Surface_Roughness"
  let geo0 := dictGet data "Geometrical_Tolerancing"
  let dim0 := dictGet data "Dimensional_Tolerancing"
  let bse0 := dictGet data "Break_Sharp_Edges"
  let rrg0 := dictGet data "Retaining_Ring_Grooves_Sharp"
  let wn0 := dictGet data "Welding_Notes"
  let tgl0 := dictGet data "Tolerances_General_Linear"
  let tm0 := dictGet data "Tolerances_Machining"
  let tws0 := dictGet data "Tolerances_Welded_Sheetmetal"
  let wd0 := dictGet data "Welding_Designation"
  let wf0 := dictGet data "Weld_Finish"
  let pt0 := dictGet data "Post_Treatment"
  let notes0 := dictGet data "Notes"
  let dn0 := dictGet data "Drawing_Number"
  let rev0 := dictGet data "Revision"
  -- strings cleanup / lists
  let mg1 := cleanVal mg0
  let sr1 := cleanVal sr0
  let geo1 := cleanVal geo0
  let dim1 := cleanVal dim0
  let bse1 := cleanVal bse0
  let rrg1 := cleanVal rrg0
  let wn1 := cleanVal wn0
  let tgl1 := cleanVal tgl0
  let tm1 := cleanVal tm0
  let tws1 := cleanVal tws0
  let wd1 := cleanVal wd0
  let wf1 := cleanVal wf0
  let pt1 := cleanVal pt0
  let notes1 := cleanVal notes0
  let dn1 := cleanVal dn0
  let rev1 := cleanVal rev0
  -- Material_Grade cleanup and inference
  let mg2 := mgCleanRule mg1
  let mg3 := mgInferRule raw mg2
  -- Post_Treatment whitelist sanity
  match ptRule mg3 pt1 with
  | .error e => .error e
  | .ok ptStep =>
  let mg4 := ptStep.1
  let pt2 := ptStep.2
  -- Welding_Notes cleanup
  match wnRule wn1 with
  | .error e => .error e
  | .ok wn2 =>
  -- Welding_Designation reclassification
  match wdRule wn2 wd1 with
  | .error e => .error e
  | .ok wdStep =>
  let wn3 := wdStep.1
  let wd2 := wdStep.2
  -- Booleans from the raw text (only when the field is None)
  let inf := extractBooleans raw
  let bse2 := boolRule inf.1 bse1
  let rrg2 := boolRule inf.2 rrg1
  -- Surface_Roughness and tolerancing sub-records
  let sr2 := srRule sr1
  let geo2 := geoRule geo1
  let dim2 := geoRule dim1
  -- Tolerance tables, first pass
  match tblRule1 tgl1 with
  | .error e => .error e
  | .ok tgl2 =>
  match tblRule1 tm1 with
  | .error e => .error e
  | .ok tm2 =>
  match tblRule1 tws1 with
  | .error e => .error e
  | .ok tws2 =>
  -- Legacy support: Tolerances_Table → Tolerances_General_Linear
  match legacyRule (dictGet data "Tolerances_Table") tgl2 with
  | .error e => .error e
  | .ok tgl3 =>
  -- Second pass: norm_table
  match tblRule2 tgl3 with
  | .error e => .error e
  | .ok tgl4 =>
  match tblRule2 tm2 with
  | .error e => .error e
  | .ok tm3 =>
  match tblRule2 tws2 with
  | .error e => .error e
  | .ok tws3 =>
  -- Drawing number & revision heuristics, Notes listification
  let dn2 := heurRule dnSearch raw dn1
  let rev2 := heurRule revSearch raw rev1
  let notes2 := notesRule notes1
  Except.ok [("Material_Grade", mg4), ("Surface_Roughness", sr2),
    ("Geometrical_Tolerancing", geo2), ("Dimensional_Tolerancing", dim2),
    ("Break_Sharp_Edges", bse2), ("Retaining_Ring_Grooves_Sharp", rrg2),
    ("Welding_Notes", wn3), ("Tolerances_General_Linear", tgl4),
    ("Tolerances_Machining", tm3), ("Tolerances_Welded_Sheetmetal", tws3),
    ("Welding_Designation", wd2), ("Weld_Finish", wf1),
    ("Post_Treatment", pt2), ("Notes", notes2),
    ("Drawing_Number", dn2), ("Revision", rev2)]

/-- `_normalize(data, ...)` when `data` came from `json.loads` and may not
be a dict: `data.get(k)` on a non-dict raises `AttributeError`. -/
def normalizeAny (v : JVal) (raw : String) : Except Unit Dict :=
  match v with
  | .obj d => normalizeData d raw
  | _ => .error ()

/-! ## Raw-output coercion (`_coerce_json`) -/

/-- JSON structural whitespace. -/
def jsonWs (c : Char) : Bool :=
  c = ' ' || c = '\t' || c = '\n' || c = '\r'

/-- Digits to a natural number. -/
def digitsToNat (l : List Char) : Nat :=
  l.foldl (fun acc c => acc * 10 + (c.toNat - 48)) 0

/-- JSON number parse (model of `json.loads` numerals restricted to
integers: fractional or exponent parts are not modelled and fail). -/
def jpNumber (l : List Char) : Option (JVal × List Char) :=
  let neg := match l with
    | '-' :: _ => true
    | _ => false
  let l1 := if neg then l.tail else l
  let ds := l1.takeWhile Char.isDigit
  let r := l1.dropWhile Char.isDigit
  if ds.isEmpty then none
  else if 1 < ds.length && ds.headD '0' = '0' then none
  else match r with
    | '.' :: _ => none
    | 'e' :: _ => none
    | 'E' :: _ => none
    | _ => some (.i (if neg then -(digitsToNat ds : Int) else (digitsToNat ds : Int)), r)

/-- JSON string body parse (after the opening quote).  The common escapes
are supported; `\uXXXX` is not modelled; raw control characters are
rejected, as in `json.loads`. -/
def jpString : Nat → List Char → Option (String × List Char)
  | 0, _ => none
  | _ + 1, '"' :: r => some ("", r)
  | fuel + 1, '\\' :: e :: r =>
    let escC : Option Char :=
      if e = '"' then some '"'
      else if e = '\\' then some '\\'
      else if e = '/' then some '/'
      else if e = 'n' then some '\n'
      else if e = 't' then some '\t'
      else if e = 'r' then some '\r'
      else if e = 'b' then some (Char.ofNat 8)
      else if e = 'f' then some (Char.ofNat 12)
      else none
    (match escC with
     | some c =>
       match jpString fuel r with
       | some (st, r') => some (⟨c :: st.data⟩, r')
       | none => none
     | none => none)
  | fuel + 1, c :: r =>
    if c.toNat < 32 then none
    else
      match jpString fuel r with
      | some (st, r') => some (⟨c :: st.data⟩, r')
      | none => none
  | _ + 1, [] => none

mutual

/-- JSON value parse with fuel (model of `json.loads`; see `jsonLoads`). -/
def jpValue : Nat → List Char → Option (JVal × List Char)
  | 0, _ => none
  | fuel + 1, l0 =>
    let l := l0.dropWhile jsonWs
    match l with
    | 'n' :: 'u' :: 'l' :: 'l' :: r => some (.null, r)
    | 't' :: 'r' :: 'u' :: 'e' :: r => some (.b true, r)
    | 'f' :: 'a' :: 'l' :: 's' :: 'e' :: r => some (.b false, r)
    | '"' :: r =>
      (match jpString (fuel + 1) r with
       | some (st, r') => some (.s st, r')
       | none => none)
    | '[' :: r => jpArray fuel r
    | '\x7b' :: r => jpObject fuel r
    | _ => jpNumber l

/-- JSON array parse: after the `[`, either `]` or a comma-separated
sequence of values. -/
def jpArray : Nat → List Char → Option (JVal × List Char)
  | 0, _ => none
  | fuel + 1, l0 =>
    let l := l0.dropWhile jsonWs
    match l with
    | ']' :: r => some (.arr [], r)
    | _ =>
      match jpValue fuel l with
      | some (v, r) =>
        (match jpArrayTail fuel r with
         | some (vs, r') => some (.arr (v :: vs), r')
         | none => none)
      | none => none

/-- JSON array continuation: `, value`* then `]`. -/
def jpArrayTail : Nat → List Char → Option (List JVal × List Char)
  | 0, _ => none
  | fuel + 1, l0 =>
    let l := l0.dropWhile jsonWs
    match l with
    | ']' :: r => some ([], r)
    | ',' :: r =>
      (match jpValue fuel r with
       | some (v, r') =>
         match jpArrayTail fuel r' with
         | some (vs, r'') => some (v :: vs, r'')
         | none => none
       | none => none)
    | _ => none

/-- JSON object parse: after the `{`, either `}` or comma-separated
`"key": value` pairs.  Duplicate keys behave as repeated dict assignment
(last value wins, first position kept), as in `json.loads`. -/
def jpObject : Nat → List Char → Option (JVal × List Char)
  | 0, _ => none
  | fuel + 1, l0 =>
    let l := l0.dropWhile jsonWs
    match l with
    | '\x7d' :: r => some (.obj [], r)
    | '"' :: r =>
      (match jpString (fuel + 1) r with
       | some (k, r1) =>
         (match (r1.dropWhile jsonWs) with
          | ':' :: r2 =>
            (match jpValue fuel r2 with
             | some (v, r3) =>
               match jpObjectTail fuel r3 with
               | some (kvs, r4) =>
                 some (.obj (((k, v) :: kvs).foldl (fun acc kv => dictSet acc kv.1 kv.2) []), r4)
               | none => none
             | none => none)
          | _ => none)
       | none => none)
    | _ => none

/-- JSON object continuation: `, "key": value`* then `}`, as the plain
pair sequence (possible duplicate keys resolved by the caller's fold). -/
def jpObjectTail : Nat → List Char → Option (Dict × List Char)
  | 0, _ => none
  | fuel + 1, l0 =>
    let l := l0.dropWhile jsonWs
    match l with
    | '\x7d' :: r => some ([], r)
    | ',' :: r =>
      (match (r.dropWhile jsonWs) with
       | '"' :: r1 =>
         (match jpString (fuel + 1) r1 with
          | some (k, r2) =>
            (match (r2.dropWhile jsonWs) with
             | ':' :: r3 =>
               (match jpValue fuel r3 with
                | some (v, r4) =>
                  match jpObjectTail fuel r4 with
                  | some (kvs, r5) => some ((k, v) :: kvs, r5)
                  | none => none
                | none => none)
             | _ => none)
          | none => none)
       | _ => none)
    | _ => none

end

/-- Model of `json.loads(s)`: parse one value and require only whitespace
after it.  The fuel `2 * length + 4` is ample: every recursive descent
step consumes at least one character per two fuel units. -/
def jsonLoads (st : String) : Option JVal :=
  match jpValue (2 * st.data.length + 4) st.data with
  | some (v, rest) => if (rest.dropWhile jsonWs).isEmpty then some v else none
  | none => none

/-- `re.search(r"\{[\s\S]*\}", s)`: the match runs from the first `{` that
precedes the final `}` of the string to that final `}`. -/
def braceBlock (l : List Char) : Option (List Char) :=
  let pre := l.takeWhile (fun c => c ≠ '\x7b')
  let fromOpen := l.drop pre.length
  match fromOpen with
  | [] => none
  | _ :: _ =>
    let rev := fromOpen.reverse
    let revPre := rev.takeWhile (fun c => c ≠ '\x7d')
    let toClose := (rev.drop revPre.length).reverse
    match toClose with
    | [] => none
    | [_] => none
    | _ => some toClose

/-- `_coerce_json(s)`: strip; empty input returns `{}` (with a logged
warning); then try a direct parse; then try the brace-delimited block; a
failed block parse or a missing block raises `ValueError`. -/
def coerceJson (stIn : String) : Except Unit JVal :=
  let st : String := ⟨stripL stIn.data⟩
  if st = "" then .ok (.obj [])
  else
    match jsonLoads st with
    | some v => .ok v
    | none =>
      match braceBlock st.data with
      | some blk =>
        (match jsonLoads ⟨blk⟩ with
         | some v => .ok v
         | none => .error ())
      | none => .error ()

/-! ## The request orchestrator (`extract_fields_with_llm`) -/

/-- The schema-default empty record: all of `TARGET_KEYS` mapped to `None`,
then `Welding_Notes` and `Notes` set to empty lists. -/
def emptyResult : Dict :=
  dictSet (dictSet (TARGET_KEYS.map (fun k => (k, JVal.null)))
    "Welding_Notes" (.arr [])) "Notes" (.arr [])

/-- One generative-model call outcome, as the orchestrator distinguishes
them: a transport/service exception, a soft-blocked response
(`prompt_feedback.block_reason` set), or a response with extractable text
(an empty or missing candidate structure yields the empty text). -/
inductive MResp where
  | terr : MResp
  | blocked : MResp
  | text : String → MResp

/-- Observable trace of one `extract_fields_with_llm` run: the returned
record, the number of generative-model calls, and the `time.sleep`
durations, in order.  Durations are exact in half-units of the base delay
scale: a sleep of `1.5 * (attempt + 1)` time units is recorded as the
natural number `3 * (attempt + 1)` half-units. -/
structure ExtractTrace where
  result : Dict
  calls : Nat
  sleeps : List Nat

/-- `wait_time = 1.5 * (attempt + 1)`, in half-units (`3` is 1.5 units,
`6` is 3.0 units, `9` is 4.5 units). -/
def backoff (attempt : Nat) : Nat := 3 * (attempt + 1)

/-- The `for attempt in range(3)` retry loop.  A blocked response or an
empty response text hits a `continue` and retries with no sleep; a raised
error (transport, coercion `ValueError`, or an exception out of
`_normalize`) falls through to the backoff sleep; a successful coercion
and normalization returns immediately. -/
def extractGo (resp : Nat → MResp) (truncated : String) :
    Nat → Nat → Nat → List Nat → ExtractTrace
  | 0, _, calls, sleeps => ⟨emptyResult, calls, sleeps.reverse⟩
  | fuel + 1, attempt, calls, sleeps =>
    match resp attempt with
    | .blocked => extractGo resp truncated fuel (attempt + 1) (calls + 1) sleeps
    | .terr =>
      extractGo resp truncated fuel (attempt + 1) (calls + 1) (backoff attempt :: sleeps)
    | .text s =>
      if (⟨stripL s.data⟩ : String) = "" then
        extractGo resp truncated fuel (attempt + 1) (calls + 1) sleeps
      else
        match coerceJson s with
        | .error _ =>
          extractGo resp truncated fuel (attempt + 1) (calls + 1) (backoff attempt :: sleeps)
        | .ok v =>
          match normalizeAny v truncated with
          | .ok r => ⟨r, calls + 1, sleeps.reverse⟩
          | .error _ =>
            extractGo resp truncated fuel (attempt + 1) (calls + 1) (backoff attempt :: sleeps)

/-- `extract_fields_with_llm(document_text, max_chars)`, with the
generative-model collaborator abstracted as the per-attempt outcome
function `resp`.  Empty or whitespace-only text returns the empty record
before any call; otherwise the text is truncated to `max_chars` characters
and the retry loop runs; exhaustion returns the empty record. -/
def extractFields (resp : Nat → MResp) (docText : String) (maxChars : Nat) : ExtractTrace :=
  if (⟨stripL docText.data⟩ : String) = "" then ⟨emptyResult, 0, []⟩
  else
    let truncated : String :=
      if maxChars < docText.data.length then ⟨docText.data.take maxChars⟩ else docText
    extractGo resp truncated 3 0 0 []

/-! ## Structural equality helpers (decidable comparison of values) -/

mutual

/-- Decidable structural equality on `JVal`. -/
def jeq : JVal → JVal → Bool
  | .null, .null => true
  | .b a, .b b2 => a == b2
  | .i a, .i b2 => a == b2
  | .s a, .s b2 => a == b2
  | .arr a, .arr b2 => jeqList a b2
  | .obj a, .obj b2 => jeqObj a b2
  | _, _ => false

/-- Structural equality on value lists. -/
def jeqList : List JVal → List JVal → Bool
  | [], [] => true
  | a :: as2, b2 :: bs => jeq a b2 && jeqList as2 bs
  | _, _ => false

/-- Structural equality on dicts (order-sensitive, like `==` after `repr`). -/
def jeqObj : List (String × JVal) → List (String × JVal) → Bool
  | [], [] => true
  | (k1, a) :: as2, (k2, b2) :: bs => k1 == k2 && jeq a b2 && jeqObj as2 bs
  | _, _ => false

end

/-- Structural equality on normalization results. -/
def jeqRes : Except Unit Dict → Except Unit Dict → Bool
  | .ok a, .ok b2 => jeqObj a b2
  | .error _, .error _ => true
  | _, _ => false

/-! ## Canonical-format observers for tolerance-band values

The spec calls a band value canonical when every plus-minus spelling is the
single glyph and every decimal separator is a point.  The observers below
detect the two non-canonical patterns: a plus-hyphen or plus-slash-hyphen
spelling, and a decimal comma (a comma with digits on both sides).  `hasTriple` detects the chain
`\d , \d+ , \d`, the configuration whose absence makes one `_DEC_COMMA`
pass complete. -/

/-- Continue an in-progress digit run into `, digit`? -/
def dccCont : List Char → Bool
  | [] => false
  | b :: rest =>
    if b.isDigit then dccCont rest
    else b = ',' && (rest.headD 'x').isDigit

/-- Does the list start with `\d+ , \d`? -/
def startDCC : List Char → Bool
  | a :: rest => a.isDigit && dccCont rest
  | [] => false

/-- A decimal comma `\d , \d` starting here. -/
def dccAt : List Char → Bool
  | a :: b :: e :: _ => a.isDigit && b = ',' && e.isDigit
  | _ => false

/-- Any decimal comma. -/
def hasDCC : List Char → Bool
  | [] => false
  | c :: rest => dccAt (c :: rest) || hasDCC rest

/-- A chain `\d , \d+ , \d` starting here. -/
def tripleAt : List Char → Bool
  | a :: b :: rest => a.isDigit && b = ',' && startDCC rest
  | _ => false

/-- Any chain `\d , \d+ , \d`. -/
def hasTriple : List Char → Bool
  | [] => false
  | c :: rest => tripleAt (c :: rest) || hasTriple rest

/-- A non-canonical plus-minus spelling (plus-hyphen, optionally with a
slash between) starting here. -/
def pmAt : List Char → Bool
  | a :: b :: rest =>
    (a = '+' && b = '-') || (a = '+' && b = '/' && (rest.headD 'x') = '-')
  | _ => false

/-- Any non-canonical plus-minus spelling. -/
def hasPM : List Char → Bool
  | [] => false
  | c :: rest => pmAt (c :: rest) || hasPM rest

/-- A truthy value is never `None`. -/
theorem pyTruthy_ne_null {v : JVal} (h : pyTruthy v = true) : v ≠ JVal.null := by
  intro hn; subst hn; simp [pyTruthy] at h

/-! ## C10 — blank document short-circuits the orchestrator -/

/-- C10: if the document text is empty or whitespace-only, the orchestrator
returns the schema-default empty record immediately: zero generative-model
calls, no sleeps. -/
theorem C10_blank_document_short_circuits (resp : Nat → MResp) (doc : String)
    (maxChars : Nat) (hdoc : (⟨stripL doc.data⟩ : String) = "") :
    extractFields resp doc maxChars = ⟨emptyResult, 0, []⟩ := by
  simp [extractFields, hdoc]

/-- C10 witness: the whitespace-only document `" \n "` with an
always-failing collaborator. -/
theorem C10_blank_document_short_circuits_witness :
    (⟨stripL (" \n " : String).data⟩ : String) = "" ∧
    extractFields (fun _ => MResp.terr) " \n " 20000 = ⟨emptyResult, 0, []⟩ :=
  ⟨by decide, C10_blank_document_short_circuits (fun _ => MResp.terr) " \n " 20000 (by decide)⟩

/-! ## C5 — coercion of blank input -/

/-- C5 counterexample: the claim says a blank input makes the Raw-Output
Coercer fail; in the code `_coerce_json("")` returns the empty dict `{}`
(it logs a warning and returns a value, raising nothing). -/
theorem C5_counterexample :
    coerceJson "" = Except.ok (JVal.obj []) ∧
    coerceJson " \t " = Except.ok (JVal.obj []) := ⟨rfl, rfl⟩

/-- C5 (amended): for every input that is empty or whitespace-only after
trimming, `_coerce_json` returns the empty object `{}` rather than failing;
the `EmptyOutput` condition is instead handled by the orchestrator, which
skips coercion entirely when the response text strips to empty. -/
theorem C5_blank_coercion_returns_empty_dict (s : String)
    (h : (⟨stripL s.data⟩ : String) = "") :
    coerceJson s = Except.ok (JVal.obj []) := by
  simp [coerceJson, h]

/-- C5 witness: the whitespace-only string `"  "`. -/
theorem C5_blank_coercion_returns_empty_dict_witness :
    (⟨stripL ("  " : String).data⟩ : String) = "" ∧
    coerceJson "  " = Except.ok (JVal.obj []) :=
  ⟨by decide, C5_blank_coercion_returns_empty_dict "  " (by decide)⟩

/-! ## C1 — retry exhaustion on transport errors -/

/-- C1 counterexample: with a transport error on every attempt the loop
sleeps after each of the three failed attempts — including the final one —
so there are 3 backoff sleeps (of 1.5, 3.0 and 4.5 units, recorded in
half-units), not the 2 intervening sleeps the claim states. -/
theorem C1_counterexample :
    (extractFields (fun _ => MResp.terr) "doc" 20000).sleeps = [3, 6, 9] ∧
    (extractFields (fun _ => MResp.terr) "doc" 20000).sleeps.length ≠ 2 := by
  exact ⟨by decide, by decide⟩

/-- C1 (amended): if the generative-model call raises a transport error on
every attempt, the orchestrator makes exactly 3 call attempts, sleeps a
backoff delay after every failed attempt — 1.5, 3.0 and then 4.5 units
(i.e. 3, 6, 9 half-units), the last sleep occurring uselessly after the
final attempt — and returns the all-default empty record. -/
theorem C1_retry_exhaustion (resp : Nat → MResp) (doc : String) (maxChars : Nat)
    (hdoc : (⟨stripL doc.data⟩ : String) ≠ "")
    (hresp : ∀ i, i < 3 → resp i = MResp.terr) :
    extractFields resp doc maxChars = ⟨emptyResult, 3, [3, 6, 9]⟩ := by
  simp only [extractFields, if_neg hdoc]
  simp [extractGo, hresp 0 (by omega), hresp 1 (by omega), hresp 2 (by omega), backoff]

/-- C1 witness: a one-character document and an always-erroring collaborator. -/
theorem C1_retry_exhaustion_witness :
    (⟨stripL ("x" : String).data⟩ : String) ≠ "" ∧
    extractFields (fun _ => MResp.terr) "x" 20000 = ⟨emptyResult, 3, [3, 6, 9]⟩ :=
  ⟨by decide, C1_retry_exhaustion (fun _ => MResp.terr) "x" 20000 (by decide)
    (fun _ _ => rfl)⟩

/-! ## C4 — which failures get a backoff delay -/

/-- C4 counterexample: with a soft-blocked response on every attempt, all
three non-final attempts fail yet the loop performs no backoff sleep at all
(the blocked branch `continue`s past the sleep), contradicting the claim
that the delay follows every failed non-final attempt uniformly. -/
theorem C4_counterexample :
    (extractFields (fun _ => MResp.blocked) "doc" 20000).calls = 3 ∧
    (extractFields (fun _ => MResp.blocked) "doc" 20000).sleeps = [] := by
  exact ⟨by decide, by decide⟩

/-- C4 (amended): the backoff delay `1.5 * (attempt + 1)` is applied after
every attempt that ends in a raised exception — transport errors and
coercion failures — including the final one; soft-blocked responses and
empty response texts retry immediately via `continue`, with no delay. -/
theorem C4_backoff_by_failure_kind (doc : String) (maxChars : Nat)
    (hdoc : (⟨stripL doc.data⟩ : String) ≠ "") :
    (extractFields (fun _ => MResp.terr) doc maxChars).sleeps = [3, 6, 9] ∧
    (extractFields (fun _ => MResp.text "no json here") doc maxChars).sleeps = [3, 6, 9] ∧
    (extractFields (fun _ => MResp.blocked) doc maxChars).sleeps = [] ∧
    (extractFields (fun _ => MResp.text "") doc maxChars).sleeps = [] := by
  have hc : coerceJson "no json here" = Except.error () := rfl
  have hs0 : (⟨stripL []⟩ : String) = "" := rfl
  have hs1 : (⟨stripL ("no json here" : String).data⟩ : String) ≠ "" := by decide
  refine ⟨?_, ?_, ?_, ?_⟩ <;>
    simp [extractFields, if_neg hdoc, extractGo, hc, backoff, hs0, hs1]

/-- C4 witness: a one-character document. -/
theorem C4_backoff_by_failure_kind_witness :
    (⟨stripL ("x" : String).data⟩ : String) ≠ "" ∧
    (extractFields (fun _ => MResp.terr) "x" 20000).sleeps = [3, 6, 9] ∧
    (extractFields (fun _ => MResp.text "no json here") "x" 20000).sleeps = [3, 6, 9] ∧
    (extractFields (fun _ => MResp.blocked) "x" 20000).sleeps = [] ∧
    (extractFields (fun _ => MResp.text "") "x" 20000).sleeps = [] :=
  ⟨by decide, C4_backoff_by_failure_kind "x" 20000 (by decide)⟩

/-- Structure eta for strings. -/
theorem strMk_data (s : String) : (⟨s.data⟩ : String) = s := rfl

/-! ## C8 — object-shaped tables with empty bands -/

/-- C8 counterexample: an object-shaped tolerance table whose band mapping
is empty is NOT dropped to null: `{"unit": "mm", "bands": {}}` survives
normalization as `{"unit": "mm", "bands": {}}` (the source's
`if out_bands else` conditional returns the same dict either way, and
`norm_table` never returns `None` for a dict). -/
theorem C8_counterexample :
    (normalizeData [("Tolerances_General_Linear",
        JVal.obj [("unit", JVal.s "mm"), ("bands", JVal.obj [])])] "").map
      (fun r => dictGet r "Tolerances_General_Linear") =
      Except.ok (JVal.obj [("unit", JVal.s "mm"), ("bands", JVal.obj [])]) ∧
    JVal.obj [("unit", JVal.s "mm"), ("bands", JVal.obj [])] ≠ JVal.null :=
  ⟨rfl, fun h => JVal.noConfusion h⟩

/-- C8 (amended): an object-shaped table whose band mapping is empty (or
becomes empty) is retained as the object `{"unit": unit, "bands": {}}`;
only a falsy table value (such as `{}` or `null`) yields null.  Stated for
any already-canonical (non-empty, stripped, lower-case) unit string. -/
theorem C8_empty_bands_table_retained (u : String) (hne : u ≠ "")
    (hstrip : stripL u.data = u.data) (hlower : lowerStr u = u) :
    (normalizeData [("Tolerances_General_Linear",
        JVal.obj [("unit", JVal.s u), ("bands", JVal.obj [])])] "").map
      (fun r => dictGet r "Tolerances_General_Linear") =
      Except.ok (JVal.obj [("unit", JVal.s u), ("bands", JVal.obj [])]) ∧
    (normalizeData [("Tolerances_General_Linear", JVal.obj [])] "").map
      (fun r => dictGet r "Tolerances_General_Linear") = Except.ok JVal.null := by
  constructor
  · have hb : extractBooleans "" = (false, false) := rfl
    have hg : gradeSearch "" = none := rfl
    have hd : dnSearch "" = none := rfl
    have hr : revSearch "" = none := rfl
    simp [normalizeData, cleanVal, dictGet, pyTruthy, normalizeTables, normTable,
      dictGetD, pyStr, hstrip, strMk_data, hlower, hne, hb, hg, hd, hr, isNull,
      Except.map, mgCleanRule, mgInferRule, ptRule, wnRule, wdRule, boolRule,
      srRule, geoRule, tblRule1, legacyRule, tblRule2, heurRule, notesRule]
  · rfl

/-- C8 witness: the canonical unit `"cm"`. -/
theorem C8_empty_bands_table_retained_witness :
    (normalizeData [("Tolerances_General_Linear",
        JVal.obj [("unit", JVal.s "cm"), ("bands", JVal.obj [])])] "").map
      (fun r => dictGet r "Tolerances_General_Linear") =
      Except.ok (JVal.obj [("unit", JVal.s "cm"), ("bands", JVal.obj [])]) :=
  (C8_empty_bands_table_retained "cm" (by decide) (by decide)
    (by decide)).1

/-! ## C2 — schema completeness of the engine output -/

/-- C2 counterexample: on the input `{"Material_Grade": 5}` (and likewise on
`{}`) the engine leaves `Welding_Notes` as null — not an empty list — and
passes the non-string `Material_Grade` value `5` through unchanged, so the
output does not give every field a value of its declared shape. -/
theorem C2_counterexample :
    (normalizeData [("Material_Grade", JVal.i 5)] "").map
      (fun r => (dictGet r "Welding_Notes", dictGet r "Material_Grade")) =
      Except.ok (JVal.null, JVal.i 5) ∧
    (∀ xs, JVal.null ≠ JVal.arr xs) ∧ (∀ st, JVal.i 5 ≠ JVal.s st) :=
  ⟨rfl, fun _ h => JVal.noConfusion h, fun _ h => JVal.noConfusion h⟩

/-- C2 (amended): whenever the engine returns a record, that record contains
exactly the 16 canonical fields, in schema order.  A `Notes` field that is
absent (null) becomes the empty list, but an absent `Welding_Notes` stays
null (when no welding-designation reclassification injects notes); field
values are not otherwise coerced to their declared shapes. -/
theorem C2_schema_fields (d : Dict) (t : String) (r : Dict)
    (h : normalizeData d t = Except.ok r) :
    r.map Prod.fst = TARGET_KEYS ∧
    (dictGet d "Notes" = JVal.null → dictGet r "Notes" = JVal.arr []) ∧
    (dictGet d "Welding_Notes" = JVal.null → dictGet d "Welding_Designation" = JVal.null →
      dictGet r "Welding_Notes" = JVal.null) := by
  refine ⟨?_, fun hn => ?_, fun hw hd2 => ?_⟩
  · unfold normalizeData at h
    simp only [] at h
    split at h
    · exact Except.noConfusion h
    split at h
    · exact Except.noConfusion h
    split at h
    · exact Except.noConfusion h
    split at h
    · exact Except.noConfusion h
    split at h
    · exact Except.noConfusion h
    split at h
    · exact Except.noConfusion h
    split at h
    · exact Except.noConfusion h
    split at h
    · exact Except.noConfusion h
    split at h
    · exact Except.noConfusion h
    split at h
    · exact Except.noConfusion h
    injection h with hh
    subst hh
    rfl
  · unfold normalizeData at h
    simp only [hn, cleanVal, notesRule, isNull, if_pos] at h
    split at h
    · exact Except.noConfusion h
    split at h
    · exact Except.noConfusion h
    split at h
    · exact Except.noConfusion h
    split at h
    · exact Except.noConfusion h
    split at h
    · exact Except.noConfusion h
    split at h
    · exact Except.noConfusion h
    split at h
    · exact Except.noConfusion h
    split at h
    · exact Except.noConfusion h
    split at h
    · exact Except.noConfusion h
    split at h
    · exact Except.noConfusion h
    injection h with hh
    subst hh
    rfl
  · unfold normalizeData at h
    simp only [hw, hd2, cleanVal, wnRule, wdRule, pyTruthy, Bool.false_eq_true,
      if_false] at h
    split at h
    · exact Except.noConfusion h
    split at h
    · exact Except.noConfusion h
    split at h
    · exact Except.noConfusion h
    split at h
    · exact Except.noConfusion h
    split at h
    · exact Except.noConfusion h
    split at h
    · exact Except.noConfusion h
    split at h
    · exact Except.noConfusion h
    split at h
    · exact Except.noConfusion h
    injection h with hh
    subst hh
    rfl

/-- C2 witness: the empty input object with empty source text. -/
theorem C2_schema_fields_witness :
    ([("Material_Grade", JVal.null), ("Surface_Roughness", JVal.null),
      ("Geometrical_Tolerancing", JVal.null), ("Dimensional_Tolerancing", JVal.null),
      ("Break_Sharp_Edges", JVal.b false), ("Retaining_Ring_Grooves_Sharp", JVal.b false),
      ("Welding_Notes", JVal.null), ("Tolerances_General_Linear", JVal.null),
      ("Tolerances_Machining", JVal.null), ("Tolerances_Welded_Sheetmetal", JVal.null),
      ("Welding_Designation", JVal.null), ("Weld_Finish", JVal.null),
      ("Post_Treatment", JVal.null), ("Notes", JVal.arr []),
      ("Drawing_Number", JVal.null), ("Revision", JVal.null)] : Dict).map Prod.fst =
      TARGET_KEYS ∧
    dictGet ([("Material_Grade", JVal.null), ("Surface_Roughness", JVal.null),
      ("Geometrical_Tolerancing", JVal.null), ("Dimensional_Tolerancing", JVal.null),
      ("Break_Sharp_Edges", JVal.b false), ("Retaining_Ring_Grooves_Sharp", JVal.b false),
      ("Welding_Notes", JVal.null), ("Tolerances_General_Linear", JVal.null),
      ("Tolerances_Machining", JVal.null), ("Tolerances_Welded_Sheetmetal", JVal.null),
      ("Welding_Designation", JVal.null), ("Weld_Finish", JVal.null),
      ("Post_Treatment", JVal.null), ("Notes", JVal.arr []),
      ("Drawing_Number", JVal.null), ("Revision", JVal.null)] : Dict) "Notes" =
      JVal.arr [] := by
  have h := C2_schema_fields [] "" _ rfl
  exact ⟨h.1, h.2.1 rfl⟩

/-! ## C3 — the engine can raise -/

/-- C3 counterexample: on `{"Post_Treatment": 1}` the engine raises
(`re.search` on the truthy integer raises `TypeError`), contradicting the
claim that wrong-shaped values make the rule a no-op and that the engine
never raises to its caller. -/
theorem C3_counterexample :
    normalizeData [("Post_Treatment", JVal.i 1)] "" = Except.error () ∧
    normalizeData [("Welding_Notes", JVal.i 5)] "" = Except.error () := ⟨rfl, rfl⟩

/-- C3 (amended): the engine is not exception-free — any truthy
`Post_Treatment` value that is neither a string nor a list (e.g. a number,
a boolean, or a non-empty object) raises a `TypeError` out of the
`re.search` call, which propagates to the engine's caller (the
orchestrator's retry loop catches it as a retryable failure). -/
theorem C3_pt_typeerror (d : Dict) (t : String) (v : JVal)
    (hv : dictGet d "Post_Treatment" = v) (ht : pyTruthy v = true)
    (hs : ∀ st, v ≠ JVal.s st) (hl : ∀ xs, v ≠ JVal.arr xs) :
    normalizeData d t = Except.error () := by
  have hcv : cleanVal v = v := by
    cases v with
    | s st => exact absurd rfl (hs st)
    | arr xs => exact absurd rfl (hl xs)
    | null => rfl
    | b bb => rfl
    | i n => rfl
    | obj o => rfl
  have hpt : ∀ mg, ptRule mg (cleanVal v) = Except.error () := by
    intro mg
    rw [hcv]
    cases v with
    | s st => exact absurd rfl (hs st)
    | arr xs => exact absurd rfl (hl xs)
    | null => simp [pyTruthy] at ht
    | b bb => simp [ptRule, ht]
    | i n => simp [ptRule, ht]
    | obj o => simp [ptRule, ht]
  unfold normalizeData
  simp only [hv, hpt]

/-- C3 witness: the integer post-treatment value `1`. -/
theorem C3_pt_typeerror_witness :
    pyTruthy (JVal.i 1) = true ∧
    normalizeData [("Post_Treatment", JVal.i 1)] "x" = Except.error () :=
  ⟨by decide, C3_pt_typeerror [("Post_Treatment", JVal.i 1)] "x" (JVal.i 1) rfl
    (by decide) (fun _ h => JVal.noConfusion h) (fun _ h => JVal.noConfusion h)⟩

/-! ## Invariance of the material-grade matcher under the scalar cleanup

The engine's scalar cleanup (`cleanStrL`) maps `\r` and `\n` to spaces and
strips edge whitespace.  The lemmas below show the grade pattern's
`re.search` finds a match in the cleaned string exactly when it finds one
in the original, which claim C7 needs: the code matches the cleaned
post-treatment value, the claim speaks about the stored one. -/

/-- Non-whitespace characters are fixed by the `\r`/`\n` → space map. -/
theorem normWs_fix {c : Char} (h : isWsB c = false) : normWsChar c = c := by
  unfold normWsChar
  split
  · next hc =>
    simp only [Bool.or_eq_true, decide_eq_true_eq] at hc
    rcases hc with hc | hc <;> (subst hc; simp [isWsB] at h)
  · rfl

/-- `normWsChar` preserves whitespace-ness. -/
theorem isWs_normWs (c : Char) : isWsB (normWsChar c) = isWsB c := by
  unfold normWsChar
  split
  · next hc =>
    simp only [Bool.or_eq_true, decide_eq_true_eq] at hc
    rcases hc with hc | hc <;> (subst hc; decide)
  · rfl

/-- `normWsChar` preserves word-character-ness. -/
theorem isWord_normWs (c : Char) : isWordB (normWsChar c) = isWordB c := by
  unfold normWsChar
  split
  · next hc =>
    simp only [Bool.or_eq_true, decide_eq_true_eq] at hc
    rcases hc with hc | hc <;> (subst hc; decide)
  · rfl

/-- `normWsChar` preserves digit-ness. -/
theorem isDigit_normWs (c : Char) : (normWsChar c).isDigit = c.isDigit := by
  unfold normWsChar
  split
  · next hc =>
    simp only [Bool.or_eq_true, decide_eq_true_eq] at hc
    rcases hc with hc | hc <;> (subst hc; decide)
  · rfl

/-- Comparison with a non-whitespace literal is invariant under `normWsChar`. -/
theorem dec_normWs_eq (c : Char) {t : Char} (h : isWsB t = false) :
    decide (normWsChar c = t) = decide (c = t) := by
  unfold normWsChar
  split
  · next hc =>
    simp only [Bool.or_eq_true, decide_eq_true_eq] at hc
    have hsp : ¬ (' ' = t) := fun he => by rw [← he] at h; simp [isWsB] at h
    rcases hc with hc | hc <;>
      (subst hc
       have hcc : ¬ ('\r' = t) ∨ True := Or.inr trivial
       simp only [decide_eq_decide]
       constructor
       · intro he; exact absurd he hsp
       · intro he; rw [← he] at h; simp [isWsB] at h)
  · rfl

/-- Lower-cased comparison with a non-whitespace literal is invariant under
`normWsChar`. -/
theorem dec_lower_normWs_eq (c : Char) {t : Char} (h : isWsB t = false) :
    decide (lowerChar (normWsChar c) = t) = decide (lowerChar c = t) := by
  unfold normWsChar
  split
  · next hc =>
    simp only [Bool.or_eq_true, decide_eq_true_eq] at hc
    have hsp : lowerChar ' ' = ' ' := rfl
    rcases hc with hc | hc <;>
      (subst hc
       simp only [decide_eq_decide]
       constructor
       · intro he
         rw [show lowerChar ' ' = ' ' from rfl] at he
         rw [← he] at h; simp [isWsB] at h
       · intro he
         first
         | (rw [show lowerChar '\r' = '\r' from rfl] at he; rw [← he] at h;
            simp [isWsB] at h)
         | (rw [show lowerChar '\n' = '\n' from rfl] at he; rw [← he] at h;
            simp [isWsB] at h))
  · rfl

/-- The composition facts in function form (for `takeWhile_map` rewriting). -/
theorem isWs_comp_normWs : isWsB ∘ normWsChar = isWsB :=
  funext fun c => isWs_normWs c

/-- Digit-ness composition fact. -/
theorem isDigit_comp_normWs : Char.isDigit ∘ normWsChar = Char.isDigit :=
  funext fun c => isDigit_normWs c

/-- `bAfter` is invariant under `normWsChar`. -/
theorem bAfter_map_normWs (l : List Char) : bAfter (l.map normWsChar) = bAfter l := by
  cases l with
  | nil => rfl
  | cons c cs => simp [bAfter, isWord_normWs]

/-- `gradeNum` is functorial under `normWsChar` when its digit literals are
non-whitespace. -/
theorem gradeNum_map (d1 d2 d3 : Char) (h1 : isWsB d1 = false)
    (h2 : isWsB d2 = false) (h3 : isWsB d3 = false) (l : List Char) :
    gradeNum d1 d2 d3 (l.map normWsChar) = (gradeNum d1 d2 d3 l).map mapPairNorm := by
  match l with
  | [] => rfl
  | [a] => rfl
  | [a, b] => rfl
  | a :: b :: c :: rest =>
    simp only [List.map_cons, gradeNum, dec_normWs_eq a h1, dec_normWs_eq b h2,
      dec_normWs_eq c h3]
    by_cases hcond : (decide (a = d1) && decide (b = d2) && decide (c = d3)) = true
    · simp only [hcond, if_pos]
      match rest with
      | [] => simp [mapPairNorm]
      | x :: rest2 =>
        simp only [List.map_cons]
        have hl : isWsB 'l' = false := by decide
        simp only [dec_lower_normWs_eq x hl, bAfter_map_normWs]
        by_cases hx : (decide (lowerChar x = 'l') && bAfter rest2) = true
        · simp [hx, mapPairNorm]
        · simp only [Bool.not_eq_true] at hx
          simp only [hx, Bool.false_eq_true, if_false]
          by_cases hb : bAfter (x :: rest2) = true
          · simp [bAfter] at hb ⊢
            simp [hb, mapPairNorm, isWord_normWs, bAfter]
          · simp only [Bool.not_eq_true] at hb
            simp only [bAfter] at hb ⊢
            simp [hb, mapPairNorm, isWord_normWs]
    · simp only [Bool.not_eq_true] at hcond
      simp [hcond, mapPairNorm]

/-- `gradeA` is functorial under `normWsChar`. -/
theorem gradeA_map (d : Char) (hd : isWsB d = false) (l : List Char) :
    gradeA d (l.map normWsChar) = (gradeA d l).map mapPairNorm := by
  match l with
  | [] => rfl
  | [a] => rfl
  | a :: x :: rest =>
    have ha : isWsB 'a' = false := by decide
    simp only [List.map_cons, gradeA, dec_lower_normWs_eq a ha, dec_normWs_eq x hd,
      bAfter_map_normWs]
    by_cases h : (decide (lowerChar a = 'a') && decide (x = d) && bAfter rest) = true
    · simp [h, mapPairNorm]
    · simp only [Bool.not_eq_true] at h
      simp [h]

/-- Prop-level version of `dec_lower_normWs_eq`. -/
theorem lower_normWs_iff (c : Char) {t : Char} (h : isWsB t = false) :
    (lowerChar (normWsChar c) = t) ↔ (lowerChar c = t) := by
  have := dec_lower_normWs_eq c h
  simpa [decide_eq_decide] using this

/-- Prop-level version of `dec_normWs_eq`. -/
theorem normWs_eq_iff (c : Char) {t : Char} (h : isWsB t = false) :
    (normWsChar c = t) ↔ (c = t) := by
  have := dec_normWs_eq c h
  simpa [decide_eq_decide] using this

/-- `gradeS` is functorial under `normWsChar`. -/
theorem gradeS_map (l : List Char) :
    gradeS (l.map normWsChar) = (gradeS l).map mapPairNorm := by
  match l with
  | [] => rfl
  | sh :: rest =>
    have hs : isWsB 's' = false := by decide
    simp only [List.map_cons, gradeS, lower_normWs_iff sh hs]
    by_cases h : lowerChar sh = 's'
    · simp only [h, if_pos]
      rw [List.takeWhile_map, List.dropWhile_map, isWs_comp_normWs]
      rcases hr : rest.dropWhile isWsB with _ | ⟨d1, _ | ⟨d2, _ | ⟨d3, r3⟩⟩⟩ <;>
        simp only [List.map_nil, List.map_cons]
      · rfl
      · rfl
      · rfl
      · simp only [isDigit_normWs, bAfter_map_normWs]
        split <;> simp [mapPairNorm, List.map_append]
    · simp [h]

/-- `gradeEuro` is functorial under `normWsChar`. -/
theorem gradeEuro_map (l : List Char) :
    gradeEuro (l.map normWsChar) = (gradeEuro l).map mapPairNorm := by
  match l with
  | [] => rfl
  | [a] => rfl
  | [a, b] => rfl
  | [a, b, c] => rfl
  | [a, b, c, d] => rfl
  | [a, b, c, d, e] => rfl
  | one :: dot :: d1 :: d2 :: d3 :: d4 :: rest =>
    have h1 : isWsB '1' = false := by decide
    have h2 : isWsB '.' = false := by decide
    simp only [List.map_cons, gradeEuro, dec_normWs_eq one h1, dec_normWs_eq dot h2,
      isDigit_normWs, bAfter_map_normWs]
    split <;> simp [mapPairNorm]

/-- `gradeAlMg` is functorial under `normWsChar`. -/
theorem gradeAlMg_map (l : List Char) :
    gradeAlMg (l.map normWsChar) = (gradeAlMg l).map mapPairNorm := by
  match l with
  | [] => rfl
  | [a] => rfl
  | [a, b] => rfl
  | [a, b, c] => rfl
  | [a, b, c, d] => rfl
  | a :: el :: m :: g :: d :: rest =>
    have ha : isWsB 'a' = false := by decide
    have hl : isWsB 'l' = false := by decide
    have hm : isWsB 'm' = false := by decide
    have hg : isWsB 'g' = false := by decide
    simp only [List.map_cons, gradeAlMg, dec_lower_normWs_eq a ha,
      dec_lower_normWs_eq el hl, dec_lower_normWs_eq m hm, dec_lower_normWs_eq g hg,
      isDigit_normWs, bAfter_map_normWs]
    split <;> simp [mapPairNorm]

/-- `gradeENAW` is functorial under `normWsChar`. -/
theorem gradeENAW_map (l : List Char) :
    gradeENAW (l.map normWsChar) = (gradeENAW l).map mapPairNorm := by
  match l with
  | [] => rfl
  | [a] => rfl
  | e :: n :: rest =>
    have he : isWsB 'e' = false := by decide
    have hn : isWsB 'n' = false := by decide
    simp only [List.map_cons, gradeENAW, dec_lower_normWs_eq e he,
      dec_lower_normWs_eq n hn]
    by_cases h : (decide (lowerChar e = 'e') && decide (lowerChar n = 'n')) = true
    · simp only [h, if_pos]
      rw [List.takeWhile_map, List.dropWhile_map, isWs_comp_normWs]
      rcases hr : rest.dropWhile isWsB with _ | ⟨a, _ | ⟨w, _ | ⟨dash, r3⟩⟩⟩ <;>
        simp only [List.map_nil, List.map_cons]
      · rfl
      · rfl
      · rfl
      · have ha : isWsB 'a' = false := by decide
        have hw : isWsB 'w' = false := by decide
        have hdash : isWsB '-' = false := by decide
        simp only [dec_lower_normWs_eq a ha, dec_lower_normWs_eq w hw,
          dec_normWs_eq dash hdash]
        by_cases h2 : (decide (lowerChar a = 'a') && decide (lowerChar w = 'w')
            && decide (dash = '-')) = true
        · have hie : ∀ l' : List Char, (l'.map normWsChar).isEmpty = l'.isEmpty :=
            fun l' => by cases l' <;> rfl
          simp only [h2, if_pos]
          rw [List.takeWhile_map, List.dropWhile_map, isDigit_comp_normWs]
          simp only [bAfter_map_normWs, hie]
          split <;> simp [mapPairNorm, List.map_append]
        · simp only [Bool.not_eq_true] at h2
          simp [h2]
    · simp only [Bool.not_eq_true] at h
      simp [h]

/-- `gradeAt` is functorial under `normWsChar`. -/
theorem gradeAt_map (l : List Char) :
    gradeAt (l.map normWsChar) = (gradeAt l).map mapPairNorm := by
  unfold gradeAt
  rw [gradeNum_map '3' '0' '4' (by decide) (by decide) (by decide),
      gradeNum_map '3' '1' '6' (by decide) (by decide) (by decide),
      gradeA_map '2' (by decide), gradeA_map '4' (by decide),
      gradeS_map, gradeEuro_map, gradeENAW_map, gradeAlMg_map]
  cases gradeNum '3' '0' '4' l <;> simp
  cases gradeNum '3' '1' '6' l <;> simp
  cases gradeA '2' l <;> simp
  cases gradeA '4' l <;> simp
  cases gradeS l <;> simp
  cases gradeEuro l <;> simp
  cases gradeENAW l <;> simp

/-- `gradeGo` is functorial under `normWsChar`. -/
theorem gradeGo_map (pw : Bool) (l : List Char) :
    gradeGo pw (l.map normWsChar) = (gradeGo pw l).map (List.map normWsChar) := by
  induction l generalizing pw with
  | nil => rfl
  | cons c cs ih =>
    show gradeGo pw (normWsChar c :: cs.map normWsChar) = _
    rw [gradeGo, gradeGo]
    have hat : gradeAt (normWsChar c :: cs.map normWsChar) =
        (gradeAt (c :: cs)).map mapPairNorm := gradeAt_map (c :: cs)
    cases pw with
    | true => simp only [if_true, isWord_normWs, ih]
    | false =>
      simp only [Bool.false_eq_true, if_false, hat]
      cases gradeAt (c :: cs) with
      | none =>
        simp only [Option.map_none', Bool.false_eq_true, if_false, isWord_normWs, ih]
      | some p => simp [mapPairNorm]

/-! Whitespace facts feeding the grade-matcher invariance under `cleanStrL`. -/

/-- A whitespace character is one of the six concrete characters. -/
theorem ws_cases {c : Char} (h : isWsB c = true) :
    c = ' ' ∨ c = '\t' ∨ c = '\n' ∨ c = '\r' ∨ c = '\x0b' ∨ c = '\x0c' := by
  simp only [isWsB, Bool.or_eq_true, decide_eq_true_eq] at h
  tauto

/-- Whitespace characters are not word characters. -/
theorem ws_not_word {c : Char} (h : isWsB c = true) : isWordB c = false := by
  rcases ws_cases h with h | h | h | h | h | h <;> subst h <;> decide

/-- Whitespace characters are not digits. -/
theorem ws_not_digit {c : Char} (h : isWsB c = true) : c.isDigit = false := by
  rcases ws_cases h with h | h | h | h | h | h <;> subst h <;> decide

/-- Lower-casing fixes whitespace characters. -/
theorem ws_lower {c : Char} (h : isWsB c = true) : lowerChar c = c := by
  rcases ws_cases h with h | h | h | h | h | h <;> subst h <;> decide

/-- A whitespace character never equals a non-whitespace one (decided). -/
theorem ws_ne {c t : Char} (hc : isWsB c = true) (ht : isWsB t = false) :
    decide (c = t) = false := by
  apply decide_eq_false
  intro he
  subst he
  rw [hc] at ht
  cases ht

/-- The lower-case of a whitespace character never equals a non-whitespace
character (decided). -/
theorem ws_lower_ne {c t : Char} (hc : isWsB c = true) (ht : isWsB t = false) :
    decide (lowerChar c = t) = false := by
  rw [ws_lower hc]
  exact ws_ne hc ht

/-- Prop form of `ws_lower_ne`. -/
theorem ws_lower_ne_prop {c t : Char} (hc : isWsB c = true) (ht : isWsB t = false) :
    ¬(lowerChar c = t) := by
  intro he
  have := ws_lower_ne hc ht
  rw [he] at this
  simp at this

/-- A whitespace character never equals a non-whitespace one (Prop form). -/
theorem ws_ne_prop {c t : Char} (hc : isWsB c = true) (ht : isWsB t = false) :
    ¬(c = t) := by
  intro he
  subst he
  rw [hc] at ht
  cases ht

/-- `\b` holds after a match when the first following character is
whitespace. -/
theorem bAfter_ws_head {c : Char} (hc : isWsB c = true) (cs : List Char) :
    bAfter (c :: cs) = true := by
  simp [bAfter, ws_not_word hc]

/-- `\b` after an all-whitespace continuation list holds. -/
theorem bAfter_allws {w : List Char} (hw : ∀ c ∈ w, isWsB c = true) :
    bAfter w = true := by
  cases w with
  | nil => rfl
  | cons c cs => exact bAfter_ws_head (hw c (by simp)) cs

/-- Appending an all-whitespace suffix does not change `\b`-after. -/
theorem bAfter_append_ws {w : List Char} (hw : ∀ c ∈ w, isWsB c = true)
    (z : List Char) : bAfter (z ++ w) = bAfter z := by
  cases z with
  | nil => exact bAfter_allws hw
  | cons c cs => rfl

/-- `dropWhile` over an append, with the condition phrased via the first
list's own `dropWhile`. -/
theorem dropWhile_app (p : Char → Bool) (l₁ l₂ : List Char) :
    (l₁ ++ l₂).dropWhile p =
      if l₁.dropWhile p = [] then l₂.dropWhile p else l₁.dropWhile p ++ l₂ := by
  induction l₁ with
  | nil => simp [List.dropWhile]
  | cons c cs ih =>
    by_cases hp : p c
    · simpa [List.dropWhile, hp] using ih
    · simp [List.dropWhile, hp]

/-- `takeWhile` over an append, with the condition phrased via the first
list's `dropWhile`. -/
theorem takeWhile_app (p : Char → Bool) (l₁ l₂ : List Char) :
    (l₁ ++ l₂).takeWhile p =
      if l₁.dropWhile p = [] then l₁ ++ l₂.takeWhile p else l₁.takeWhile p := by
  induction l₁ with
  | nil => simp [List.dropWhile]
  | cons c cs ih =>
    by_cases hp : p c
    · by_cases hd : cs.dropWhile p = []
      · simp [List.takeWhile, List.dropWhile, hp, hd] at ih ⊢
        exact ih
      · simp [List.takeWhile, List.dropWhile, hp, hd] at ih ⊢
        exact ih
    · simp [List.takeWhile, List.dropWhile, hp]

/-- An all-whitespace list is fully consumed by `dropWhile isWsB`. -/
theorem allws_dropWhile {w : List Char} (hw : ∀ c ∈ w, isWsB c = true) :
    w.dropWhile isWsB = [] := by
  induction w with
  | nil => rfl
  | cons c cs ih =>
    simp only [List.dropWhile, hw c (by simp)]
    exact ih (fun x hx => hw x (by simp [hx]))

/-- An all-whitespace list has no leading digits. -/
theorem allws_takeWhile_digit {w : List Char} (hw : ∀ c ∈ w, isWsB c = true) :
    w.takeWhile Char.isDigit = [] := by
  cases w with
  | nil => rfl
  | cons c cs => simp [List.takeWhile, ws_not_digit (hw c (by simp))]

/-- An all-whitespace list is untouched by `dropWhile isDigit`. -/
theorem allws_dropWhile_digit {w : List Char} (hw : ∀ c ∈ w, isWsB c = true) :
    w.dropWhile Char.isDigit = w := by
  cases w with
  | nil => rfl
  | cons c cs => simp [List.dropWhile, ws_not_digit (hw c (by simp))]

/-- `gradeNum` never matches at a whitespace character. -/
theorem gradeNum_ws_start {d1 : Char} (hd1 : isWsB d1 = false) (d2 d3 : Char)
    {c : Char} (hc : isWsB c = true) (cs : List Char) :
    gradeNum d1 d2 d3 (c :: cs) = none := by
  match cs with
  | [] => rfl
  | [b] => rfl
  | b :: e :: rest => simp [gradeNum, ws_ne hc hd1]

/-- `gradeA` never matches at a whitespace character. -/
theorem gradeA_ws_start (d : Char) {c : Char} (hc : isWsB c = true)
    (cs : List Char) : gradeA d (c :: cs) = none := by
  match cs with
  | [] => rfl
  | x :: rest => simp [gradeA, ws_lower_ne (t := 'a') hc (by decide)]

/-- `gradeS` never matches at a whitespace character. -/
theorem gradeS_ws_start {c : Char} (hc : isWsB c = true) (cs : List Char) :
    gradeS (c :: cs) = none := by
  simp [gradeS, ws_lower_ne_prop (t := 's') hc (by decide)]

/-- `gradeEuro` never matches at a whitespace character. -/
theorem gradeEuro_ws_start {c : Char} (hc : isWsB c = true) (cs : List Char) :
    gradeEuro (c :: cs) = none := by
  match cs with
  | [] => rfl
  | [_] => rfl
  | [_, _] => rfl
  | [_, _, _] => rfl
  | [_, _, _, _] => rfl
  | _ :: _ :: _ :: _ :: _ :: rest => simp [gradeEuro, ws_ne (t := '1') hc (by decide)]

/-- `gradeENAW` never matches at a whitespace character. -/
theorem gradeENAW_ws_start {c : Char} (hc : isWsB c = true) (cs : List Char) :
    gradeENAW (c :: cs) = none := by
  match cs with
  | [] => rfl
  | n :: rest => simp [gradeENAW, ws_lower_ne (t := 'e') hc (by decide)]

/-- `gradeAlMg` never matches at a whitespace character. -/
theorem gradeAlMg_ws_start {c : Char} (hc : isWsB c = true) (cs : List Char) :
    gradeAlMg (c :: cs) = none := by
  match cs with
  | [] => rfl
  | [_] => rfl
  | [_, _] => rfl
  | [_, _, _] => rfl
  | _ :: _ :: _ :: _ :: rest => simp [gradeAlMg, ws_lower_ne_prop (t := 'a') hc (by decide)]

/-- No alternative of the grade pattern matches at a whitespace character. -/
theorem gradeAt_ws_start {c : Char} (hc : isWsB c = true) (cs : List Char) :
    gradeAt (c :: cs) = none := by
  unfold gradeAt
  rw [gradeNum_ws_start (by decide) '0' '4' hc, gradeNum_ws_start (by decide) '1' '6' hc,
      gradeA_ws_start '2' hc, gradeA_ws_start '4' hc, gradeS_ws_start hc,
      gradeEuro_ws_start hc, gradeENAW_ws_start hc, gradeAlMg_ws_start hc]

/-- The grade scan finds nothing in an all-whitespace list. -/
theorem gradeGo_allws {w : List Char} (hw : ∀ c ∈ w, isWsB c = true)
    (pw : Bool) : gradeGo pw w = none := by
  induction w generalizing pw with
  | nil => rfl
  | cons c cs ih =>
    rw [gradeGo]
    have hat : gradeAt (c :: cs) = none := gradeAt_ws_start (hw c (by simp)) cs
    cases pw with
    | true => exact ih (fun x hx => hw x (by simp [hx])) _
    | false =>
      simp only [Bool.false_eq_true, if_false, hat]
      exact ih (fun x hx => hw x (by simp [hx])) _

/-- Dropping leading whitespace does not change the grade scan at all. -/
theorem gradeGo_dropWhile_ws (l : List Char) :
    gradeGo false (l.dropWhile isWsB) = gradeGo false l := by
  induction l with
  | nil => rfl
  | cons c cs ih =>
    by_cases hw : isWsB c
    · rw [List.dropWhile_cons_of_pos hw, ih]
      rw [gradeGo]
      simp only [Bool.false_eq_true, if_false, gradeAt_ws_start hw cs, ws_not_word hw]
    · rw [List.dropWhile_cons_of_neg hw]

/-- Appending trailing whitespace does not change whether `gradeNum`
matches at a position. -/
theorem gradeNum_app {w : List Char} (hw : ∀ c ∈ w, isWsB c = true)
    {d1 d2 d3 : Char} (hd1 : isWsB d1 = false) (hd2 : isWsB d2 = false)
    (hd3 : isWsB d3 = false) (x : List Char) :
    (gradeNum d1 d2 d3 (x ++ w)).isSome = (gradeNum d1 d2 d3 x).isSome := by
  match x with
  | [] =>
    cases w with
    | nil => rfl
    | cons c w' =>
      simp only [List.nil_append]
      rw [gradeNum_ws_start hd1 d2 d3 (hw c (by simp)) w']
      rfl
  | [a] =>
    cases w with
    | nil => rfl
    | cons c w' =>
      cases w' with
      | nil => rfl
      | cons e w'' =>
        have h2 := ws_ne (hw c (by simp)) hd2
        simp [gradeNum, h2]
  | [a, b] =>
    cases w with
    | nil => rfl
    | cons c w' =>
      have h3 := ws_ne (hw c (by simp)) hd3
      simp [gradeNum, h3]
  | a :: b :: e :: rest =>
    by_cases h : (decide (a = d1) && decide (b = d2) && decide (e = d3)) = true
    · cases rest with
      | nil =>
        cases w with
        | nil => rfl
        | cons c w2 =>
          have hl := ws_lower_ne (t := 'l') (hw c (by simp)) (by decide)
          have hb : bAfter (c :: w2) = true := bAfter_ws_head (hw c (by simp)) w2
          simp [gradeNum, h, hl, hb]
      | cons x1 rest2 =>
        have hb2 : bAfter (rest2 ++ w) = bAfter rest2 := bAfter_append_ws hw rest2
        have hb1 : bAfter (x1 :: (rest2 ++ w)) = bAfter (x1 :: rest2) := rfl
        simp only [List.cons_append, gradeNum, h, if_true, hb2, hb1]
        split
        · rfl
        · split <;> rfl
    · simp [gradeNum, h]

/-- Appending trailing whitespace does not change whether `gradeA`
matches at a position. -/
theorem gradeA_app {w : List Char} (hw : ∀ c ∈ w, isWsB c = true)
    {d : Char} (hd : isWsB d = false) (x : List Char) :
    (gradeA d (x ++ w)).isSome = (gradeA d x).isSome := by
  match x with
  | [] =>
    cases w with
    | nil => rfl
    | cons c w' =>
      simp only [List.nil_append]
      rw [gradeA_ws_start d (hw c (by simp)) w']
      rfl
  | [a] =>
    cases w with
    | nil => rfl
    | cons c w' =>
      have h2 := ws_ne (hw c (by simp)) hd
      simp [gradeA, h2]
  | a :: b :: rest =>
    have hb2 : bAfter (rest ++ w) = bAfter rest := bAfter_append_ws hw rest
    simp only [List.cons_append, gradeA, hb2]
    split <;> rfl

/-- If `dropWhile` consumes everything, `takeWhile` keeps everything. -/
theorem takeWhile_eq_self_of_dropWhile_nil {p : Char → Bool} {l : List Char}
    (h : l.dropWhile p = []) : l.takeWhile p = l := by
  induction l with
  | nil => rfl
  | cons c cs ih =>
    by_cases hp : p c
    · rw [List.dropWhile_cons_of_pos hp] at h
      rw [List.takeWhile_cons_of_pos hp, ih h]
    · rw [List.dropWhile_cons_of_neg hp] at h
      exact absurd h (by simp)

/-- Appending trailing whitespace does not change whether `gradeS`
matches at a position. -/
theorem gradeS_app {w : List Char} (hw : ∀ c ∈ w, isWsB c = true)
    (x : List Char) : (gradeS (x ++ w)).isSome = (gradeS x).isSome := by
  match x with
  | [] =>
    cases w with
    | nil => rfl
    | cons c w' =>
      simp only [List.nil_append]
      rw [gradeS_ws_start (hw c (by simp)) w']
      rfl
  | sh :: rest =>
    by_cases hs : lowerChar sh = 's'
    · have hda := dropWhile_app isWsB rest w
      by_cases hd : rest.dropWhile isWsB = []
      · rw [if_pos hd, allws_dropWhile hw] at hda
        simp [gradeS, hs, hda, hd]
      · rw [if_neg hd] at hda
        cases hr : rest.dropWhile isWsB with
        | nil => exact absurd hr hd
        | cons e1 t1 =>
          rw [hr] at hda
          cases t1 with
          | nil =>
            rcases w with _ | ⟨c1, _ | ⟨c2, w3⟩⟩
            · simp [gradeS, hs, hda, hr]
            · simp [gradeS, hs, hda, hr]
            · simp [gradeS, hs, hda, hr, ws_not_digit (hw c1 (by simp))]
          | cons e2 t2 =>
            cases t2 with
            | nil =>
              rcases w with _ | ⟨c1, w2⟩
              · simp [gradeS, hs, hda, hr]
              · simp [gradeS, hs, hda, hr, ws_not_digit (hw c1 (by simp))]
            | cons e3 r3 =>
              have hb : bAfter (r3 ++ w) = bAfter r3 := bAfter_append_ws hw r3
              simp only [gradeS, List.cons_append, hda, hr, hb, hs]
              split
              · split <;> rfl
              · rfl
    · simp [gradeS, hs]

/-- Appending trailing whitespace does not change whether `gradeEuro`
matches at a position. -/
theorem gradeEuro_app {w : List Char} (hw : ∀ c ∈ w, isWsB c = true)
    (x : List Char) : (gradeEuro (x ++ w)).isSome = (gradeEuro x).isSome := by
  match x with
  | [] =>
    cases w with
    | nil => rfl
    | cons c w' =>
      simp only [List.nil_append]
      rw [gradeEuro_ws_start (hw c (by simp)) w']
      rfl
  | [a] =>
    rcases w with _ | ⟨c1, _ | ⟨x1, _ | ⟨x2, _ | ⟨x3, _ | ⟨x4, w6⟩⟩⟩⟩⟩
    · rfl
    · rfl
    · rfl
    · rfl
    · rfl
    · simp [gradeEuro, ws_ne_prop (t := '.') (hw c1 (by simp)) (by decide)]
  | [a, b] =>
    rcases w with _ | ⟨c1, _ | ⟨x1, _ | ⟨x2, _ | ⟨x3, w5⟩⟩⟩⟩
    · rfl
    · rfl
    · rfl
    · rfl
    · simp [gradeEuro, ws_not_digit (hw c1 (by simp))]
  | [a, b, e] =>
    rcases w with _ | ⟨c1, _ | ⟨x1, _ | ⟨x2, w4⟩⟩⟩
    · rfl
    · rfl
    · rfl
    · simp [gradeEuro, ws_not_digit (hw c1 (by simp))]
  | [a, b, e, f] =>
    rcases w with _ | ⟨c1, _ | ⟨x1, w3⟩⟩
    · rfl
    · rfl
    · simp [gradeEuro, ws_not_digit (hw c1 (by simp))]
  | [a, b, e, f, g] =>
    rcases w with _ | ⟨c1, w2⟩
    · rfl
    · simp [gradeEuro, ws_not_digit (hw c1 (by simp))]
  | a :: b :: e :: f :: g :: h2 :: rest =>
    have hb : bAfter (rest ++ w) = bAfter rest := bAfter_append_ws hw rest
    simp only [List.cons_append, gradeEuro, hb]
    split <;> rfl

/-- Appending trailing whitespace does not change whether `gradeAlMg`
matches at a position. -/
theorem gradeAlMg_app {w : List Char} (hw : ∀ c ∈ w, isWsB c = true)
    (x : List Char) : (gradeAlMg (x ++ w)).isSome = (gradeAlMg x).isSome := by
  match x with
  | [] =>
    cases w with
    | nil => rfl
    | cons c w' =>
      simp only [List.nil_append]
      rw [gradeAlMg_ws_start (hw c (by simp)) w']
      rfl
  | [a] =>
    rcases w with _ | ⟨c1, _ | ⟨x1, _ | ⟨x2, _ | ⟨x3, w5⟩⟩⟩⟩
    · rfl
    · rfl
    · rfl
    · rfl
    · simp [gradeAlMg, ws_lower_ne_prop (t := 'l') (hw c1 (by simp)) (by decide)]
  | [a, b] =>
    rcases w with _ | ⟨c1, _ | ⟨x1, _ | ⟨x2, w4⟩⟩⟩
    · rfl
    · rfl
    · rfl
    · simp [gradeAlMg, ws_lower_ne_prop (t := 'm') (hw c1 (by simp)) (by decide)]
  | [a, b, e] =>
    rcases w with _ | ⟨c1, _ | ⟨x1, w3⟩⟩
    · rfl
    · rfl
    · simp [gradeAlMg, ws_lower_ne_prop (t := 'g') (hw c1 (by simp)) (by decide)]
  | [a, b, e, f] =>
    rcases w with _ | ⟨c1, w2⟩
    · rfl
    · simp [gradeAlMg, ws_not_digit (hw c1 (by simp))]
  | a :: b :: e :: f :: g :: rest =>
    have hb : bAfter (rest ++ w) = bAfter rest := bAfter_append_ws hw rest
    simp only [List.cons_append, gradeAlMg, hb]
    split <;> rfl

/-- Appending trailing whitespace does not change whether `gradeENAW`
matches at a position. -/
theorem gradeENAW_app {w : List Char} (hw : ∀ c ∈ w, isWsB c = true)
    (x : List Char) : (gradeENAW (x ++ w)).isSome = (gradeENAW x).isSome := by
  match x with
  | [] =>
    cases w with
    | nil => rfl
    | cons c w' =>
      simp only [List.nil_append]
      rw [gradeENAW_ws_start (hw c (by simp)) w']
      rfl
  | [e0] =>
    rcases w with _ | ⟨c1, w2⟩
    · rfl
    · simp [gradeENAW, ws_lower_ne (t := 'n') (hw c1 (by simp)) (by decide)]
  | e0 :: n0 :: rest =>
    by_cases hen : (decide (lowerChar e0 = 'e') && decide (lowerChar n0 = 'n')) = true
    · have hda := dropWhile_app isWsB rest w
      by_cases hd : rest.dropWhile isWsB = []
      · rw [if_pos hd, allws_dropWhile hw] at hda
        simp [gradeENAW, hen, hda, hd]
      · rw [if_neg hd] at hda
        cases hr : rest.dropWhile isWsB with
        | nil => exact absurd hr hd
        | cons e1 t1 =>
          rw [hr] at hda
          cases t1 with
          | nil =>
            rcases w with _ | ⟨c1, _ | ⟨c2, w3⟩⟩
            · simp [gradeENAW, hen, hda, hr]
            · simp [gradeENAW, hen, hda, hr]
            · simp [gradeENAW, hen, hda, hr,
                ws_lower_ne (t := 'w') (hw c1 (by simp)) (by decide)]
          | cons e2 t2 =>
            cases t2 with
            | nil =>
              rcases w with _ | ⟨c1, w2⟩
              · simp [gradeENAW, hen, hda, hr]
              · simp [gradeENAW, hen, hda, hr,
                  ws_ne (t := '-') (hw c1 (by simp)) (by decide)]
            | cons e3 r3 =>
              by_cases hin : (decide (lowerChar e1 = 'a') && decide (lowerChar e2 = 'w')
                  && decide (e3 = '-')) = true
              · have hta := takeWhile_app Char.isDigit r3 w
                have hdd2 := dropWhile_app Char.isDigit r3 w
                by_cases hdd : r3.dropWhile Char.isDigit = []
                · rw [if_pos hdd, allws_takeWhile_digit hw, List.append_nil] at hta
                  rw [if_pos hdd, allws_dropWhile_digit hw] at hdd2
                  have hts : r3.takeWhile Char.isDigit = r3 :=
                    takeWhile_eq_self_of_dropWhile_nil hdd
                  have hbw : bAfter w = true := bAfter_allws hw
                  have hb0 : bAfter ([] : List Char) = true := rfl
                  simp only [gradeENAW, List.cons_append, hda, hr, hen, hin, hta, hdd2,
                    hts, hdd, hbw, hb0, if_true]
                  split <;> rfl
                · rw [if_neg hdd] at hta hdd2
                  have hb : bAfter (r3.dropWhile Char.isDigit ++ w) =
                      bAfter (r3.dropWhile Char.isDigit) := bAfter_append_ws hw _
                  simp only [gradeENAW, List.cons_append, hda, hr, hen, hin, hta, hdd2,
                    hb, if_true]
                  split <;> rfl
              · simp [gradeENAW, hen, hda, hr, hin]
    · simp [gradeENAW, hen]

/-- Appending trailing whitespace does not change whether any grade
alternative matches at a position. -/
theorem gradeAt_app {w : List Char} (hw : ∀ c ∈ w, isWsB c = true)
    (x : List Char) : (gradeAt (x ++ w)).isSome = (gradeAt x).isSome := by
  have h1 : (gradeNum '3' '0' '4' (x ++ w)).isSome = (gradeNum '3' '0' '4' x).isSome :=
    gradeNum_app hw (by decide) (by decide) (by decide) x
  have h2 : (gradeNum '3' '1' '6' (x ++ w)).isSome = (gradeNum '3' '1' '6' x).isSome :=
    gradeNum_app hw (by decide) (by decide) (by decide) x
  have h3 : (gradeA '2' (x ++ w)).isSome = (gradeA '2' x).isSome :=
    gradeA_app hw (by decide) x
  have h4 : (gradeA '4' (x ++ w)).isSome = (gradeA '4' x).isSome :=
    gradeA_app hw (by decide) x
  have h5 := gradeS_app hw x
  have h6 := gradeEuro_app hw x
  have h7 := gradeENAW_app hw x
  have h8 := gradeAlMg_app hw x
  unfold gradeAt
  cases e1 : gradeNum '3' '0' '4' x with
  | some p =>
    rw [e1] at h1
    cases e1' : gradeNum '3' '0' '4' (x ++ w) with
    | some q => rfl
    | none => rw [e1'] at h1; simp at h1
  | none =>
    rw [e1] at h1
    cases e1' : gradeNum '3' '0' '4' (x ++ w) with
    | some q => rw [e1'] at h1; simp at h1
    | none =>
  cases e2 : gradeNum '3' '1' '6' x with
  | some p =>
    rw [e2] at h2
    cases e2' : gradeNum '3' '1' '6' (x ++ w) with
    | some q => rfl
    | none => rw [e2'] at h2; simp at h2
  | none =>
    rw [e2] at h2
    cases e2' : gradeNum '3' '1' '6' (x ++ w) with
    | some q => rw [e2'] at h2; simp at h2
    | none =>
  cases e3 : gradeA '2' x with
  | some p =>
    rw [e3] at h3
    cases e3' : gradeA '2' (x ++ w) with
    | some q => rfl
    | none => rw [e3'] at h3; simp at h3
  | none =>
    rw [e3] at h3
    cases e3' : gradeA '2' (x ++ w) with
    | some q => rw [e3'] at h3; simp at h3
    | none =>
  cases e4 : gradeA '4' x with
  | some p =>
    rw [e4] at h4
    cases e4' : gradeA '4' (x ++ w) with
    | some q => rfl
    | none => rw [e4'] at h4; simp at h4
  | none =>
    rw [e4] at h4
    cases e4' : gradeA '4' (x ++ w) with
    | some q => rw [e4'] at h4; simp at h4
    | none =>
  cases e5 : gradeS x with
  | some p =>
    rw [e5] at h5
    cases e5' : gradeS (x ++ w) with
    | some q => rfl
    | none => rw [e5'] at h5; simp at h5
  | none =>
    rw [e5] at h5
    cases e5' : gradeS (x ++ w) with
    | some q => rw [e5'] at h5; simp at h5
    | none =>
  cases e6 : gradeEuro x with
  | some p =>
    rw [e6] at h6
    cases e6' : gradeEuro (x ++ w) with
    | some q => rfl
    | none => rw [e6'] at h6; simp at h6
  | none =>
    rw [e6] at h6
    cases e6' : gradeEuro (x ++ w) with
    | some q => rw [e6'] at h6; simp at h6
    | none =>
  cases e7 : gradeENAW x with
  | some p =>
    rw [e7] at h7
    cases e7' : gradeENAW (x ++ w) with
    | some q => rfl
    | none => rw [e7'] at h7; simp at h7
  | none =>
    rw [e7] at h7
    cases e7' : gradeENAW (x ++ w) with
    | some q => rw [e7'] at h7; simp at h7
    | none => exact h8

/-- Appending trailing whitespace does not change whether the grade scan
finds a match. -/
theorem gradeGo_app {w : List Char} (hw : ∀ c ∈ w, isWsB c = true)
    (pw : Bool) (x : List Char) :
    (gradeGo pw (x ++ w)).isSome = (gradeGo pw x).isSome := by
  induction x generalizing pw with
  | nil =>
    rw [List.nil_append, gradeGo_allws hw pw]
    rfl
  | cons c cs ih =>
    rw [List.cons_append, gradeGo, gradeGo]
    cases pw with
    | true =>
      simp only [if_true]
      exact ih _
    | false =>
      simp only [Bool.false_eq_true, if_false]
      have hat := gradeAt_app hw (c :: cs)
      rw [← List.cons_append]
      cases ea : gradeAt (c :: cs) with
      | some p =>
        rw [ea] at hat
        cases ea' : gradeAt (c :: cs ++ w) with
        | some q => rfl
        | none => rw [ea'] at hat; simp at hat
      | none =>
        rw [ea] at hat
        cases ea' : gradeAt (c :: cs ++ w) with
        | some q => rw [ea'] at hat; simp at hat
        | none => exact ih _

/-- The scalar cleanup `cleanStrL` (CR/LF to spaces, then strip) does not
change whether the material-grade pattern matches. -/
theorem gradeGo_cleanStr (l : List Char) :
    (gradeGo false (cleanStrL l)).isSome = (gradeGo false l).isSome := by
  have hmap : gradeGo false (l.map normWsChar) = (gradeGo false l).map (List.map normWsChar) :=
    gradeGo_map false l
  set m := (l.map normWsChar).dropWhile isWsB with hm
  have hsfx : ∀ c ∈ (m.reverse.takeWhile isWsB).reverse, isWsB c = true := by
    intro c hc
    rw [List.mem_reverse] at hc
    exact List.mem_takeWhile_imp hc
  have hdecomp : dropEndWhile isWsB m ++ (m.reverse.takeWhile isWsB).reverse = m := by
    unfold dropEndWhile
    rw [← List.reverse_append, List.takeWhile_append_dropWhile, List.reverse_reverse]
  have happ := gradeGo_app hsfx false (dropEndWhile isWsB m)
  rw [hdecomp] at happ
  have hdrop : gradeGo false m = gradeGo false (l.map normWsChar) := gradeGo_dropWhile_ws _
  show (gradeGo false (dropEndWhile isWsB m)).isSome = _
  rw [← happ, hdrop, hmap]
  cases gradeGo false l <;> rfl

/-! ## C7 — material grade / post-treatment mutual exclusion -/

/-- C7: if the input's Post_Treatment is a string in which the recognized
material-grade pattern matches, then (on engine success) the normalized
record has Post_Treatment null and Material_Grade non-null: the matched
grade is promoted into Material_Grade when that field was falsy, and a
truthy Material_Grade is kept. -/
theorem C7_grade_pt_mutual_exclusion (d : Dict) (t : String) (p : String) (r : Dict)
    (hp : dictGet d "Post_Treatment" = JVal.s p)
    (hm : (gradeSearch p).isSome = true)
    (hok : normalizeData d t = Except.ok r) :
    dictGet r "Post_Treatment" = JVal.null ∧ dictGet r "Material_Grade" ≠ JVal.null := by
  have hgo : (gradeGo false p.data).isSome = true := by
    unfold gradeSearch at hm
    cases hgg : gradeGo false p.data with
    | some gg => rfl
    | none => rw [hgg] at hm; simp at hm
  have hclean : (gradeGo false (cleanStrL p.data)).isSome = true :=
    (gradeGo_cleanStr p.data).trans hgo
  have hne : (⟨cleanStrL p.data⟩ : String) ≠ "" := by
    intro he
    have hdd : cleanStrL p.data = [] := congrArg String.data he
    rw [hdd] at hclean
    exact absurd hclean (by decide)
  have hcv : cleanVal (JVal.s p) = JVal.s ⟨cleanStrL p.data⟩ := by
    simp [cleanVal, hne]
  have hpt1 : pyTruthy (JVal.s ⟨cleanStrL p.data⟩) = true := by
    simp [pyTruthy, hne]
  have hg : ∃ g, gradeSearch (⟨cleanStrL p.data⟩ : String) = some g := by
    have : (gradeGo false (⟨cleanStrL p.data⟩ : String).data).isSome = true := hclean
    unfold gradeSearch
    cases hgg : gradeGo false (⟨cleanStrL p.data⟩ : String).data with
    | some gg => exact ⟨⟨gg⟩, rfl⟩
    | none => rw [hgg] at this; simp at this
  obtain ⟨g, hg⟩ := hg
  have hpt : ∀ mg, ptRule mg (cleanVal (JVal.s p)) =
      Except.ok (if pyTruthy mg then mg else JVal.s g, JVal.null) := by
    intro mg
    rw [hcv]
    by_cases hb : pyTruthy mg = true <;> simp [ptRule, hpt1, hg, hb]
  unfold normalizeData at hok
  simp only [hp, hpt] at hok
  split at hok
  · exact Except.noConfusion hok
  split at hok
  · exact Except.noConfusion hok
  split at hok
  · exact Except.noConfusion hok
  split at hok
  · exact Except.noConfusion hok
  split at hok
  · exact Except.noConfusion hok
  split at hok
  · exact Except.noConfusion hok
  split at hok
  · exact Except.noConfusion hok
  split at hok
  · exact Except.noConfusion hok
  split at hok
  · exact Except.noConfusion hok
  injection hok with hh
  subst hh
  constructor
  · rfl
  · have hmg : ∀ (m : JVal), (if pyTruthy m = true then m else JVal.s g) ≠ JVal.null := by
      intro m
      by_cases hb : pyTruthy m = true
      · rw [if_pos hb]; exact pyTruthy_ne_null hb
      · rw [if_neg hb]; exact fun hh2 => JVal.noConfusion hh2
    simp only [dictGet]
    exact hmg _

/-- C7 witness: input `{"Post_Treatment": "304"}` with empty source text;
the grade is promoted and post-treatment is cleared. -/
theorem C7_grade_pt_mutual_exclusion_witness :
    dictGet [("Post_Treatment", JVal.s "304")] "Post_Treatment" = JVal.s "304" ∧
    (gradeSearch "304").isSome = true ∧
    (dictGet [("Material_Grade", JVal.s "304"), ("Surface_Roughness", JVal.null),
        ("Geometrical_Tolerancing", JVal.null), ("Dimensional_Tolerancing", JVal.null),
        ("Break_Sharp_Edges", JVal.b false), ("Retaining_Ring_Grooves_Sharp", JVal.b false),
        ("Welding_Notes", JVal.null), ("Tolerances_General_Linear", JVal.null),
        ("Tolerances_Machining", JVal.null), ("Tolerances_Welded_Sheetmetal", JVal.null),
        ("Welding_Designation", JVal.null), ("Weld_Finish", JVal.null),
        ("Post_Treatment", JVal.null), ("Notes", JVal.arr []),
        ("Drawing_Number", JVal.null), ("Revision", JVal.null)] "Post_Treatment" = JVal.null ∧
      dictGet [("Material_Grade", JVal.s "304"), ("Surface_Roughness", JVal.null),
        ("Geometrical_Tolerancing", JVal.null), ("Dimensional_Tolerancing", JVal.null),
        ("Break_Sharp_Edges", JVal.b false), ("Retaining_Ring_Grooves_Sharp", JVal.b false),
        ("Welding_Notes", JVal.null), ("Tolerances_General_Linear", JVal.null),
        ("Tolerances_Machining", JVal.null), ("Tolerances_Welded_Sheetmetal", JVal.null),
        ("Welding_Designation", JVal.null), ("Weld_Finish", JVal.null),
        ("Post_Treatment", JVal.null), ("Notes", JVal.arr []),
        ("Drawing_Number", JVal.null), ("Revision", JVal.null)] "Material_Grade" ≠ JVal.null) :=
  ⟨rfl, by decide,
    C7_grade_pt_mutual_exclusion [("Post_Treatment", JVal.s "304")] "" "304" _
      rfl (by decide) rfl⟩

/-! ## Decimal-comma elimination: structure of the `_DEC_COMMA` scan -/

/-- The scan preserves the first character of its input. -/
theorem dec_head (fuel : Nat) (c : Char) (cs : List Char) :
    ∃ z, decGoF fuel (c :: cs) = c :: z := by
  cases fuel with
  | zero => exact ⟨cs, rfl⟩
  | succ f =>
    by_cases hd : c.isDigit
    · have hrun : (c :: cs).takeWhile Char.isDigit = c :: cs.takeWhile Char.isDigit :=
        List.takeWhile_cons_of_pos hd
      rw [decGoF]
      simp only [hd, if_true, hrun, List.cons_append]
      split
      · exact ⟨_, rfl⟩
      · exact ⟨_, rfl⟩
    · rw [decGoF]
      simp only [hd, Bool.false_eq_true, if_false]
      exact ⟨_, rfl⟩

/-- The scan preserves the head character (with default). -/
theorem dec_headD (fuel : Nat) (l : List Char) :
    (decGoF fuel l).headD 'x' = l.headD 'x' := by
  cases l with
  | nil =>
    have : decGoF fuel ([] : List Char) = [] := by cases fuel <;> rfl
    rw [this]
  | cons c cs =>
    obtain ⟨z, hz⟩ := dec_head fuel c cs
    rw [hz]
    rfl

/-- The head surviving `dropWhile p` fails `p`. -/
theorem dropWhile_head_false {p : Char → Bool} {l : List Char} {h : Char}
    {t : List Char} (he : l.dropWhile p = h :: t) : p h = false := by
  induction l with
  | nil => exact absurd he (by simp)
  | cons c cs ih =>
    by_cases hp : p c
    · rw [List.dropWhile_cons_of_pos hp] at he
      exact ih he
    · rw [List.dropWhile_cons_of_neg hp] at he
      injection he with h1 h2
      subst h1
      exact Bool.eq_false_iff.mpr hp

/-- A digit is never a comma (decided). -/
theorem digit_ne_comma {c : Char} (h : c.isDigit = true) : decide (c = ',') = false :=
  decide_eq_false (fun he => by subst he; exact absurd h (by decide))

/-- Dropping the head preserves comma-chain freedom. -/
theorem hasTriple_tail {c : Char} {rest : List Char}
    (h : hasTriple (c :: rest) = false) : hasTriple rest = false := by
  rw [hasTriple, Bool.or_eq_false_iff] at h
  exact h.2

/-- Dropping the head preserves decimal-comma freedom. -/
theorem hasDCC_tail {c : Char} {rest : List Char}
    (h : hasDCC (c :: rest) = false) : hasDCC rest = false := by
  rw [hasDCC, Bool.or_eq_false_iff] at h
  exact h.2

/-- Dropping the head preserves plus-minus canonicality. -/
theorem hasPM_tail {c : Char} {rest : List Char}
    (h : hasPM (c :: rest) = false) : hasPM rest = false := by
  rw [hasPM, Bool.or_eq_false_iff] at h
  exact h.2

/-- `dropWhile` preserves comma-chain freedom. -/
theorem hasTriple_dropWhile (p : Char → Bool) {l : List Char}
    (h : hasTriple l = false) : hasTriple (l.dropWhile p) = false := by
  induction l with
  | nil => exact h
  | cons c cs ih =>
    by_cases hp : p c
    · rw [List.dropWhile_cons_of_pos hp]
      exact ih (hasTriple_tail h)
    · rw [List.dropWhile_cons_of_neg hp]
      exact h

/-- A leading all-digit run is transparent to `dccCont`. -/
theorem dccCont_digits_append {run : List Char} (hr : ∀ c ∈ run, c.isDigit = true)
    (z : List Char) : dccCont (run ++ z) = dccCont z := by
  induction run with
  | nil => rfl
  | cons d run' ih =>
    rw [List.cons_append, dccCont]
    simp only [hr d (by simp), if_true]
    exact ih (fun c hc => hr c (by simp [hc])) 

/-- Prepending an all-digit run cannot create a comma chain, provided the
junction does not complete one. -/
theorem hasTriple_digits_append {run z : List Char}
    (hr : ∀ c ∈ run, c.isDigit = true)
    (hz : ∀ rest, z = ',' :: rest → startDCC rest = false)
    (h : hasTriple z = false) : hasTriple (run ++ z) = false := by
  induction run with
  | nil => exact h
  | cons d run' ih =>
    have ih' := ih (fun c hc => hr c (by simp [hc]))
    rw [List.cons_append, hasTriple]
    have h1 : tripleAt (d :: (run' ++ z)) = false := by
      cases run' with
      | cons e run'' =>
        have hne := digit_ne_comma (hr e (by simp))
        simp [tripleAt, hne]
      | nil =>
        rw [List.nil_append]
        cases z with
        | nil => rfl
        | cons b rest =>
          by_cases hb : b = ','
          · subst hb
            simp [tripleAt, hz rest rfl]
          · simp [tripleAt, hb]
    rw [h1, ih']
    rfl

/-- Prepending an all-digit run cannot create a decimal comma, provided the
junction does not complete one. -/
theorem hasDCC_digits_append {run z : List Char}
    (hr : ∀ c ∈ run, c.isDigit = true)
    (hz : ∀ rest, z = ',' :: rest → (rest.headD 'x').isDigit = false)
    (h : hasDCC z = false) : hasDCC (run ++ z) = false := by
  induction run with
  | nil => exact h
  | cons d run' ih =>
    have ih' := ih (fun c hc => hr c (by simp [hc]))
    rw [List.cons_append, hasDCC]
    have h1 : dccAt (d :: (run' ++ z)) = false := by
      cases run' with
      | cons e run'' =>
        have hne := digit_ne_comma (hr e (by simp))
        rw [List.cons_append]
        cases hx : run'' ++ z with
        | nil => rfl
        | cons e2 t => simp [dccAt, hne]
      | nil =>
        rw [List.nil_append]
        cases z with
        | nil => rfl
        | cons b rest =>
          cases rest with
          | nil => rfl
          | cons e2 rest2 =>
            by_cases hb : b = ','
            · subst hb
              have := hz (e2 :: rest2) rfl
              simp only [List.headD] at this
              simp [dccAt, this]
            · simp [dccAt, hb]
    rw [h1, ih']
    rfl

/-- A comma chain in a suffix is a comma chain. -/
theorem hasTriple_append_right {z : List Char} (x : List Char)
    (h : hasTriple z = true) : hasTriple (x ++ z) = true := by
  induction x with
  | nil => exact h
  | cons a x' ih =>
    rw [List.cons_append, hasTriple, ih]
    simp

/-- `decGoF` on the empty list. -/
theorem dec_nil (fuel : Nat) : decGoF fuel ([] : List Char) = [] := by
  cases fuel <;> rfl

/-- The comma scan's output never starts with `\d+ , \d`: a leading decimal
comma is always rewritten. -/
theorem startDCC_dec : ∀ (fuel : Nat) (l : List Char), l.length ≤ fuel →
    startDCC (decGoF fuel l) = false := by
  intro fuel l hf
  cases l with
  | nil =>
    rw [dec_nil]
    rfl
  | cons c cs =>
    cases fuel with
    | zero => simp at hf
    | succ f =>
      have hcs : cs.length ≤ f := by
        simp only [List.length_cons] at hf
        omega
      by_cases hd : c.isDigit
      · have key : ∀ (Z : List Char), dccCont Z = false →
            startDCC (c :: (cs.takeWhile Char.isDigit ++ Z)) = false := by
          intro Z hZ
          rw [startDCC, dccCont_digits_append (fun x hx => List.mem_takeWhile_imp hx) Z,
            hZ, Bool.and_false]
        rw [decGoF]
        simp only [hd, if_true]
        by_cases hm : (decide ((cs.dropWhile Char.isDigit).headD 'x' = ',') &&
            ((cs.dropWhile Char.isDigit).tail.headD 'x').isDigit) = true
        · rw [if_pos hm, List.takeWhile_cons_of_pos hd, List.cons_append]
          apply key
          simp [dccCont]
        · rw [if_neg hm, List.takeWhile_cons_of_pos hd, List.cons_append]
          apply key
          have hmf : (decide ((cs.dropWhile Char.isDigit).headD 'x' = ',') &&
              ((cs.dropWhile Char.isDigit).tail.headD 'x').isDigit) = false := by
            revert hm
            cases (decide ((cs.dropWhile Char.isDigit).headD 'x' = ',') &&
              ((cs.dropWhile Char.isDigit).tail.headD 'x').isDigit) <;> simp
          cases hre : cs.dropWhile Char.isDigit with
          | nil =>
            rw [dec_nil]
            rfl
          | cons h t =>
            have hh : h.isDigit = false := dropWhile_head_false hre
            by_cases hcomma : h = ','
            · subst hcomma
              rw [hre] at hmf
              simp only [List.headD_cons, List.tail_cons] at hmf
              simp only [decide_True, Bool.true_and] at hmf
              have hlen : t.length + 1 ≤ f := by
                have h1 := (List.dropWhile_sublist Char.isDigit (l := cs)).length_le
                rw [hre] at h1
                simp only [List.length_cons] at h1
                omega
              cases f with
              | zero => omega
              | succ f2 =>
                rw [show decGoF (f2 + 1) (',' :: t) = ',' :: decGoF f2 t from by
                  rw [decGoF]; simp]
                rw [dccCont, dec_headD f2 t]
                simpa using hmf
            · obtain ⟨z, hzz⟩ := dec_head f h t
              rw [hzz, dccCont]
              simp [hh, hcomma]
      · rw [decGoF]
        simp only [hd, Bool.false_eq_true, if_false]
        rw [startDCC]
        simp [hd]

/-- When the comma scan's output starts with a comma, what follows the
comma never starts with `\d+ , \d`. -/
theorem dec_comma_case {f : Nat} {m : List Char} (hm : m.length ≤ f) :
    ∀ rest, decGoF f m = ',' :: rest → startDCC rest = false := by
  intro rest h
  cases m with
  | nil =>
    rw [dec_nil] at h
    exact absurd h (by simp)
  | cons h1 t1 =>
    obtain ⟨z, hz⟩ := dec_head f h1 t1
    rw [hz] at h
    injection h with he1 he2
    subst he1
    cases f with
    | zero => simp at hm
    | succ f2 =>
      have hstep : decGoF (f2 + 1) (',' :: t1) = ',' :: decGoF f2 t1 := by
        rw [decGoF]
        simp
      rw [hstep] at hz
      injection hz with hz1 hz2
      rw [← he2, ← hz2]
      apply startDCC_dec
      simp only [List.length_cons] at hm
      omega

/-- `tripleAt` needs a digit first. -/
theorem tripleAt_nondigit {c : Char} (hc : c.isDigit = false) (z : List Char) :
    tripleAt (c :: z) = false := by
  cases z with
  | nil => rfl
  | cons a b => simp [tripleAt, hc]

/-- One comma-scan pass never leaves a `\d , \d+ , \d` chain. -/
theorem hasTriple_dec : ∀ (fuel : Nat) (l : List Char), l.length ≤ fuel →
    hasTriple (decGoF fuel l) = false := by
  intro fuel
  induction fuel with
  | zero =>
    intro l hl
    cases l with
    | nil => rw [dec_nil]; rfl
    | cons c cs => simp at hl
  | succ f ih =>
    intro l hl
    cases l with
    | nil => rw [dec_nil]; rfl
    | cons c cs =>
      have hcs : cs.length ≤ f := by
        simp only [List.length_cons] at hl
        omega
      by_cases hd : c.isDigit
      · rw [decGoF]
        simp only [hd, if_true]
        have hrest1 : (cs.dropWhile Char.isDigit).length ≤ f :=
          le_trans (List.dropWhile_sublist Char.isDigit (l := cs)).length_le hcs
        by_cases hm : (decide ((cs.dropWhile Char.isDigit).headD 'x' = ',') &&
            ((cs.dropWhile Char.isDigit).tail.headD 'x').isDigit) = true
        · rw [if_pos hm, List.takeWhile_cons_of_pos hd]
          have hrest2 : ((cs.dropWhile Char.isDigit).tail.dropWhile Char.isDigit).length ≤ f := by
            refine le_trans (List.dropWhile_sublist Char.isDigit
              (l := (cs.dropWhile Char.isDigit).tail)).length_le ?_
            have ht : (cs.dropWhile Char.isDigit).tail.length ≤
                (cs.dropWhile Char.isDigit).length := by
              rw [List.length_tail]
              omega
            exact le_trans ht hrest1
          apply hasTriple_digits_append
          · intro x hx
            rcases List.mem_cons.mp hx with hx | hx
            · exact hx ▸ hd
            · exact List.mem_takeWhile_imp hx
          · intro rest hr
            exact absurd hr.symm (by simp)
          · rw [hasTriple]
            rw [tripleAt_nondigit (by decide)]
            rw [hasTriple_digits_append (fun x hx => List.mem_takeWhile_imp hx)
              (fun rest hr => dec_comma_case hrest2 rest hr) (ih _ hrest2)]
            rfl
        · rw [if_neg hm, List.takeWhile_cons_of_pos hd]
          apply hasTriple_digits_append
          · intro x hx
            rcases List.mem_cons.mp hx with hx | hx
            · exact hx ▸ hd
            · exact List.mem_takeWhile_imp hx
          · intro rest hr
            exact dec_comma_case hrest1 rest hr
          · exact ih _ hrest1
      · have hd' : c.isDigit = false := Bool.eq_false_iff.mpr hd
        rw [decGoF]
        simp only [hd', Bool.false_eq_true, if_false]
        rw [hasTriple, tripleAt_nondigit hd', ih cs hcs]
        rfl

/-- `dccAt` needs a digit first. -/
theorem dccAt_nondigit {c : Char} (hc : c.isDigit = false) (z : List Char) :
    dccAt (c :: z) = false := by
  cases z with
  | nil => rfl
  | cons a z2 =>
    cases z2 with
    | nil => rfl
    | cons b z3 => simp [dccAt, hc]

/-- When the comma scan's output starts with a comma and the input never has
a digit right after a leading comma, neither does the output. -/
theorem dec_comma_headD {f : Nat} {m : List Char} (hm : m.length ≤ f)
    (hnd : ∀ t, m = ',' :: t → (t.headD 'x').isDigit = false) :
    ∀ rest, decGoF f m = ',' :: rest → (rest.headD 'x').isDigit = false := by
  intro rest h
  cases m with
  | nil =>
    rw [dec_nil] at h
    exact absurd h (by simp)
  | cons h1 t1 =>
    obtain ⟨z, hz⟩ := dec_head f h1 t1
    rw [hz] at h
    injection h with he1 he2
    subst he1
    cases f with
    | zero => simp at hm
    | succ f2 =>
      have hstep : decGoF (f2 + 1) (',' :: t1) = ',' :: decGoF f2 t1 := by
        rw [decGoF]
        simp
      rw [hstep] at hz
      injection hz with hz1 hz2
      rw [← he2, ← hz2, show (decGoF f2 t1).headD 'x' = t1.headD 'x' from dec_headD f2 t1]
      exact hnd t1 rfl

/-- A nonempty digit run, a comma, and a digit-headed tail start a
`\d+ , \d`. -/
theorem startDCC_digits_comma {run : List Char} (hne : run ≠ [])
    (hr : ∀ c ∈ run, c.isDigit = true) {t : List Char}
    (ht : (t.headD 'x').isDigit = true) : startDCC (run ++ ',' :: t) = true := by
  cases run with
  | nil => exact absurd rfl hne
  | cons x r2 =>
    rw [List.cons_append, startDCC,
      dccCont_digits_append (fun c hc => hr c (by simp [hc]))]
    simp [dccCont, hr x (by simp)]
    simpa using ht

/-- A nonempty digit run followed by a comma and a `\d+ , \d` is a comma
chain. -/
theorem hasTriple_digits_comma {run : List Char} (hne : run ≠ [])
    (hr : ∀ c ∈ run, c.isDigit = true) {rest : List Char}
    (hs : startDCC rest = true) : hasTriple (run ++ ',' :: rest) = true := by
  induction run with
  | nil => exact absurd rfl hne
  | cons d run' ih =>
    cases run' with
    | nil => simp [hasTriple, tripleAt, hr d (by simp), hs]
    | cons e run'' =>
      rw [List.cons_append, hasTriple, ih (by simp) (fun x hx => hr x (by simp [hx]))]
      simp

/-- On a chain-free input, one comma-scan pass removes every decimal
comma. -/
theorem hasDCC_dec : ∀ (fuel : Nat) (l : List Char), l.length ≤ fuel →
    hasTriple l = false → hasDCC (decGoF fuel l) = false := by
  intro fuel
  induction fuel with
  | zero =>
    intro l hl ht
    cases l with
    | nil => rw [dec_nil]; rfl
    | cons c cs => simp at hl
  | succ f ih =>
    intro l hl ht
    cases l with
    | nil => rw [dec_nil]; rfl
    | cons c cs =>
      have hcs : cs.length ≤ f := by
        simp only [List.length_cons] at hl
        omega
      have htcs : hasTriple cs = false := hasTriple_tail ht
      by_cases hd : c.isDigit
      · rw [decGoF]
        simp only [hd, if_true]
        have hrest1len : (cs.dropWhile Char.isDigit).length ≤ f :=
          le_trans (List.dropWhile_sublist Char.isDigit (l := cs)).length_le hcs
        have htrest1 : hasTriple (cs.dropWhile Char.isDigit) = false :=
          hasTriple_dropWhile _ htcs
        by_cases hm : (decide ((cs.dropWhile Char.isDigit).headD 'x' = ',') &&
            ((cs.dropWhile Char.isDigit).tail.headD 'x').isDigit) = true
        · rw [if_pos hm, List.takeWhile_cons_of_pos hd]
          obtain ⟨rest1tail, hre1⟩ : ∃ rt, cs.dropWhile Char.isDigit = ',' :: rt := by
            cases hre : cs.dropWhile Char.isDigit with
            | nil =>
              rw [hre] at hm
              simp at hm
            | cons a t =>
              rw [hre] at hm
              simp only [List.headD_cons] at hm
              rw [Bool.and_eq_true] at hm
              exact ⟨t, by rw [of_decide_eq_true hm.1]⟩
          have hdig : (rest1tail.headD 'x').isDigit = true := by
            rw [hre1] at hm
            simp only [List.headD_cons, List.tail_cons] at hm
            rw [Bool.and_eq_true] at hm
            exact hm.2
          rw [hre1]
          simp only [List.tail_cons]
          have hrtlen : rest1tail.length ≤ f := by
            rw [hre1] at hrest1len
            simp only [List.length_cons] at hrest1len
            omega
          have htrt : hasTriple rest1tail = false := by
            rw [hre1] at htrest1
            exact hasTriple_tail htrest1
          have hlen2 : (rest1tail.dropWhile Char.isDigit).length ≤ f :=
            le_trans (List.dropWhile_sublist Char.isDigit (l := rest1tail)).length_le hrtlen
          have ht2 : hasTriple (rest1tail.dropWhile Char.isDigit) = false :=
            hasTriple_dropWhile _ htrt
          apply hasDCC_digits_append
          · intro x hx
            rcases List.mem_cons.mp hx with hx | hx
            · exact hx ▸ hd
            · exact List.mem_takeWhile_imp hx
          · intro rest hrr
            exact absurd hrr.symm (by simp)
          · rw [hasDCC, dccAt_nondigit (by decide)]
            have hnd2 : ∀ t2, rest1tail.dropWhile Char.isDigit = ',' :: t2 →
                (t2.headD 'x').isDigit = false := by
              intro t2 hre2
              by_cases hdig2 : (t2.headD 'x').isDigit = true
              · exfalso
                have hrun2ne : rest1tail.takeWhile Char.isDigit ≠ [] := by
                  cases hrt : rest1tail with
                  | nil => rw [hrt] at hdig; simp at hdig
                  | cons a t =>
                    rw [hrt] at hdig
                    simp only [List.headD_cons] at hdig
                    rw [List.takeWhile_cons_of_pos hdig]
                    simp
                have hsd : startDCC rest1tail = true := by
                  conv_lhs =>
                    rw [← List.takeWhile_append_dropWhile (p := Char.isDigit) (l := rest1tail),
                      hre2]
                  exact startDCC_digits_comma hrun2ne
                    (fun x hx => List.mem_takeWhile_imp hx) hdig2
                have htr : hasTriple ((c :: cs.takeWhile Char.isDigit) ++
                    ',' :: rest1tail) = true :=
                  hasTriple_digits_comma (by simp)
                    (fun x hx => by
                      rcases List.mem_cons.mp hx with hx | hx
                      · exact hx ▸ hd
                      · exact List.mem_takeWhile_imp hx) hsd
                have hleq : (c :: cs.takeWhile Char.isDigit) ++ ',' :: rest1tail = c :: cs := by
                  rw [List.cons_append, ← hre1, List.takeWhile_append_dropWhile]
                rw [hleq] at htr
                rw [htr] at ht
                exact Bool.noConfusion ht
              · exact Bool.eq_false_iff.mpr hdig2
            rw [hasDCC_digits_append (fun x hx => List.mem_takeWhile_imp hx)
              (dec_comma_headD hlen2 hnd2) (ih _ hlen2 ht2)]
            rfl
        · rw [if_neg hm, List.takeWhile_cons_of_pos hd]
          have hmf : (decide ((cs.dropWhile Char.isDigit).headD 'x' = ',') &&
              ((cs.dropWhile Char.isDigit).tail.headD 'x').isDigit) = false := by
            revert hm
            cases (decide ((cs.dropWhile Char.isDigit).headD 'x' = ',') &&
              ((cs.dropWhile Char.isDigit).tail.headD 'x').isDigit) <;> simp
          have hnd1 : ∀ t, cs.dropWhile Char.isDigit = ',' :: t →
              (t.headD 'x').isDigit = false := by
            intro t hre
            rw [hre] at hmf
            simp only [List.headD_cons, List.tail_cons, decide_True, Bool.true_and] at hmf
            exact hmf
          apply hasDCC_digits_append
          · intro x hx
            rcases List.mem_cons.mp hx with hx | hx
            · exact hx ▸ hd
            · exact List.mem_takeWhile_imp hx
          · exact dec_comma_headD hrest1len hnd1
          · exact ih _ hrest1len htrest1
      · have hd' : c.isDigit = false := Bool.eq_false_iff.mpr hd
        rw [decGoF]
        simp only [hd', Bool.false_eq_true, if_false]
        rw [hasDCC, dccAt_nondigit hd', ih cs hcs htcs]
        rfl

/-! ## The plus-minus substitution: unfold lemmas and preservation -/

/-- `pmGo` on a leading glyph. -/
theorem pmGo_pm (cs : List Char) : pmGo ('±' :: cs) = '±' :: pmGo cs := rfl

/-- `pmGo` on a leading plus-slash-hyphen. -/
theorem pmGo_psd (cs : List Char) : pmGo ('+' :: '/' :: '-' :: cs) = '±' :: pmGo cs := rfl

/-- `pmGo` on a leading plus-hyphen. -/
theorem pmGo_pd (cs : List Char) : pmGo ('+' :: '-' :: cs) = '±' :: pmGo cs := rfl

/-- `pmGo` on a trailing lone plus. -/
theorem pmGo_plus_nil : pmGo ['+'] = ['+'] := rfl

/-- `pmGo` on a trailing plus-slash. -/
theorem pmGo_plus_slash_nil : pmGo ['+', '/'] = ['+', '/'] := rfl

/-- `pmGo` steps over a character that starts no variant. -/
theorem pmGo_lit {c : Char} (h1 : c ≠ '±') (h2 : c ≠ '+') (cs : List Char) :
    pmGo (c :: cs) = c :: pmGo cs := by
  rw [pmGo.eq_def]
  simp [h1, h2]

/-- `pmGo` steps over a plus not followed by a variant tail. -/
theorem pmGo_plus {d : Char} (h1 : d ≠ '/') (h2 : d ≠ '-') (cs : List Char) :
    pmGo ('+' :: d :: cs) = '+' :: pmGo (d :: cs) := by
  rw [pmGo.eq_def]
  simp [h1, h2]

/-- `pmGo` steps over a plus-slash not followed by a hyphen. -/
theorem pmGo_plus_slash {e : Char} (he : e ≠ '-') (cs : List Char) :
    pmGo ('+' :: '/' :: e :: cs) = '+' :: pmGo ('/' :: e :: cs) := by
  rw [pmGo.eq_def]
  simp [he]

/-- The head of `pmGo`'s output is the input head, or the glyph replacing a
leading plus. -/
theorem pm_headD (l : List Char) :
    (pmGo l).headD 'x' = l.headD 'x' ∨
    ((pmGo l).headD 'x' = '±' ∧ l.headD 'x' = '+') := by
  cases l with
  | nil => exact Or.inl rfl
  | cons c cs =>
    by_cases hpm : c = '±'
    · subst hpm
      rw [pmGo_pm]
      exact Or.inl rfl
    by_cases hplus : c = '+'
    · subst hplus
      cases cs with
      | nil => exact Or.inl rfl
      | cons d cs2 =>
        by_cases hd : d = '-'
        · subst hd
          rw [pmGo_pd]
          exact Or.inr ⟨rfl, rfl⟩
        by_cases hsl : d = '/'
        · subst hsl
          cases cs2 with
          | nil => exact Or.inl rfl
          | cons e cs3 =>
            by_cases he : e = '-'
            · subst he
              rw [pmGo_psd]
              exact Or.inr ⟨rfl, rfl⟩
            · rw [pmGo_plus_slash he]
              exact Or.inl rfl
        · rw [pmGo_plus hsl hd]
          exact Or.inl rfl
    · rw [pmGo_lit hpm hplus]
      exact Or.inl rfl

/-- `pmGo` preserves digit-ness of the head. -/
theorem pm_headD_digit (l : List Char) :
    ((pmGo l).headD 'x').isDigit = ((l.headD 'x')).isDigit := by
  rcases pm_headD l with h | ⟨h1, h2⟩
  · rw [h]
  · rw [h1, h2]
    decide

/-- A comma head in `pmGo`'s output comes from a comma head. -/
theorem pm_headD_comma {l : List Char} (h : (pmGo l).headD 'x' = ',') :
    l.headD 'x' = ',' := by
  rcases pm_headD l with h1 | ⟨h1, h2⟩
  · rw [← h1, h]
  · rw [h1] at h
    exact absurd h (by decide)

/-- `dccCont` fails on a non-digit, non-comma head. -/
theorem dccCont_false_of_head {z : List Char} (h1 : (z.headD 'x').isDigit = false)
    (h2 : z.headD 'x' ≠ ',') : dccCont z = false := by
  cases z with
  | nil => rfl
  | cons b r =>
    simp only [List.headD_cons] at h1 h2
    simp [dccCont, h1, h2]

/-- `startDCC` fails on a non-digit head. -/
theorem startDCC_false_of_head {z : List Char} (h1 : (z.headD 'x').isDigit = false) :
    startDCC z = false := by
  cases z with
  | nil => rfl
  | cons b r =>
    simp only [List.headD_cons] at h1
    simp [startDCC, h1]

/-- A cons input gives a cons output. -/
theorem pm_ne_nil {c : Char} (cs : List Char) : pmGo (c :: cs) ≠ [] := by
  by_cases hpm : c = '±'
  · subst hpm; rw [pmGo_pm]; simp
  by_cases hplus : c = '+'
  · subst hplus
    cases cs with
    | nil => simp [pmGo_plus_nil]
    | cons d cs2 =>
      by_cases hd : d = '-'
      · subst hd; rw [pmGo_pd]; simp
      by_cases hsl : d = '/'
      · subst hsl
        cases cs2 with
        | nil => simp [pmGo_plus_slash_nil]
        | cons e cs3 =>
          by_cases he : e = '-'
          · subst he; rw [pmGo_psd]; simp
          · rw [pmGo_plus_slash he]; simp
      · rw [pmGo_plus hsl hd]; simp
  · rw [pmGo_lit hpm hplus]; simp

/-- The plus-minus substitution cannot create a `\d* , \d` continuation. -/
theorem dccCont_pm : ∀ (l : List Char), dccCont (pmGo l) = true → dccCont l = true := by
  have main : ∀ (n : Nat) (l : List Char), l.length ≤ n →
      dccCont (pmGo l) = true → dccCont l = true := by
    intro n
    induction n with
    | zero =>
      intro l hl h
      cases l with
      | nil => exact h
      | cons c cs => simp at hl
    | succ n ih =>
      intro l hl h
      cases l with
      | nil => exact h
      | cons c cs =>
        have hlen : cs.length ≤ n := by
          simp only [List.length_cons] at hl
          omega
        by_cases hpm : c = '±'
        · subst hpm
          have hfh : dccCont ('±' :: pmGo cs) = false :=
            dccCont_false_of_head (by rw [List.headD_cons]; decide)
              (by rw [List.headD_cons]; decide)
          rw [pmGo_pm, hfh] at h
          exact Bool.noConfusion h
        by_cases hplus : c = '+'
        · subst hplus
          have hfh : dccCont (pmGo ('+' :: cs)) = false :=
            dccCont_false_of_head (by rw [pm_headD_digit, List.headD_cons]; decide)
              (fun hcomma => by
                have h2 := pm_headD_comma hcomma
                rw [List.headD_cons] at h2
                exact absurd h2 (by decide))
          rw [hfh] at h
          exact Bool.noConfusion h
        · rw [pmGo_lit hpm hplus] at h
          rw [dccCont] at h ⊢
          by_cases hcd : c.isDigit
          · rw [if_pos hcd] at h ⊢
            exact ih cs hlen h
          · rw [if_neg hcd] at h ⊢
            rw [Bool.and_eq_true] at h ⊢
            exact ⟨h.1, by rw [← pm_headD_digit]; exact h.2⟩
  exact fun l => main l.length l le_rfl

/-- The plus-minus substitution cannot create a leading `\d+ , \d`. -/
theorem startDCC_pm {l : List Char} (h : startDCC (pmGo l) = true) :
    startDCC l = true := by
  cases l with
  | nil => exact h
  | cons c cs =>
    by_cases hpm : c = '±'
    · subst hpm
      rw [pmGo_pm, startDCC] at h
      simp at h
    by_cases hplus : c = '+'
    · subst hplus
      have hfh : startDCC (pmGo ('+' :: cs)) = false :=
        startDCC_false_of_head (by rw [pm_headD_digit, List.headD_cons]; decide)
      rw [hfh] at h
      exact Bool.noConfusion h
    · rw [pmGo_lit hpm hplus, startDCC] at h
      rw [startDCC]
      rw [Bool.and_eq_true] at h ⊢
      exact ⟨h.1, dccCont_pm cs h.2⟩

/-- The plus-minus substitution preserves comma-chain freedom. -/
theorem hasTriple_pm : ∀ (l : List Char), hasTriple l = false →
    hasTriple (pmGo l) = false := by
  have main : ∀ (n : Nat) (l : List Char), l.length ≤ n →
      hasTriple l = false → hasTriple (pmGo l) = false := by
    intro n
    induction n with
    | zero =>
      intro l hl h
      cases l with
      | nil => exact h
      | cons c cs => simp at hl
    | succ n ih =>
      intro l hl h
      cases l with
      | nil => exact h
      | cons c cs =>
        have hlen : cs.length ≤ n := by
          simp only [List.length_cons] at hl
          omega
        by_cases hpm : c = '±'
        · subst hpm
          rw [pmGo_pm, hasTriple, tripleAt_nondigit (by decide),
            ih cs hlen (hasTriple_tail h)]
          rfl
        by_cases hplus : c = '+'
        · subst hplus
          cases cs with
          | nil => decide
          | cons d cs2 =>
            by_cases hd : d = '-'
            · subst hd
              rw [pmGo_pd, hasTriple, tripleAt_nondigit (by decide),
                ih cs2 (by simp only [List.length_cons] at hl; omega)
                  (hasTriple_tail (hasTriple_tail h))]
              rfl
            by_cases hsl : d = '/'
            · subst hsl
              cases cs2 with
              | nil => decide
              | cons e cs3 =>
                by_cases he : e = '-'
                · subst he
                  rw [pmGo_psd, hasTriple, tripleAt_nondigit (by decide),
                    ih cs3 (by simp only [List.length_cons] at hl; omega)
                      (hasTriple_tail (hasTriple_tail (hasTriple_tail h)))]
                  rfl
                · rw [pmGo_plus_slash he, hasTriple, tripleAt_nondigit (by decide),
                    ih ('/' :: e :: cs3) (by simp only [List.length_cons] at hl ⊢; omega)
                      (hasTriple_tail h)]
                  rfl
            · rw [pmGo_plus hsl hd, hasTriple, tripleAt_nondigit (by decide),
                ih (d :: cs2) (by simp only [List.length_cons] at hl ⊢; omega)
                  (hasTriple_tail h)]
              rfl
        · rw [pmGo_lit hpm hplus, hasTriple]
          have h2 := ih cs hlen (hasTriple_tail h)
          have h1 : tripleAt (c :: pmGo cs) = false := by
            by_cases hcd : c.isDigit
            · cases cs with
              | nil => rfl
              | cons b2 cs2 =>
                by_cases hb : b2 = ','
                · subst hb
                  rw [pmGo_lit (by decide) (by decide)]
                  by_cases hs : startDCC (pmGo cs2) = true
                  · exfalso
                    rw [hasTriple] at h
                    have hstep : tripleAt (c :: ',' :: cs2) = true := by
                      simp [tripleAt, hcd, startDCC_pm hs]
                    rw [hstep] at h
                    simp at h
                  · have hs' : startDCC (pmGo cs2) = false := Bool.eq_false_iff.mpr hs
                    simp [tripleAt, hs']
                · cases hpc : pmGo (b2 :: cs2) with
                  | nil => rfl
                  | cons b rest =>
                    have hbne : b ≠ ',' := by
                      intro hbc
                      have h3 := pm_headD_comma (l := b2 :: cs2) (by rw [hpc, hbc]; rfl)
                      simp only [List.headD_cons] at h3
                      exact hb h3
                    simp [tripleAt, hbne]
            · exact tripleAt_nondigit (Bool.eq_false_iff.mpr hcd) _
          rw [h1, h2]
          rfl
  exact fun l => main l.length l le_rfl

/-- The plus-minus substitution preserves decimal-comma freedom. -/
theorem hasDCC_pm : ∀ (l : List Char), hasDCC l = false →
    hasDCC (pmGo l) = false := by
  have main : ∀ (n : Nat) (l : List Char), l.length ≤ n →
      hasDCC l = false → hasDCC (pmGo l) = false := by
    intro n
    induction n with
    | zero =>
      intro l hl h
      cases l with
      | nil => exact h
      | cons c cs => simp at hl
    | succ n ih =>
      intro l hl h
      cases l with
      | nil => exact h
      | cons c cs =>
        have hlen : cs.length ≤ n := by
          simp only [List.length_cons] at hl
          omega
        by_cases hpm : c = '±'
        · subst hpm
          rw [pmGo_pm, hasDCC, dccAt_nondigit (by decide),
            ih cs hlen (hasDCC_tail h)]
          rfl
        by_cases hplus : c = '+'
        · subst hplus
          cases cs with
          | nil => decide
          | cons d cs2 =>
            by_cases hd : d = '-'
            · subst hd
              rw [pmGo_pd, hasDCC, dccAt_nondigit (by decide),
                ih cs2 (by simp only [List.length_cons] at hl; omega)
                  (hasDCC_tail (hasDCC_tail h))]
              rfl
            by_cases hsl : d = '/'
            · subst hsl
              cases cs2 with
              | nil => decide
              | cons e cs3 =>
                by_cases he : e = '-'
                · subst he
                  rw [pmGo_psd, hasDCC, dccAt_nondigit (by decide),
                    ih cs3 (by simp only [List.length_cons] at hl; omega)
                      (hasDCC_tail (hasDCC_tail (hasDCC_tail h)))]
                  rfl
                · rw [pmGo_plus_slash he, hasDCC, dccAt_nondigit (by decide),
                    ih ('/' :: e :: cs3) (by simp only [List.length_cons] at hl ⊢; omega)
                      (hasDCC_tail h)]
                  rfl
            · rw [pmGo_plus hsl hd, hasDCC, dccAt_nondigit (by decide),
                ih (d :: cs2) (by simp only [List.length_cons] at hl ⊢; omega)
                  (hasDCC_tail h)]
              rfl
        · rw [pmGo_lit hpm hplus, hasDCC]
          have h2 := ih cs hlen (hasDCC_tail h)
          have h1 : dccAt (c :: pmGo cs) = false := by
            by_cases hcd : c.isDigit
            · cases cs with
              | nil => rfl
              | cons b2 cs2 =>
                by_cases hb : b2 = ','
                · subst hb
                  rw [pmGo_lit (by decide) (by decide)]
                  cases cs2 with
                  | nil => rfl
                  | cons e2 cs3 =>
                    by_cases hdig : e2.isDigit = true
                    · exfalso
                      rw [hasDCC] at h
                      have hstep : dccAt (c :: ',' :: e2 :: cs3) = true := by
                        simp [dccAt, hcd, hdig]
                      rw [hstep] at h
                      simp at h
                    · cases hpc2 : pmGo (e2 :: cs3) with
                      | nil => rfl
                      | cons e rest =>
                        have hed : e.isDigit = false := by
                          have h3 := pm_headD_digit (e2 :: cs3)
                          rw [hpc2] at h3
                          simp only [List.headD_cons] at h3
                          rw [h3]
                          exact Bool.eq_false_iff.mpr hdig
                        simp [dccAt, hed]
                · cases hpc : pmGo (b2 :: cs2) with
                  | nil => rfl
                  | cons b rest =>
                    have hbne : b ≠ ',' := by
                      intro hbc
                      have h3 := pm_headD_comma (l := b2 :: cs2) (by rw [hpc, hbc]; rfl)
                      simp only [List.headD_cons] at h3
                      exact hb h3
                    cases rest with
                    | nil => rfl
                    | cons e r2 => simp [dccAt, hbne]
            · exact dccAt_nondigit (Bool.eq_false_iff.mpr hcd) _
          rw [h1, h2]
          rfl
  exact fun l => main l.length l le_rfl

/-- `pmAt` needs a plus first. -/
theorem pmAt_nonplus {a : Char} (ha : a ≠ '+') (z : List Char) :
    pmAt (a :: z) = false := by
  cases z with
  | nil => rfl
  | cons b r => simp [pmAt, ha]

/-- The plus-minus substitution's output has no non-canonical plus-minus
spelling left. -/
theorem hasPM_pmGo : ∀ (l : List Char), hasPM (pmGo l) = false := by
  have main : ∀ (n : Nat) (l : List Char), l.length ≤ n → hasPM (pmGo l) = false := by
    intro n
    induction n with
    | zero =>
      intro l hl
      cases l with
      | nil => rfl
      | cons c cs => simp at hl
    | succ n ih =>
      intro l hl
      cases l with
      | nil => rfl
      | cons c cs =>
        have hlen : cs.length ≤ n := by
          simp only [List.length_cons] at hl
          omega
        by_cases hpm : c = '±'
        · subst hpm
          rw [pmGo_pm, hasPM, pmAt_nonplus (by decide), ih cs hlen]
          rfl
        by_cases hplus : c = '+'
        · subst hplus
          cases cs with
          | nil => decide
          | cons d cs2 =>
            by_cases hd : d = '-'
            · subst hd
              rw [pmGo_pd, hasPM, pmAt_nonplus (by decide),
                ih cs2 (by simp only [List.length_cons] at hl; omega)]
              rfl
            by_cases hsl : d = '/'
            · subst hsl
              cases cs2 with
              | nil => decide
              | cons e cs3 =>
                by_cases he : e = '-'
                · subst he
                  rw [pmGo_psd, hasPM, pmAt_nonplus (by decide),
                    ih cs3 (by simp only [List.length_cons] at hl; omega)]
                  rfl
                · rw [pmGo_plus_slash he, hasPM]
                  have hslash : pmGo ('/' :: e :: cs3) = '/' :: pmGo (e :: cs3) :=
                    pmGo_lit (by decide) (by decide) _
                  have h1 : pmAt ('+' :: pmGo ('/' :: e :: cs3)) = false := by
                    rw [hslash]
                    have hne : (pmGo (e :: cs3)).headD 'x' ≠ '-' := by
                      rcases pm_headD (e :: cs3) with hh | ⟨hh, _⟩
                      · rw [hh]
                        simpa using he
                      · rw [hh]
                        decide
                    simp [pmAt]
                    simpa using hne
                  rw [h1, ih ('/' :: e :: cs3)
                    (by simp only [List.length_cons] at hl ⊢; omega)]
                  rfl
            · rw [pmGo_plus hsl hd, hasPM]
              have h1 : pmAt ('+' :: pmGo (d :: cs2)) = false := by
                cases hpc : pmGo (d :: cs2) with
                | nil => rfl
                | cons b rest =>
                  have hb1 : b ≠ '-' := by
                    intro hbc
                    rcases pm_headD (d :: cs2) with hh | ⟨hh, _⟩ <;>
                      rw [hpc] at hh <;> simp only [List.headD_cons] at hh
                    · rw [hbc] at hh
                      exact hd hh.symm
                    · rw [hbc] at hh
                      exact absurd hh (by decide)
                  have hb2 : b ≠ '/' := by
                    intro hbc
                    rcases pm_headD (d :: cs2) with hh | ⟨hh, _⟩ <;>
                      rw [hpc] at hh <;> simp only [List.headD_cons] at hh
                    · rw [hbc] at hh
                      exact hsl hh.symm
                    · rw [hbc] at hh
                      exact absurd hh (by decide)
                  simp [pmAt, hb1, hb2]
              rw [h1, ih (d :: cs2) (by simp only [List.length_cons] at hl ⊢; omega)]
              rfl
        · rw [pmGo_lit hpm hplus, hasPM, pmAt_nonplus hplus, ih cs hlen]
          rfl
  exact fun l => main l.length l le_rfl

/-! ## Pattern occurrences survive extension and restriction -/

/-- `dccCont` survives appending. -/
theorem dccCont_append_mono {rest s : List Char} (h : dccCont rest = true) :
    dccCont (rest ++ s) = true := by
  induction rest with
  | nil => exact absurd h (by decide)
  | cons b r2 ih =>
    rw [dccCont] at h
    rw [List.cons_append, dccCont]
    by_cases hb : b.isDigit
    · rw [if_pos hb] at h ⊢
      exact ih h
    · rw [if_neg hb] at h ⊢
      rw [Bool.and_eq_true] at h ⊢
      refine ⟨h.1, ?_⟩
      cases r2 with
      | nil => exact absurd h.2 (by decide)
      | cons e r3 => exact h.2

/-- `startDCC` survives appending. -/
theorem startDCC_append_mono {z s : List Char} (h : startDCC z = true) :
    startDCC (z ++ s) = true := by
  cases z with
  | nil => exact absurd h (by decide)
  | cons a rest =>
    rw [startDCC] at h
    rw [List.cons_append, startDCC]
    rw [Bool.and_eq_true] at h ⊢
    exact ⟨h.1, dccCont_append_mono h.2⟩

/-- A comma chain survives appending. -/
theorem hasTriple_append_left {z : List Char} (s : List Char)
    (h : hasTriple z = true) : hasTriple (z ++ s) = true := by
  induction z with
  | nil => exact absurd h (by decide)
  | cons c rest ih =>
    rw [hasTriple, Bool.or_eq_true] at h
    rw [List.cons_append, hasTriple, Bool.or_eq_true]
    rcases h with h | h
    · left
      cases rest with
      | nil =>
        rw [show tripleAt [c] = false from rfl] at h
        exact Bool.noConfusion h
      | cons b r2 =>
        rw [tripleAt] at h
        rw [List.cons_append, tripleAt]
        rw [Bool.and_eq_true, Bool.and_eq_true] at h ⊢
        exact ⟨h.1, startDCC_append_mono h.2⟩
    · right
      exact ih h

/-- A decimal comma survives appending. -/
theorem hasDCC_append_left {z : List Char} (s : List Char)
    (h : hasDCC z = true) : hasDCC (z ++ s) = true := by
  induction z with
  | nil => exact absurd h (by decide)
  | cons c rest ih =>
    rw [hasDCC, Bool.or_eq_true] at h
    rw [List.cons_append, hasDCC, Bool.or_eq_true]
    rcases h with h | h
    · left
      cases rest with
      | nil =>
        rw [show dccAt [c] = false from rfl] at h
        exact Bool.noConfusion h
      | cons b r2 =>
        cases r2 with
        | nil =>
          rw [show dccAt [c, b] = false from rfl] at h
          exact Bool.noConfusion h
        | cons e r3 => exact h
    · right
      exact ih h

/-- A non-canonical plus-minus spelling survives appending. -/
theorem hasPM_append_left {z : List Char} (s : List Char)
    (h : hasPM z = true) : hasPM (z ++ s) = true := by
  induction z with
  | nil => exact absurd h (by decide)
  | cons c rest ih =>
    rw [hasPM, Bool.or_eq_true] at h
    rw [List.cons_append, hasPM, Bool.or_eq_true]
    rcases h with h | h
    · left
      cases rest with
      | nil =>
        rw [show pmAt [c] = false from rfl] at h
        exact Bool.noConfusion h
      | cons b r2 =>
        rw [pmAt] at h
        rw [List.cons_append, pmAt]
        rw [Bool.or_eq_true] at h ⊢
        rcases h with h | h
        · exact Or.inl h
        · right
          rw [Bool.and_eq_true, Bool.and_eq_true] at h ⊢
          refine ⟨h.1, ?_⟩
          cases r2 with
          | nil => exact absurd h.2 (by decide)
          | cons e r3 => exact h.2
    · right
      exact ih h

/-- `dropWhile` preserves decimal-comma freedom. -/
theorem hasDCC_dropWhile (p : Char → Bool) {l : List Char}
    (h : hasDCC l = false) : hasDCC (l.dropWhile p) = false := by
  induction l with
  | nil => exact h
  | cons c cs ih =>
    by_cases hp : p c
    · rw [List.dropWhile_cons_of_pos hp]
      exact ih (hasDCC_tail h)
    · rw [List.dropWhile_cons_of_neg hp]
      exact h

/-- `dropWhile` preserves plus-minus canonicality. -/
theorem hasPM_dropWhile (p : Char → Bool) {l : List Char}
    (h : hasPM l = false) : hasPM (l.dropWhile p) = false := by
  induction l with
  | nil => exact h
  | cons c cs ih =>
    by_cases hp : p c
    · rw [List.dropWhile_cons_of_pos hp]
      exact ih (hasPM_tail h)
    · rw [List.dropWhile_cons_of_neg hp]
      exact h

/-- A list is its end-trimmed part plus the trimmed suffix. -/
theorem strip_decomp (p : Char → Bool) (m : List Char) :
    dropEndWhile p m ++ (m.reverse.takeWhile p).reverse = m := by
  unfold dropEndWhile
  rw [← List.reverse_append, List.takeWhile_append_dropWhile, List.reverse_reverse]

/-- `stripL` preserves comma-chain freedom. -/
theorem hasTriple_stripL {l : List Char} (h : hasTriple l = false) :
    hasTriple (stripL l) = false := by
  unfold stripL
  have h1 : hasTriple (l.dropWhile isWsB) = false := hasTriple_dropWhile _ h
  by_contra hcon
  have hcon' : hasTriple (dropEndWhile isWsB (l.dropWhile isWsB)) = true := by
    revert hcon
    cases hasTriple (dropEndWhile isWsB (l.dropWhile isWsB)) <;> simp
  have h2 := hasTriple_append_left
    (((l.dropWhile isWsB).reverse.takeWhile isWsB).reverse) hcon'
  rw [strip_decomp] at h2
  rw [h2] at h1
  exact Bool.noConfusion h1

/-- `stripL` preserves decimal-comma freedom. -/
theorem hasDCC_stripL {l : List Char} (h : hasDCC l = false) :
    hasDCC (stripL l) = false := by
  unfold stripL
  have h1 : hasDCC (l.dropWhile isWsB) = false := hasDCC_dropWhile _ h
  by_contra hcon
  have hcon' : hasDCC (dropEndWhile isWsB (l.dropWhile isWsB)) = true := by
    revert hcon
    cases hasDCC (dropEndWhile isWsB (l.dropWhile isWsB)) <;> simp
  have h2 := hasDCC_append_left
    (((l.dropWhile isWsB).reverse.takeWhile isWsB).reverse) hcon'
  rw [strip_decomp] at h2
  rw [h2] at h1
  exact Bool.noConfusion h1

/-- `stripL` preserves plus-minus canonicality. -/
theorem hasPM_stripL {l : List Char} (h : hasPM l = false) :
    hasPM (stripL l) = false := by
  unfold stripL
  have h1 : hasPM (l.dropWhile isWsB) = false := hasPM_dropWhile _ h
  by_contra hcon
  have hcon' : hasPM (dropEndWhile isWsB (l.dropWhile isWsB)) = true := by
    revert hcon
    cases hasPM (dropEndWhile isWsB (l.dropWhile isWsB)) <;> simp
  have h2 := hasPM_append_left
    (((l.dropWhile isWsB).reverse.takeWhile isWsB).reverse) hcon'
  rw [strip_decomp] at h2
  rw [h2] at h1
  exact Bool.noConfusion h1

/-- One `_norm_pm` pass leaves no non-canonical plus-minus spelling. -/
theorem noPM_normPm (s : String) : hasPM (normPm s).data = false := by
  unfold normPm
  by_cases he : s = ""
  · rw [if_pos he]
    subst he
    rfl
  · rw [if_neg he]
    show hasPM (stripL (pmGo (decGo s.data))) = false
    exact hasPM_stripL (hasPM_pmGo _)

/-- One `_norm_pm` pass leaves no `\d , \d+ , \d` chain. -/
theorem noTriple_normPm (s : String) : hasTriple (normPm s).data = false := by
  unfold normPm
  by_cases he : s = ""
  · rw [if_pos he]
    subst he
    rfl
  · rw [if_neg he]
    show hasTriple (stripL (pmGo (decGo s.data))) = false
    apply hasTriple_stripL
    apply hasTriple_pm
    unfold decGo
    exact hasTriple_dec _ _ le_rfl

/-- On a chain-free input, one `_norm_pm` pass removes every decimal
comma. -/
theorem noDCC_normPm_of_noTriple {s : String} (h : hasTriple s.data = false) :
    hasDCC (normPm s).data = false := by
  unfold normPm
  by_cases he : s = ""
  · rw [if_pos he]
    subst he
    rfl
  · rw [if_neg he]
    show hasDCC (stripL (pmGo (decGo s.data))) = false
    apply hasDCC_stripL
    apply hasDCC_pm
    unfold decGo
    exact hasDCC_dec _ _ le_rfl h

/-- Two `_norm_pm` passes leave no decimal comma at all. -/
theorem noDCC_normPm2 (s : String) : hasDCC (normPm (normPm s)).data = false :=
  noDCC_normPm_of_noTriple (noTriple_normPm s)

/-! ## Shape of the tolerance tables through the engine -/

/-- Values in `dictSet d k v` are `v` or come from `d`. -/
theorem dictSet_values {d : Dict} {k : String} {v : JVal} :
    ∀ kv ∈ dictSet d k v, kv.2 = v ∨ kv ∈ d := by
  induction d with
  | nil =>
    intro kv hkv
    rw [dictSet] at hkv
    rcases List.mem_singleton.mp hkv with h
    left
    rw [h]
  | cons p rest ih =>
    rcases p with ⟨k', v'⟩
    intro kv hkv
    rw [dictSet] at hkv
    by_cases hk : k' = k
    · rw [if_pos hk] at hkv
      rcases List.mem_cons.mp hkv with h | h
      · left
        rw [h]
      · right
        exact List.mem_cons_of_mem _ h
    · rw [if_neg hk] at hkv
      rcases List.mem_cons.mp hkv with h | h
      · right
        rw [h]
        exact List.mem_cons_self _ _
      · rcases ih kv h with h2 | h2
        · left
          exact h2
        · right
          exact List.mem_cons_of_mem _ h2

/-- Fold invariant for the band-rebuilding folds. -/
theorem foldl_pred (P Q : String × JVal → Prop) (f : Dict → String × JVal → Dict)
    (hf : ∀ acc kv, Q kv → (∀ kv2 ∈ acc, P kv2) → ∀ kv2 ∈ f acc kv, P kv2) :
    ∀ (bs acc : Dict), (∀ kv ∈ bs, Q kv) → (∀ kv ∈ acc, P kv) →
      ∀ kv ∈ bs.foldl f acc, P kv := by
  intro bs
  induction bs with
  | nil =>
    intro acc hq hacc kv hkv
    exact hacc kv hkv
  | cons kv0 rest ih =>
    intro acc hq hacc kv hkv
    rw [List.foldl_cons] at hkv
    exact ih (f acc kv0) (fun x hx => hq x (List.mem_cons_of_mem _ hx))
      (hf acc kv0 (hq kv0 (List.mem_cons_self _ _)) hacc) kv hkv

/-- Every band value built by the first table pass is a `_norm_pm` image. -/
theorem pass1_bands (bs : Dict) :
    ∀ kv ∈ bs.foldl (fun acc kv =>
        match kv.2 with
        | JVal.s sv => dictSet acc kv.1 (JVal.s (normPm sv))
        | _ => acc) ([] : Dict),
      ∃ s0, kv.2 = JVal.s (normPm s0) := by
  apply foldl_pred (fun kv => ∃ s0, kv.2 = JVal.s (normPm s0)) (fun _ => True) _
    ?_ bs ([] : Dict) (fun _ _ => trivial) (fun kv hkv => absurd hkv (List.not_mem_nil kv))
  intro acc kv _ hacc kv2 hkv2
  rcases kv with ⟨k0, v0⟩
  cases v0 with
  | s sv =>
    rcases dictSet_values kv2 hkv2 with h | h
    · exact ⟨sv, h⟩
    · exact hacc kv2 h
  | null => exact hacc kv2 hkv2
  | b bb => exact hacc kv2 hkv2
  | i n => exact hacc kv2 hkv2
  | arr xs => exact hacc kv2 hkv2
  | obj o => exact hacc kv2 hkv2

/-- Every band value built by the second table pass over first-pass bands is
canonical. -/
theorem pass2_bands (bs : Dict) (hbs : ∀ kv ∈ bs, ∃ s0, kv.2 = JVal.s (normPm s0)) :
    ∀ kv ∈ bs.foldl (fun acc kv =>
        match kv.2 with
        | JVal.null => dictSet acc kv.1 JVal.null
        | v' => dictSet acc kv.1 (JVal.s (normPm (pyStr v')))) ([] : Dict),
      ∃ sv, kv.2 = JVal.s sv ∧ hasPM sv.data = false ∧ hasDCC sv.data = false := by
  apply foldl_pred
    (fun kv => ∃ sv, kv.2 = JVal.s sv ∧ hasPM sv.data = false ∧ hasDCC sv.data = false)
    (fun kv => ∃ s0, kv.2 = JVal.s (normPm s0)) _
    ?_ bs ([] : Dict) hbs (fun kv hkv => absurd hkv (List.not_mem_nil kv))
  intro acc kv hq hacc kv2 hkv2
  rcases kv with ⟨k0, v0⟩
  obtain ⟨s0, hs0⟩ := hq
  simp only at hs0
  subst hs0
  rcases dictSet_values kv2 hkv2 with h | h
  · exact ⟨normPm (normPm s0), h, noPM_normPm _, noDCC_normPm2 _⟩
  · exact hacc kv2 h

/-- Shape of `_normalize_tables` results: falsy, or a unit-and-bands object
whose band values are `_norm_pm` images. -/
theorem normalizeTables_shape {v u : JVal} (h : normalizeTables v = Except.ok u) :
    pyTruthy u = false ∨
    ∃ unit bs, u = JVal.obj [("unit", JVal.s unit), ("bands", JVal.obj bs)] ∧
      ∀ kv ∈ bs, ∃ s0, kv.2 = JVal.s (normPm s0) := by
  cases v with
  | obj o =>
    rw [normalizeTables] at h
    simp only [] at h
    split at h
    · rename_i bs hbs
      split at h
      · injection h with hh
        subst hh
        right
        exact ⟨_, _, rfl, pass1_bands bs⟩
      · injection h with hh
        subst hh
        right
        exact ⟨_, [], rfl, fun kv hkv => absurd hkv (List.not_mem_nil kv)⟩
    · exact Except.noConfusion h
  | null =>
    injection h with hh
    subst hh
    left
    rfl
  | b bb =>
    injection h with hh
    subst hh
    left
    rfl
  | i n =>
    injection h with hh
    subst hh
    left
    rfl
  | s st =>
    injection h with hh
    subst hh
    left
    rfl
  | arr xs =>
    injection h with hh
    subst hh
    left
    rfl

/-- Shape of the first-pass rule's results. -/
theorem tblRule1_shape {v u : JVal} (h : tblRule1 v = Except.ok u) :
    pyTruthy u = false ∨
    ∃ unit bs, u = JVal.obj [("unit", JVal.s unit), ("bands", JVal.obj bs)] ∧
      ∀ kv ∈ bs, ∃ s0, kv.2 = JVal.s (normPm s0) := by
  rw [tblRule1] at h
  by_cases ht : pyTruthy v = true
  · rw [if_pos ht] at h
    exact normalizeTables_shape h
  · rw [if_neg ht] at h
    injection h with hh
    subst hh
    left
    exact Bool.eq_false_iff.mpr ht

/-- Shape of the legacy-adoption rule's results. -/
theorem legacyRule_shape {lg t2 u : JVal}
    (hs : pyTruthy t2 = false ∨
      ∃ unit bs, t2 = JVal.obj [("unit", JVal.s unit), ("bands", JVal.obj bs)] ∧
        ∀ kv ∈ bs, ∃ s0, kv.2 = JVal.s (normPm s0))
    (h : legacyRule lg t2 = Except.ok u) :
    pyTruthy u = false ∨
    ∃ unit bs, u = JVal.obj [("unit", JVal.s unit), ("bands", JVal.obj bs)] ∧
      ∀ kv ∈ bs, ∃ s0, kv.2 = JVal.s (normPm s0) := by
  rw [legacyRule] at h
  by_cases hc : (pyTruthy lg && !pyTruthy t2) = true
  · rw [if_pos hc] at h
    exact normalizeTables_shape h
  · rw [if_neg hc] at h
    injection h with hh
    subst hh
    exact hs

/-- The second table pass turns a first-pass-shaped table into a canonical
one: null, or an object all of whose band values are canonical strings. -/
theorem tblRule2_canonical {u z : JVal}
    (hs : pyTruthy u = false ∨
      ∃ unit bs, u = JVal.obj [("unit", JVal.s unit), ("bands", JVal.obj bs)] ∧
        ∀ kv ∈ bs, ∃ s0, kv.2 = JVal.s (normPm s0))
    (h : tblRule2 u = Except.ok z) :
    z = JVal.null ∨
    ∃ unit bs, z = JVal.obj [("unit", JVal.s unit), ("bands", JVal.obj bs)] ∧
      ∀ kv ∈ bs, ∃ sv, kv.2 = JVal.s sv ∧ hasPM sv.data = false ∧
        hasDCC sv.data = false := by
  rw [tblRule2] at h
  by_cases ht : pyTruthy u = true
  · rw [if_pos ht] at h
    rcases hs with hfalse | ⟨unit, bs1, hu, hbs⟩
    · rw [ht] at hfalse
      exact Bool.noConfusion hfalse
    · subst hu
      rw [normTable] at h
      simp only [] at h
      have hbg : dictGet [("unit", JVal.s unit), ("bands", JVal.obj bs1)] "bands" =
          JVal.obj bs1 := by
        simp [dictGet]
      rw [hbg] at h
      by_cases hbt : pyTruthy (JVal.obj bs1) = true
      · rw [if_pos hbt] at h
        injection h with hh
        subst hh
        right
        exact ⟨_, _, rfl, pass2_bands bs1 hbs⟩
      · rw [if_neg hbt] at h
        injection h with hh
        subst hh
        right
        exact ⟨_, _, rfl, fun kv hkv => absurd hkv (List.not_mem_nil kv)⟩
  · rw [if_neg ht] at h
    injection h with hh
    subst hh
    left
    rfl

/-- C9: every tolerance-table band value present in a normalized record is
canonical: no plus-hyphen or plus-slash-hyphen spelling survives (only the
single glyph) and no decimal comma survives; and in particular an input
band value of plus-minus one-comma-five normalizes to the glyph with
`1.5`, and `+` `/` `-` zero-comma-two to the glyph with `0.2`. -/
theorem C9_band_values_canonical (d : Dict) (t : String) (r : Dict)
    (hok : normalizeData d t = Except.ok r) (K : String)
    (hK : K = "Tolerances_General_Linear" ∨ K = "Tolerances_Machining" ∨
      K = "Tolerances_Welded_Sheetmetal")
    (o bs : Dict) (k v : String)
    (ho : dictGet r K = JVal.obj o)
    (hb : dictGet o "bands" = JVal.obj bs)
    (hv : (k, JVal.s v) ∈ bs) :
    (hasPM v.data = false ∧ hasDCC v.data = false) ∧
    normalizeData [("Tolerances_General_Linear",
        JVal.obj [("bands", JVal.obj [("0-20", JVal.s "±1,5"),
          ("20-200", JVal.s "+/-0,2")])])] "" =
      Except.ok [("Material_Grade", JVal.null), ("Surface_Roughness", JVal.null),
        ("Geometrical_Tolerancing", JVal.null), ("Dimensional_Tolerancing", JVal.null),
        ("Break_Sharp_Edges", JVal.b false), ("Retaining_Ring_Grooves_Sharp", JVal.b false),
        ("Welding_Notes", JVal.null),
        ("Tolerances_General_Linear", JVal.obj [("unit", JVal.s "mm"),
          ("bands", JVal.obj [("0-20", JVal.s "±1.5"), ("20-200", JVal.s "±0.2")])]),
        ("Tolerances_Machining", JVal.null), ("Tolerances_Welded_Sheetmetal", JVal.null),
        ("Welding_Designation", JVal.null), ("Weld_Finish", JVal.null),
        ("Post_Treatment", JVal.null), ("Notes", JVal.arr []),
        ("Drawing_Number", JVal.null), ("Revision", JVal.null)] := by
  refine ⟨?_, rfl⟩
  unfold normalizeData at hok
  simp only [] at hok
  split at hok
  · exact Except.noConfusion hok
  rename_i ptStep hpt
  split at hok
  · exact Except.noConfusion hok
  rename_i wn2 hwn
  split at hok
  · exact Except.noConfusion hok
  rename_i wdStep hwd
  split at hok
  · exact Except.noConfusion hok
  rename_i tgl2 htgl1
  split at hok
  · exact Except.noConfusion hok
  rename_i tm2 htm1
  split at hok
  · exact Except.noConfusion hok
  rename_i tws2 htws1
  split at hok
  · exact Except.noConfusion hok
  rename_i tgl3 hleg
  split at hok
  · exact Except.noConfusion hok
  rename_i tgl4 htgl2
  split at hok
  · exact Except.noConfusion hok
  rename_i tm3 htm2
  split at hok
  · exact Except.noConfusion hok
  rename_i tws3 htws2
  injection hok with hh
  subst hh
  have finish : ∀ (z : JVal), (z = JVal.null ∨
      ∃ unit bs2, z = JVal.obj [("unit", JVal.s unit), ("bands", JVal.obj bs2)] ∧
        ∀ kv ∈ bs2, ∃ sv, kv.2 = JVal.s sv ∧ hasPM sv.data = false ∧
          hasDCC sv.data = false) →
      z = JVal.obj o → hasPM v.data = false ∧ hasDCC v.data = false := by
    intro z hcanon hz
    rcases hcanon with hnull | ⟨unit, bs2, hobj, hall⟩
    · rw [hnull] at hz
      exact absurd hz.symm (fun hcc => JVal.noConfusion hcc)
    · rw [hobj] at hz
      injection hz with ho2
      subst ho2
      have hbg : dictGet [("unit", JVal.s unit), ("bands", JVal.obj bs2)] "bands" =
          JVal.obj bs2 := by
        simp [dictGet]
      rw [hbg] at hb
      injection hb with hb2
      subst hb2
      obtain ⟨sv, hsv, hpm, hdcc⟩ := hall (k, JVal.s v) hv
      simp only at hsv
      injection hsv with hsv2
      subst hsv2
      exact ⟨hpm, hdcc⟩
  rcases hK with hK | hK | hK <;> subst hK <;> simp only [dictGet] at ho
  · exact finish tgl4 (tblRule2_canonical (legacyRule_shape (tblRule1_shape htgl1) hleg)
      htgl2) ho
  · exact finish tm3 (tblRule2_canonical (tblRule1_shape htm1) htm2) ho
  · exact finish tws3 (tblRule2_canonical (tblRule1_shape htws1) htws2) ho

/-- C9 witness: the two-band legacy-free table through the full engine; the
first band's output value is canonical. -/
theorem C9_band_values_canonical_witness :
    dictGet [("Material_Grade", JVal.null), ("Surface_Roughness", JVal.null),
        ("Geometrical_Tolerancing", JVal.null), ("Dimensional_Tolerancing", JVal.null),
        ("Break_Sharp_Edges", JVal.b false), ("Retaining_Ring_Grooves_Sharp", JVal.b false),
        ("Welding_Notes", JVal.null),
        ("Tolerances_General_Linear", JVal.obj [("unit", JVal.s "mm"),
          ("bands", JVal.obj [("0-20", JVal.s "±1.5"), ("20-200", JVal.s "±0.2")])]),
        ("Tolerances_Machining", JVal.null), ("Tolerances_Welded_Sheetmetal", JVal.null),
        ("Welding_Designation", JVal.null), ("Weld_Finish", JVal.null),
        ("Post_Treatment", JVal.null), ("Notes", JVal.arr []),
        ("Drawing_Number", JVal.null), ("Revision", JVal.null)]
      "Tolerances_General_Linear" =
      JVal.obj [("unit", JVal.s "mm"),
        ("bands", JVal.obj [("0-20", JVal.s "±1.5"), ("20-200", JVal.s "±0.2")])] ∧
    ((hasPM ("±1.5" : String).data = false ∧ hasDCC ("±1.5" : String).data = false) ∧
      normalizeData [("Tolerances_General_Linear",
          JVal.obj [("bands", JVal.obj [("0-20", JVal.s "±1,5"),
            ("20-200", JVal.s "+/-0,2")])])] "" =
        Except.ok [("Material_Grade", JVal.null), ("Surface_Roughness", JVal.null),
          ("Geometrical_Tolerancing", JVal.null), ("Dimensional_Tolerancing", JVal.null),
          ("Break_Sharp_Edges", JVal.b false),
          ("Retaining_Ring_Grooves_Sharp", JVal.b false),
          ("Welding_Notes", JVal.null),
          ("Tolerances_General_Linear", JVal.obj [("unit", JVal.s "mm"),
            ("bands", JVal.obj [("0-20", JVal.s "±1.5"), ("20-200", JVal.s "±0.2")])]),
          ("Tolerances_Machining", JVal.null), ("Tolerances_Welded_Sheetmetal", JVal.null),
          ("Welding_Designation", JVal.null), ("Weld_Finish", JVal.null),
          ("Post_Treatment", JVal.null), ("Notes", JVal.arr []),
          ("Drawing_Number", JVal.null), ("Revision", JVal.null)]) :=
  ⟨rfl,
    C9_band_values_canonical
      [("Tolerances_General_Linear",
        JVal.obj [("bands", JVal.obj [("0-20", JVal.s "±1,5"),
          ("20-200", JVal.s "+/-0,2")])])] ""
      [("Material_Grade", JVal.null), ("Surface_Roughness", JVal.null),
        ("Geometrical_Tolerancing", JVal.null), ("Dimensional_Tolerancing", JVal.null),
        ("Break_Sharp_Edges", JVal.b false), ("Retaining_Ring_Grooves_Sharp", JVal.b false),
        ("Welding_Notes", JVal.null),
        ("Tolerances_General_Linear", JVal.obj [("unit", JVal.s "mm"),
          ("bands", JVal.obj [("0-20", JVal.s "±1.5"), ("20-200", JVal.s "±0.2")])]),
        ("Tolerances_Machining", JVal.null), ("Tolerances_Welded_Sheetmetal", JVal.null),
        ("Welding_Designation", JVal.null), ("Weld_Finish", JVal.null),
        ("Post_Treatment", JVal.null), ("Notes", JVal.arr []),
        ("Drawing_Number", JVal.null), ("Revision", JVal.null)]
      rfl "Tolerances_General_Linear" (Or.inl rfl)
      [("unit", JVal.s "mm"),
        ("bands", JVal.obj [("0-20", JVal.s "±1.5"), ("20-200", JVal.s "±0.2")])]
      [("0-20", JVal.s "±1.5"), ("20-200", JVal.s "±0.2")]
      "0-20" "±1.5" rfl rfl (List.mem_cons_self _ _)⟩

/-! ## C6 — the engine is not idempotent -/

/-- C6 counterexample: four inputs on which re-normalizing the engine's own
output (compared as values) changes the record again.  A surface-roughness
value with a decimal-comma chain converts one comma per pass; a scalar
Notes string is listified without whitespace collapsing, which the next
pass's list cleanup then applies; a material grade keeps a trailing tab
after form-word removal (the punctuation strip removes only space, hyphen,
underscore and comma) that the next pass's string cleanup strips; and a
scalar Welding_Notes string is iterated character-wise, so its space yields
an empty entry that the next pass's list cleanup drops. -/
theorem C6_counterexample :
    ((normalizeData [("Surface_Roughness", JVal.obj [("value", JVal.s "1,2,3")])] "").bind
        (fun r => normalizeData r "") ≠
      normalizeData [("Surface_Roughness", JVal.obj [("value", JVal.s "1,2,3")])] "") ∧
    ((normalizeData [("Notes", JVal.s "a  b")] "").bind
        (fun r => normalizeData r "") ≠
      normalizeData [("Notes", JVal.s "a  b")] "") ∧
    ((normalizeData [("Material_Grade", JVal.s "a\tsheet")] "").bind
        (fun r => normalizeData r "") ≠
      normalizeData [("Material_Grade", JVal.s "a\tsheet")] "") ∧
    ((normalizeData [("Welding_Notes", JVal.s "a b")] "").bind
        (fun r => normalizeData r "") ≠
      normalizeData [("Welding_Notes", JVal.s "a b")] "") :=
  ⟨fun h => absurd (congrArg (fun x => jeqRes x
      (normalizeData [("Surface_Roughness", JVal.obj [("value", JVal.s "1,2,3")])] "")) h)
      (by decide),
   fun h => absurd (congrArg (fun x => jeqRes x
      (normalizeData [("Notes", JVal.s "a  b")] "")) h) (by decide),
   fun h => absurd (congrArg (fun x => jeqRes x
      (normalizeData [("Material_Grade", JVal.s "a\tsheet")] "")) h) (by decide),
   fun h => absurd (congrArg (fun x => jeqRes x
      (normalizeData [("Welding_Notes", JVal.s "a b")] "")) h) (by decide)⟩

/-- The scalar cleanup keeps a nonblank cleanup-fixed string. -/
theorem cleanVal_str_fixed {m : String} (hne : m ≠ "")
    (hfix : (⟨cleanStrL m.data⟩ : String) = m) : cleanVal (JVal.s m) = JVal.s m := by
  rw [cleanVal]
  simp only [hfix]
  rw [if_neg hne]

/-- C6 (amended): the engine is not idempotent in general (see the
counterexample), but every record in the engine's stable forms is a fixed
point: material grade null (with no grade in the source text) or a nonblank
cleanup-fixed string unchanged by form-word removal and punctuation
stripping; surface roughness and tolerancing sub-records null or objects
their fix-ups leave unchanged; booleans already booleans; welding notes
null or a cleanup-fixed list that de-duplication leaves unchanged; tables
null or truthy fixed points of both table passes; welding designation null
or a nonblank cleanup-fixed string without narrative keywords; weld finish
cleanup-fixed; post-treatment null or a nonblank cleanup-fixed string not
matching the grade pattern; notes a cleanup-fixed list; and drawing number
and revision null (with no heuristic match in the text) or nonblank
cleanup-fixed strings. -/
theorem C6_idempotent_on_stable_records (t : String)
    (mg sr geo dim bse rrg wn tgl tm tws wd wf pt notes dn rev : JVal)
    (hmg : (mg = JVal.null ∧ gradeSearch t = none) ∨
      ∃ m, mg = JVal.s m ∧ m ≠ "" ∧ (⟨cleanStrL m.data⟩ : String) = m ∧
        formSub m = m ∧ (⟨stripMGJunkL m.data⟩ : String) = m)
    (hsr : sr = JVal.null ∨ ∃ o, sr = JVal.obj o ∧ normalizeSR o = o)
    (hgeo : geo = JVal.null ∨ ∃ o, geo = JVal.obj o ∧ normalizeGeo o = o)
    (hdim : dim = JVal.null ∨ ∃ o, dim = JVal.obj o ∧ normalizeGeo o = o)
    (hbse : ∃ b, bse = JVal.b b)
    (hrrg : ∃ b, rrg = JVal.b b)
    (hwn : wn = JVal.null ∨ ∃ xs, wn = JVal.arr xs ∧
      cleanVal (JVal.arr xs) = JVal.arr xs ∧
      cleanWeldingNotes (JVal.arr xs) = Except.ok xs)
    (htgl : tgl = JVal.null ∨ (pyTruthy tgl = true ∧
      normalizeTables tgl = Except.ok tgl ∧ normTable tgl = Except.ok tgl))
    (htm : tm = JVal.null ∨ (pyTruthy tm = true ∧
      normalizeTables tm = Except.ok tm ∧ normTable tm = Except.ok tm))
    (htws : tws = JVal.null ∨ (pyTruthy tws = true ∧
      normalizeTables tws = Except.ok tws ∧ normTable tws = Except.ok tws))
    (hwd : wd = JVal.null ∨ ∃ w, wd = JVal.s w ∧ w ≠ "" ∧
      (⟨cleanStrL w.data⟩ : String) = w ∧ weldKeywordSearch w = false)
    (hwf : cleanVal wf = wf)
    (hpt : pt = JVal.null ∨ ∃ p, pt = JVal.s p ∧ p ≠ "" ∧
      (⟨cleanStrL p.data⟩ : String) = p ∧ gradeSearch p = none)
    (hnotes : ∃ xs, notes = JVal.arr xs ∧ cleanVal (JVal.arr xs) = JVal.arr xs)
    (hdn : (dn = JVal.null ∧ dnSearch t = none) ∨ ∃ sd, dn = JVal.s sd ∧ sd ≠ "" ∧
      (⟨cleanStrL sd.data⟩ : String) = sd)
    (hrev : (rev = JVal.null ∧ revSearch t = none) ∨ ∃ sd, rev = JVal.s sd ∧ sd ≠ "" ∧
      (⟨cleanStrL sd.data⟩ : String) = sd) :
    normalizeData [("Material_Grade", mg), ("Surface_Roughness", sr),
      ("Geometrical_Tolerancing", geo), ("Dimensional_Tolerancing", dim),
      ("Break_Sharp_Edges", bse), ("Retaining_Ring_Grooves_Sharp", rrg),
      ("Welding_Notes", wn), ("Tolerances_General_Linear", tgl),
      ("Tolerances_Machining", tm), ("Tolerances_Welded_Sheetmetal", tws),
      ("Welding_Designation", wd), ("Weld_Finish", wf),
      ("Post_Treatment", pt), ("Notes", notes),
      ("Drawing_Number", dn), ("Revision", rev)] t =
    Except.ok [("Material_Grade", mg), ("Surface_Roughness", sr),
      ("Geometrical_Tolerancing", geo), ("Dimensional_Tolerancing", dim),
      ("Break_Sharp_Edges", bse), ("Retaining_Ring_Grooves_Sharp", rrg),
      ("Welding_Notes", wn), ("Tolerances_General_Linear", tgl),
      ("Tolerances_Machining", tm), ("Tolerances_Welded_Sheetmetal", tws),
      ("Welding_Designation", wd), ("Weld_Finish", wf),
      ("Post_Treatment", pt), ("Notes", notes),
      ("Drawing_Number", dn), ("Revision", rev)] := by
  have hmg3 : mgInferRule t (mgCleanRule (cleanVal mg)) = mg := by
    rcases hmg with ⟨hnull, hgs⟩ | ⟨m, hm, hne, hfix, hform, hjunk⟩
    · subst hnull
      rw [show cleanVal JVal.null = JVal.null from rfl,
        show mgCleanRule JVal.null = JVal.null from rfl, mgInferRule]
      simp [pyTruthy, hgs]
    · subst hm
      rw [cleanVal_str_fixed hne hfix]
      have h2 : mgCleanRule (JVal.s m) = JVal.s m := by
        rw [mgCleanRule]
        simp only [hform, hjunk]
        rw [if_neg hne]
      rw [h2, mgInferRule]
      simp [pyTruthy, hne]
  have hpt2 : ptRule mg (cleanVal pt) = Except.ok (mg, pt) := by
    rcases hpt with hnull | ⟨p, hp, hne, hfix, hgs⟩
    · subst hnull
      simp [cleanVal, ptRule, pyTruthy]
    · subst hp
      rw [cleanVal_str_fixed hne hfix]
      simp [ptRule, pyTruthy, hne, hgs]
  have hwn2 : wnRule (cleanVal wn) = Except.ok wn := by
    rcases hwn with hnull | ⟨xs, hx, hcv, hcwn⟩
    · subst hnull
      simp [cleanVal, wnRule, pyTruthy]
    · subst hx
      rw [hcv, wnRule]
      by_cases htr : pyTruthy (JVal.arr xs) = true
      · simp [htr, hcwn]
      · simp [htr]
  have hwd2 : wdRule wn (cleanVal wd) = Except.ok (wn, wd) := by
    rcases hwd with hnull | ⟨w, hw, hne, hfix, hkw⟩
    · subst hnull
      simp [cleanVal, wdRule, pyTruthy]
    · subst hw
      rw [cleanVal_str_fixed hne hfix]
      simp [wdRule, pyTruthy, hne, hkw]
  have hbse2 : boolRule (extractBooleans t).1 (cleanVal bse) = bse := by
    obtain ⟨b, hb⟩ := hbse
    subst hb
    simp [cleanVal, boolRule, isNull]
  have hrrg2 : boolRule (extractBooleans t).2 (cleanVal rrg) = rrg := by
    obtain ⟨b, hb⟩ := hrrg
    subst hb
    simp [cleanVal, boolRule, isNull]
  have hsr2 : srRule (cleanVal sr) = sr := by
    rcases hsr with hnull | ⟨o, ho, hfix⟩
    · subst hnull
      rfl
    · subst ho
      rw [show cleanVal (JVal.obj o) = JVal.obj o from rfl]
      rw [srRule, hfix]
  have hgeo2 : geoRule (cleanVal geo) = geo := by
    rcases hgeo with hnull | ⟨o, ho, hfix⟩
    · subst hnull
      rfl
    · subst ho
      rw [show cleanVal (JVal.obj o) = JVal.obj o from rfl]
      rw [geoRule, hfix]
  have hdim2 : geoRule (cleanVal dim) = dim := by
    rcases hdim with hnull | ⟨o, ho, hfix⟩
    · subst hnull
      rfl
    · subst ho
      rw [show cleanVal (JVal.obj o) = JVal.obj o from rfl]
      rw [geoRule, hfix]
  have tblFix : ∀ (T : JVal), (T = JVal.null ∨ (pyTruthy T = true ∧
      normalizeTables T = Except.ok T ∧ normTable T = Except.ok T)) →
      cleanVal T = T ∧ tblRule1 T = Except.ok T ∧ tblRule2 T = Except.ok T := by
    intro T hT
    rcases hT with hnull | ⟨htr, hnt, hnt2⟩
    · subst hnull
      refine ⟨rfl, ?_, ?_⟩
      · simp [tblRule1, pyTruthy]
      · simp [tblRule2, pyTruthy]
    · have hobj : ∃ o, T = JVal.obj o := by
        cases T with
        | obj o => exact ⟨o, rfl⟩
        | null => exact absurd htr (by decide)
        | b bb =>
          injection hnt with hh
          exact absurd hh (fun hc => JVal.noConfusion hc)
        | i n =>
          injection hnt with hh
          exact absurd hh (fun hc => JVal.noConfusion hc)
        | s st =>
          injection hnt with hh
          exact absurd hh (fun hc => JVal.noConfusion hc)
        | arr xs =>
          injection hnt with hh
          exact absurd hh (fun hc => JVal.noConfusion hc)
      obtain ⟨o, ho⟩ := hobj
      refine ⟨by rw [ho]; rfl, ?_, ?_⟩
      · rw [tblRule1, if_pos htr]
        exact hnt
      · rw [tblRule2, if_pos htr]
        exact hnt2
  obtain ⟨hcvtgl, htglA, htglB⟩ := tblFix tgl htgl
  obtain ⟨hcvtm, htmA, htmB⟩ := tblFix tm htm
  obtain ⟨hcvtws, htwsA, htwsB⟩ := tblFix tws htws
  have hlegA : legacyRule JVal.null tgl = Except.ok tgl := by
    simp [legacyRule, pyTruthy]
  have hnotes2 : notesRule (cleanVal notes) = notes := by
    obtain ⟨xs, hx, hcv⟩ := hnotes
    subst hx
    rw [hcv]
    simp [notesRule, isNull]
  have hdn2 : heurRule dnSearch t (cleanVal dn) = dn := by
    rcases hdn with ⟨hnull, hds⟩ | ⟨sd, hsd, hne, hfix⟩
    · subst hnull
      simp [cleanVal, heurRule, pyTruthy, hds]
    · subst hsd
      rw [cleanVal_str_fixed hne hfix]
      simp [heurRule, pyTruthy, hne]
  have hrev2 : heurRule revSearch t (cleanVal rev) = rev := by
    rcases hrev with ⟨hnull, hds⟩ | ⟨sd, hsd, hne, hfix⟩
    · subst hnull
      simp [cleanVal, heurRule, pyTruthy, hds]
    · subst hsd
      rw [cleanVal_str_fixed hne hfix]
      simp [heurRule, pyTruthy, hne]
  unfold normalizeData
  simp [dictGet, hmg3, hpt2, hwn2, hwd2, hbse2, hrrg2, hsr2, hgeo2, hdim2,
    hcvtgl, hcvtm, hcvtws, htglA, htmA, htwsA, hlegA, htglB, htmB, htwsB,
    hwf, hnotes2, hdn2, hrev2]

/-- C6 witness: a concrete stable record (grade `S235`, one welding note,
one canonical tolerance table, a post-treatment that matches no grade, a
revision letter) is a fixed point of the engine. -/
theorem C6_idempotent_on_stable_records_witness :
    gradeSearch "" = none ∧ gradeSearch "painted" = none ∧
    normalizeData [("Material_Grade", JVal.s "S235"), ("Surface_Roughness", JVal.null),
      ("Geometrical_Tolerancing", JVal.null), ("Dimensional_Tolerancing", JVal.null),
      ("Break_Sharp_Edges", JVal.b false), ("Retaining_Ring_Grooves_Sharp", JVal.b true),
      ("Welding_Notes", JVal.arr [JVal.s "weld notes"]),
      ("Tolerances_General_Linear", JVal.obj [("unit", JVal.s "mm"),
        ("bands", JVal.obj [("0-20", JVal.s "±0.1")])]),
      ("Tolerances_Machining", JVal.null), ("Tolerances_Welded_Sheetmetal", JVal.null),
      ("Welding_Designation", JVal.null), ("Weld_Finish", JVal.null),
      ("Post_Treatment", JVal.s "painted"), ("Notes", JVal.arr [JVal.s "note one"]),
      ("Drawing_Number", JVal.null), ("Revision", JVal.s "B")] "" =
    Except.ok [("Material_Grade", JVal.s "S235"), ("Surface_Roughness", JVal.null),
      ("Geometrical_Tolerancing", JVal.null), ("Dimensional_Tolerancing", JVal.null),
      ("Break_Sharp_Edges", JVal.b false), ("Retaining_Ring_Grooves_Sharp", JVal.b true),
      ("Welding_Notes", JVal.arr [JVal.s "weld notes"]),
      ("Tolerances_General_Linear", JVal.obj [("unit", JVal.s "mm"),
        ("bands", JVal.obj [("0-20", JVal.s "±0.1")])]),
      ("Tolerances_Machining", JVal.null), ("Tolerances_Welded_Sheetmetal", JVal.null),
      ("Welding_Designation", JVal.null), ("Weld_Finish", JVal.null),
      ("Post_Treatment", JVal.s "painted"), ("Notes", JVal.arr [JVal.s "note one"]),
      ("Drawing_Number", JVal.null), ("Revision", JVal.s "B")] :=
  ⟨rfl, rfl,
    C6_idempotent_on_stable_records "" (JVal.s "S235") JVal.null JVal.null JVal.null
      (JVal.b false) (JVal.b true) (JVal.arr [JVal.s "weld notes"])
      (JVal.obj [("unit", JVal.s "mm"), ("bands", JVal.obj [("0-20", JVal.s "±0.1")])])
      JVal.null JVal.null JVal.null JVal.null (JVal.s "painted")
      (JVal.arr [JVal.s "note one"]) JVal.null (JVal.s "B")
      (Or.inr ⟨"S235", rfl, by decide, rfl, rfl, rfl⟩)
      (Or.inl rfl) (Or.inl rfl) (Or.inl rfl)
      ⟨false, rfl⟩ ⟨true, rfl⟩
      (Or.inr ⟨[JVal.s "weld notes"], rfl, rfl, rfl⟩)
      (Or.inr ⟨rfl, rfl, rfl⟩)
      (Or.inl rfl) (Or.inl rfl)
      (Or.inl rfl)
      rfl
      (Or.inr ⟨"painted", rfl, by decide, rfl, rfl⟩)
      ⟨[JVal.s "note one"], rfl, rfl⟩
      (Or.inl ⟨rfl, rfl⟩)
      (Or.inr ⟨"B", rfl, by decide, rfl⟩)⟩
